import Mathlib

/-!
# Verification of the EPU control-plane core

A shallow embedding, in Lean 4, of the Process Dispatcher Core
(`epu/processdispatcher/core.py`), the Needy decision engine
(`epu/decisionengine/impls/needy.py`) and the EPUM reactor
(`epu/epumanagement/reactor.py`), together with proofs of the behavioural
and invariant properties stated in the repository's specification.

Python dictionaries are embedded as insertion-ordered association lists,
Python sets as duplicate-free lists, and outbound I/O (EE-agent client
calls and subscriber notifications) as explicit effect lists.
-/

set_option maxHeartbeats 1600000

namespace Epu

/-- Modelled from the spec: `epu/states.py` is not part of the sources.
Spec §6: "InstanceState order: REQUESTING < REQUESTED < PENDING < RUNNING <
TERMINATING < TERMINATED < FAILED". -/
inductive InstanceState where
  | REQUESTING | REQUESTED | PENDING | RUNNING | TERMINATING | TERMINATED | FAILED
deriving DecidableEq, Repr

namespace InstanceState

def toNat : InstanceState → Nat
  | .REQUESTING => 0
  | .REQUESTED => 1
  | .PENDING => 2
  | .RUNNING => 3
  | .TERMINATING => 4
  | .TERMINATED => 5
  | .FAILED => 6

instance : LT InstanceState := ⟨fun a b => a.toNat < b.toNat⟩
instance : LE InstanceState := ⟨fun a b => a.toNat ≤ b.toNat⟩

instance (a b : InstanceState) : Decidable (a < b) :=
  inferInstanceAs (Decidable (a.toNat < b.toNat))

instance (a b : InstanceState) : Decidable (a ≤ b) :=
  inferInstanceAs (Decidable (a.toNat ≤ b.toNat))

end InstanceState

/-- Modelled from the spec: `epu/states.py` is not part of the sources.
Spec §6: "ProcessState order: REQUESTED < WAITING < PENDING < RUNNING <
TERMINATING < TERMINATED < FAILED < REJECTED < DIED_REQUESTED". -/
inductive ProcessState where
  | REQUESTED | WAITING | PENDING | RUNNING | TERMINATING | TERMINATED
  | FAILED | REJECTED | DIED_REQUESTED
deriving DecidableEq, Repr

namespace ProcessState

def toNat : ProcessState → Nat
  | .REQUESTED => 0
  | .WAITING => 1
  | .PENDING => 2
  | .RUNNING => 3
  | .TERMINATING => 4
  | .TERMINATED => 5
  | .FAILED => 6
  | .REJECTED => 7
  | .DIED_REQUESTED => 8

instance : LT ProcessState := ⟨fun a b => a.toNat < b.toNat⟩
instance : LE ProcessState := ⟨fun a b => a.toNat ≤ b.toNat⟩

instance (a b : ProcessState) : Decidable (a < b) :=
  inferInstanceAs (Decidable (a.toNat < b.toNat))

instance (a b : ProcessState) : Decidable (a ≤ b) :=
  inferInstanceAs (Decidable (a.toNat ≤ b.toNat))

end ProcessState

/-! ## Association lists (embedding of Python dicts) -/

/-- `d[k]` on a Python dict: look up the first binding of `key`. -/
def alookup {α : Type} : List (String × α) → String → Option α
  | [], _ => none
  | (k, v) :: t, key => if k = key then some v else alookup t key

/-- `d[k] = v` on a Python dict: replace the first binding of `key` in
place, or append a new binding. -/
def aset {α : Type} : List (String × α) → String → α → List (String × α)
  | [], key, v => [(key, v)]
  | (k, v') :: t, key, v => if k = key then (key, v) :: t else (k, v') :: aset t key v

/-- `del d[k]` on a Python dict (total: no-op when the key is absent). -/
def adel {α : Type} : List (String × α) → String → List (String × α)
  | [], _ => []
  | (k, v) :: t, key => if k = key then t else (k, v) :: adel t key

/-- Mutating `d[k]` in place through an object reference (no-op when the
key is absent). -/
def aupd {α : Type} : List (String × α) → String → (α → α) → List (String × α)
  | [], _, _ => []
  | (k, v) :: t, key, f => if k = key then (k, f v) :: t else (k, v) :: aupd t key f

/-- `s.add(x)` on a Python set embedded as a duplicate-free list. -/
def listInsert (l : List String) (x : String) : List String :=
  if x ∈ l then l else l ++ [x]

@[simp] theorem alookup_nil {α : Type} (k : String) : alookup ([] : List (String × α)) k = none := rfl

@[simp] theorem alookup_cons {α : Type} (k k' : String) (v : α) (t : List (String × α)) :
    alookup ((k, v) :: t) k' = if k = k' then some v else alookup t k' := rfl

@[simp] theorem aset_nil {α : Type} (k : String) (v : α) : aset [] k v = [(k, v)] := rfl

@[simp] theorem aset_cons {α : Type} (k k' : String) (v v' : α) (t : List (String × α)) :
    aset ((k, v') :: t) k' v = if k = k' then (k', v) :: t else (k, v') :: aset t k' v := rfl

@[simp] theorem adel_nil {α : Type} (k : String) : adel ([] : List (String × α)) k = [] := rfl

@[simp] theorem adel_cons {α : Type} (k k' : String) (v : α) (t : List (String × α)) :
    adel ((k, v) :: t) k' = if k = k' then t else (k, v) :: adel t k' := rfl

@[simp] theorem aupd_nil {α : Type} (k : String) (f : α → α) : aupd [] k f = [] := rfl

@[simp] theorem aupd_cons {α : Type} (k k' : String) (v : α) (t : List (String × α)) (f : α → α) :
    aupd ((k, v) :: t) k' f = if k = k' then (k, f v) :: t else (k, v) :: aupd t k' f := rfl

theorem alookup_aset_self {α : Type} (l : List (String × α)) (k : String) (v : α) :
    alookup (aset l k v) k = some v := by
  induction l with
  | nil => simp [aset, alookup]
  | cons h t ih =>
    obtain ⟨k', v'⟩ := h
    by_cases hk : k' = k <;> simp [aset, alookup, hk, ih]

theorem alookup_aset_ne {α : Type} (l : List (String × α)) (k k' : String) (v : α)
    (h : k ≠ k') : alookup (aset l k v) k' = alookup l k' := by
  induction l with
  | nil => simp [aset, alookup, h]
  | cons hd t ih =>
    obtain ⟨k'', v''⟩ := hd
    by_cases hk : k'' = k
    · subst hk
      simp [aset, alookup, h]
    · simp [aset, alookup, hk, ih]

theorem alookup_aupd_self {α : Type} (l : List (String × α)) (k : String) (f : α → α) :
    alookup (aupd l k f) k = (alookup l k).map f := by
  induction l with
  | nil => simp [aupd, alookup]
  | cons hd t ih =>
    obtain ⟨k', v'⟩ := hd
    by_cases hk : k' = k <;> simp [aupd, alookup, hk, ih]

theorem alookup_aupd_ne {α : Type} (l : List (String × α)) (k k' : String) (f : α → α)
    (h : k ≠ k') : alookup (aupd l k f) k' = alookup l k' := by
  induction l with
  | nil => simp [aupd, alookup]
  | cons hd t ih =>
    obtain ⟨k'', v''⟩ := hd
    by_cases hk : k'' = k
    · subst hk
      simp [aupd, alookup, h]
    · simp [aupd, alookup, hk, ih]

/-! ## Process Dispatcher Core data model (`epu/processdispatcher/core.py`) -/

/-- A process spec: `spec['run_type']` and `spec['parameters']`
(the parameters blob is kept opaque). -/
structure PSpec where
  run_type : String
  parameters : String
deriving DecidableEq, Repr

/-- A constraint value: a scalar or a list (cf. `match_constraints`). -/
inductive CVal where
  | scalar (s : String)
  | list (vs : List String)
deriving DecidableEq, Repr

/-- `match_constraints(constraints, properties)` from
`epu/processdispatcher/core.py`: `None` constraints match everything; a
`None` constraint value is skipped; otherwise the resource property must
exist and equal the scalar value, or be contained in the list value. -/
def match_constraints (constraints : Option (List (String × Option CVal)))
    (properties : Option (List (String × String))) : Bool :=
  match constraints with
  | none => true
  | some cs => cs.all fun kv =>
    match kv.2 with
    | none => true
    | some v =>
      match properties with
      | none => false
      | some props =>
        match alookup props kv.1 with
        | none => false
        | some advertised =>
          match v with
          | .list vs => vs.contains advertised
          | .scalar s => advertised == s

/-- `ProcessRecord` from `epu/processdispatcher/core.py`. -/
structure ProcessRecord where
  upid : String
  spec : PSpec
  state : ProcessState
  subscribers : List String
  constraints : Option (List (String × Option CVal))
  round : Nat
  priority : Nat
  immediate : Bool
  assigned : Option String
deriving DecidableEq, Repr

/-- `ExecutionEngineResource` from `epu/processdispatcher/core.py`.
`processes` starts as an empty dict and is later assigned the
`running_upids` list by `ee_heartbeart`; both are embedded as a list of
upids. `pending` is a Python set, embedded as a duplicate-free list. -/
structure ExecutionEngineResource where
  node_id : String
  ee_id : String
  slot_count : Nat
  properties : Option (List (String × String))
  processes : List String
  pending : List String
  enabled : Bool
deriving DecidableEq, Repr

/-- `available_slots`: `enabled ? max(0, slot_count - len(processes) -
len(pending)) : 0` (truncated subtraction on `Nat` is exactly the
`max(0, ...)`). -/
def ExecutionEngineResource.available_slots (r : ExecutionEngineResource) : Nat :=
  if r.enabled then r.slot_count - (r.processes.length + r.pending.length) else 0

/-- `DeployedNode` from `epu/processdispatcher/core.py`. The source keeps
a list of resource objects aliasing the entries of the core's resource
table; the embedding keys resources by `ee_id` in one table and lets
nodes hold the `ee_id` list. -/
structure DeployedNode where
  node_id : String
  dt : String
  properties : Option (List (String × String))
  resources : List String
deriving DecidableEq, Repr

/-- An EE-registry entry. Modelled from the spec (§2 "EE Registry", §3
"EngineSpec"): the registry module is not part of the sources. -/
structure EngineSpec where
  deployable_type : String
  engine_id : String
  slots : Nat
  base_need : Nat
deriving DecidableEq, Repr

/-- `ee_registry.get_engine_by_dt(dt)`. Modelled from the spec: a static
table lookup by deployable type. -/
def getEngineByDt (reg : List EngineSpec) (dt : String) : Option EngineSpec :=
  reg.find? (fun es => es.deployable_type == dt)

/-- Modelled from the spec: `epu/processdispatcher/util.py` is not part of
the sources; §4.6 only requires that the node id be derivable from the
EE-agent sender name, and §3 that `ee_id` equal the sender name, so the
embedding identifies the two. -/
def node_id_from_eeagent_name (sender : String) : String := sender

/-- The outbound calls of the Process Dispatcher Core: EE-agent client
calls and subscriber notifications (`notify_process` records the snapshot
of the record at call time). -/
inductive Effect where
  | launch_process (ee upid : String) (round : Nat) (run_type parameters : String)
  | terminate_call (ee upid : String) (round : Nat)
  | cleanup_process (ee upid : String) (round : Nat)
  | notify_process (upid : String) (state : ProcessState) (round : Nat) (assigned : Option String)
deriving DecidableEq, Repr

/-- The mutable state of `ProcessDispatcherCore`: process, resource and
node tables plus the runnable queue (queued records are aliased table
entries in the source, so the queue is embedded as the list of their
upids). -/
structure PDC where
  ee_registry : List EngineSpec
  processes : List (String × ProcessRecord)
  resources : List (String × ExecutionEngineResource)
  nodes : List (String × DeployedNode)
  queue : List String
deriving DecidableEq, Repr

/-- A fresh core: empty tables and queue. -/
def PDC.init (reg : List EngineSpec) : PDC :=
  { ee_registry := reg, processes := [], resources := [], nodes := [], queue := [] }

/-- `_dispatch_matched_process(process, resource)`: set `assigned` and
PENDING, add the upid to the resource's pending set, emit the EE launch. -/
def dispatchMatchedProcess (S : PDC) (upid ee : String) : PDC × List Effect :=
  match alookup S.processes upid with
  | none => (S, [])
  | some p =>
    let p' := { p with assigned := some ee, state := ProcessState.PENDING }
    ({ S with
        processes := aset S.processes upid p',
        resources := aupd S.resources ee
          (fun r => { r with pending := listInsert r.pending upid }) },
     [Effect.launch_process ee upid p.round p.spec.run_type p.spec.parameters])

/-- The matchmaking candidate filter: `available_slots > 0` and the
constraints match the resource properties. -/
def resourceMatches (p : ProcessRecord) (r : ExecutionEngineResource) : Bool :=
  decide (0 < r.available_slots) && match_constraints p.constraints r.properties

/-- The candidate resources of `_matchmake_process`, in table order. -/
def candidates (S : PDC) (p : ProcessRecord) : List ExecutionEngineResource :=
  (S.resources.map Prod.snd).filter (resourceMatches p)

/-- `min(matching, key=lambda r: r.slot_count)`: first element of minimal
total `slot_count` (Python's `min` keeps the earliest of equal keys). -/
def minBySlots : List ExecutionEngineResource → Option ExecutionEngineResource
  | [] => none
  | r :: t => some (t.foldl (fun acc x => if x.slot_count < acc.slot_count then x else acc) r)

/-- `_matchmake_process(process)`: filter candidates; none → REJECTED
(immediate) or WAITING + queue append; otherwise dispatch onto the
candidate with the smallest total `slot_count`. -/
def matchmakeProcess (S : PDC) (upid : String) : PDC × List Effect :=
  match alookup S.processes upid with
  | none => (S, [])
  | some p =>
    match minBySlots (candidates S p) with
    | none =>
      if p.immediate then
        ({ S with processes := aset S.processes upid { p with state := ProcessState.REJECTED } }, [])
      else
        ({ S with
            processes := aset S.processes upid { p with state := ProcessState.WAITING },
            queue := S.queue ++ [upid] }, [])
    | some r => dispatchMatchedProcess S upid r.ee_id

/-- `dispatch_process(upid, spec, subscribers, constraints, immediate)`:
return the existing record unchanged if the upid is known, else create a
REQUESTED record, matchmake it, and return the resulting record. -/
def dispatch_process (S : PDC) (upid : String) (spec : PSpec) (subscribers : List String)
    (constraints : Option (List (String × Option CVal))) (immediate : Bool) :
    PDC × List Effect × Option ProcessRecord :=
  match alookup S.processes upid with
  | some p => (S, [], some p)
  | none =>
    let p : ProcessRecord :=
      { upid := upid, spec := spec, state := ProcessState.REQUESTED,
        subscribers := subscribers, constraints := constraints,
        round := 0, priority := 0, immediate := immediate, assigned := none }
    let S1 := { S with processes := aset S.processes upid p }
    let r := matchmakeProcess S1 upid
    (r.1, r.2, alookup r.1.processes upid)

/-- `terminate_process(upid)`: absent → error (the source indexes the
dict, raising `KeyError`); state ≥ TERMINATED → no-op; unassigned → mark
TERMINATED; otherwise send the EE terminate and mark TERMINATING. -/
def terminate_process (S : PDC) (upid : String) :
    Except Unit (PDC × List Effect × ProcessRecord) :=
  match alookup S.processes upid with
  | none => Except.error ()
  | some p =>
    if ProcessState.TERMINATED ≤ p.state then Except.ok (S, [], p)
    else
      match p.assigned with
      | none =>
        let p' := { p with state := ProcessState.TERMINATED }
        Except.ok ({ S with processes := aset S.processes upid p' }, [], p')
      | some ee =>
        let p' := { p with state := ProcessState.TERMINATING }
        Except.ok ({ S with processes := aset S.processes upid p' },
          [Effect.terminate_call ee upid p.round], p')

/-- The body of the per-process reschedule loop of `dt_state` for one
upid running on a dying resource `ee`: best-effort terminate when the
state is below TERMINATED; TERMINATING → TERMINATED + notify (the source
does not clear `assigned` here); below TERMINATING → bump round, clear
`assigned`, DIED_REQUESTED, notify, re-matchmake, notify again. -/
def rescheduleUpid (ee : String) (acc : PDC × List Effect) (upid : String) : PDC × List Effect :=
  let S := acc.1
  let effs := acc.2
  match alookup S.processes upid with
  | none => (S, effs)
  | some p =>
    let effs1 := if p.state < ProcessState.TERMINATED then
        effs ++ [Effect.terminate_call ee upid p.round] else effs
    if p.state = ProcessState.TERMINATING then
      let p' := { p with state := ProcessState.TERMINATED }
      ({ S with processes := aset S.processes upid p' },
       effs1 ++ [Effect.notify_process upid p'.state p'.round p'.assigned])
    else if p.state < ProcessState.TERMINATING then
      let p' := { p with round := p.round + 1, assigned := none,
                         state := ProcessState.DIED_REQUESTED }
      let S1 := { S with processes := aset S.processes upid p' }
      let e1 := effs1 ++ [Effect.notify_process upid p'.state p'.round p'.assigned]
      let r := matchmakeProcess S1 upid
      let p2 := (alookup r.1.processes upid).getD p'
      (r.1, e1 ++ r.2 ++ [Effect.notify_process upid p2.state p2.round p2.assigned])
    else (S, effs1)

/-- One dying resource's reschedule loop: iterate the snapshot of its
`processes` collection (the loop body never changes the `processes` of a
disabled resource, so the snapshot equals the live list). -/
def rescheduleResource (acc : PDC × List Effect) (ee : String) : PDC × List Effect :=
  match alookup acc.1.resources ee with
  | none => acc
  | some r => r.processes.foldl (rescheduleUpid ee) acc

/-- `dt_state(node_id, deployable_type, state, properties)`: RUNNING
registers an unknown node; TERMINATING/TERMINATED disables the node's
resources, reschedules the processes they acknowledged, and drops the
node and its resources from the tables. -/
def dt_state (S : PDC) (node_id deployable_type : String) (state : InstanceState)
    (properties : Option (List (String × String))) : PDC × List Effect :=
  if state = InstanceState.RUNNING then
    match alookup S.nodes node_id with
    | some _ => (S, [])
    | none =>
      let n : DeployedNode :=
        { node_id := node_id, dt := deployable_type, properties := properties,
          resources := [] }
      ({ S with nodes := aset S.nodes node_id n }, [])
  else if state = InstanceState.TERMINATING ∨ state = InstanceState.TERMINATED then
    match alookup S.nodes node_id with
    | none => (S, [])
    | some node =>
      let S1 := node.resources.foldl
        (fun s ee =>
          { s with resources := aupd s.resources ee (fun r => { r with enabled := false }) }) S
      let r2 := node.resources.foldl rescheduleResource (S1, [])
      let S3 := { r2.1 with nodes := adel r2.1.nodes node_id }
      let S4 := node.resources.foldl
        (fun s ee => { s with resources := adel s.resources ee }) S3
      (S4, r2.2)
  else (S, [])

/-- One entry of `beat['processes']` (the compound list-form of the state
field is already normalized to the enum in the embedding). -/
structure BeatProc where
  upid : String
  round : Nat
  state : ProcessState
deriving DecidableEq, Repr

/-- The accumulator of the `ee_heartbeart` reconciliation loop: current
core state, effects emitted so far, and the `running_upids` list. -/
structure HBAcc where
  S : PDC
  effs : List Effect
  running : List String
deriving Repr

/-- One iteration of the `ee_heartbeart` reconciliation loop over a
reported process: accumulate `running_upids` for states ≤ RUNNING,
skip unknown upids and stale rounds, acknowledge pending dispatch,
handle PENDING→RUNNING and reported TERMINATED/FAILED. -/
def hbStep (sender : String) (acc : HBAcc) (e : BeatProc) : HBAcc :=
  let running := if e.state ≤ ProcessState.RUNNING then acc.running ++ [e.upid] else acc.running
  match alookup acc.S.processes e.upid with
  | none => { acc with running := running }
  | some p =>
    if e.round < p.round then { acc with running := running }
    else
      let res0 := aupd acc.S.resources sender
        (fun r => { r with pending := r.pending.erase e.upid })
      let S0 := { acc.S with resources := res0 }
      if e.state = p.state then { S := S0, effs := acc.effs, running := running }
      else if p.state = ProcessState.PENDING ∧ e.state = ProcessState.RUNNING then
        let p' := { p with state := ProcessState.RUNNING }
        { S := { S0 with processes := aset S0.processes e.upid p' },
          effs := acc.effs ++ [Effect.notify_process e.upid p'.state p'.round p'.assigned],
          running := running }
      else if e.state = ProcessState.TERMINATED ∨ e.state = ProcessState.FAILED then
        if p.state = ProcessState.TERMINATING then
          let p' := { p with state := ProcessState.TERMINATED, assigned := none }
          { S := { S0 with processes := aset S0.processes e.upid p' },
            effs := acc.effs
              ++ [Effect.notify_process e.upid p'.state p'.round p'.assigned]
              ++ [Effect.cleanup_process sender e.upid e.round],
            running := running }
        else if p.state = ProcessState.PENDING ∨ p.state = ProcessState.RUNNING then
          let p' := { p with state := ProcessState.DIED_REQUESTED, assigned := none,
                             round := p.round + 1 }
          let S1 := { S0 with processes := aset S0.processes e.upid p' }
          let r := matchmakeProcess S1 e.upid
          { S := r.1,
            effs := acc.effs
              ++ [Effect.notify_process e.upid p'.state p'.round p'.assigned]
              ++ r.2
              ++ [Effect.cleanup_process sender e.upid e.round],
            running := running }
        else
          { S := S0, effs := acc.effs ++ [Effect.cleanup_process sender e.upid e.round],
            running := running }
      else { S := S0, effs := acc.effs, running := running }

/-- The loop of `_consider_resource`: iterate the queue in order; skip
processes whose constraints do not match; break at the first matching
process once the resource has no available slot; otherwise dispatch and
record the upid as matched. -/
def considerLoop (ee : String) (S : PDC) (effs : List Effect) (matched : List String) :
    List String → PDC × List Effect × List String
  | [] => (S, effs, matched)
  | upid :: rest =>
    match alookup S.processes upid with
    | none => considerLoop ee S effs matched rest
    | some p =>
      match alookup S.resources ee with
      | none => considerLoop ee S effs matched rest
      | some r =>
        if match_constraints p.constraints r.properties then
          if r.available_slots = 0 then (S, effs, matched)
          else
            let d := dispatchMatchedProcess S upid ee
            considerLoop ee d.1 (effs ++ d.2) (matched ++ [upid]) rest
        else considerLoop ee S effs matched rest

/-- `_consider_resource(resource)`: dispatch matching queued processes
until the slots are exhausted, then drop the dispatched upids from the
queue in one pass. -/
def considerResource (S : PDC) (ee : String) : PDC × List Effect :=
  let r := considerLoop ee S [] [] S.queue
  if r.2.2 ≠ [] then
    ({ r.1 with queue := r.1.queue.filter (fun u => !(r.2.2.contains u)) }, r.2.1)
  else (r.1, r.2.1)

/-- `ee_heartbeart(sender, beat)`: register the resource on the first
heartbeat when the node is known (dropping the beat otherwise, and when
the registry has no engine for the node's deployable type), reconcile
the reported processes, replace the resource's `processes` collection
with the reported running upids, and opportunistically schedule queued
processes onto freed slots. -/
def ee_heartbeart (S : PDC) (sender : String) (beat : List BeatProc) : PDC × List Effect :=
  let node_id := node_id_from_eeagent_name sender
  let reg : Option PDC :=
    match alookup S.resources sender with
    | some _ => some S
    | none =>
      match alookup S.nodes node_id with
      | none => none
      | some node =>
        match getEngineByDt S.ee_registry node.dt with
        | none => none
        | some es =>
          let props := aset (node.properties.getD []) "engine_type" es.engine_id
          let r : ExecutionEngineResource :=
            { node_id := node_id, ee_id := sender, slot_count := es.slots,
              properties := some props, processes := [], pending := [], enabled := true }
          let res' := aset S.resources sender r
          let nodes' := aupd S.nodes node_id
            (fun n => { n with resources := n.resources ++ [sender] })
          some { S with resources := res', nodes := nodes' }
  match reg with
  | none => (S, [])
  | some S1 =>
    let acc := beat.foldl (hbStep sender) { S := S1, effs := [], running := [] }
    let res2 := aupd acc.S.resources sender (fun r => { r with processes := acc.running })
    let S2 := { acc.S with resources := res2 }
    if S2.queue ≠ [] ∧ 0 < ((alookup S2.resources sender).map
        ExecutionEngineResource.available_slots).getD 0 then
      let r3 := considerResource S2 sender
      (r3.1, acc.effs ++ r3.2)
    else (S2, acc.effs)

/-! ## Needy decision engine (`epu/decisionengine/impls/needy.py`) -/

/-- An engine-conf value. The source passes raw message payloads; the
embedding covers the types the spec's §4.3 table gives the recognized
keys (strings, integers, lists of strings). -/
inductive ConfVal where
  | vStr (s : String)
  | vInt (n : Int)
  | vList (l : List String)
deriving DecidableEq, Repr

/-- Python truthiness of a conf value. -/
def ConfVal.truthy : ConfVal → Bool
  | .vStr s => s ≠ ""
  | .vInt n => n ≠ 0
  | .vList l => l ≠ []

/-- `int(value)` on a conf value (strings are parsed, anything else
fails). -/
def ConfVal.asInt : ConfVal → Option Int
  | .vInt n => some n
  | .vStr s => s.toInt?
  | .vList _ => none

def CONF_PRESERVE_N : String := "preserve_n"
def CONF_DEPLOYABLE_TYPE : String := "deployable_type"
def CONF_RETIRABLE_NODES : String := "retirable_nodes"
def CONF_UNIQUE_KEY : String := "unique_key"
def CONF_UNIQUE_VALUES : String := "unique_values"

/-- Modelled from the spec: `epu/epumanagement/conf.py` is not part of the
sources; §4.3's table names the keys `iaas_site` and `iaas_allocation`. -/
def CONF_IAAS_SITE : String := "iaas_site"

/-- Modelled from the spec: see `CONF_IAAS_SITE`. -/
def CONF_IAAS_ALLOCATION : String := "iaas_allocation"

/-- The configuration state of `NeedyEngine` (the source's test-only
call counters are omitted). -/
structure NeedyEngine where
  preserve_n : Nat
  iaas_site : Option String
  iaas_allocation : Option String
  deployable_type : Option String
  retirable_nodes : List String
  unique_key : Option String
  unique_values : Option (List String)
deriving DecidableEq, Repr

/-- `NeedyEngine.__init__`. -/
def NeedyEngine.new : NeedyEngine :=
  { preserve_n := 0, iaas_site := none, iaas_allocation := none,
    deployable_type := none, retirable_nodes := [], unique_key := none,
    unique_values := none }

/-- `NeedyEngine._set_conf(newconf)`: empty conf is an error; negative
`preserve_n` is an error; recognized keys replace the current settings;
the unique key/values pair is set only when both are present and truthy
(a comma-separated string is split and trimmed, an empty result resets),
and is reset to `None` otherwise. Raised errors are modelled as `Except`
(without the source's partial mutation before the raise); conf values are
assumed to carry the types of the spec's §4.3 table. -/
def NeedyEngine.set_conf (e0 : NeedyEngine) (newconf : List (String × ConfVal)) :
    Except String NeedyEngine := do
  if newconf = [] then throw "requires engine conf"
  let e1 ← match alookup newconf CONF_PRESERVE_N with
    | none => pure e0
    | some v =>
      match v.asInt with
      | none => throw "invalid preserve_n conf"
      | some n =>
        if n < 0 then throw "cannot have negative preserve_n conf"
        else pure { e0 with preserve_n := n.toNat }
  let e2 := match alookup newconf CONF_IAAS_SITE with
    | some (ConfVal.vStr s) => { e1 with iaas_site := some s }
    | _ => e1
  let e3 := match alookup newconf CONF_IAAS_ALLOCATION with
    | some (ConfVal.vStr s) => { e2 with iaas_allocation := some s }
    | _ => e2
  let e4 := match alookup newconf CONF_DEPLOYABLE_TYPE with
    | some (ConfVal.vStr s) => { e3 with deployable_type := some s }
    | _ => e3
  let e5 := match alookup newconf CONF_RETIRABLE_NODES with
    | some (ConfVal.vList l) => { e4 with retirable_nodes := l }
    | _ => e4
  let e6 := match alookup newconf CONF_UNIQUE_KEY, alookup newconf CONF_UNIQUE_VALUES with
    | some kv, some vv =>
      if kv.truthy && vv.truthy then
        match kv, vv with
        | ConfVal.vStr k, ConfVal.vStr s =>
          let s2 := s.trim
          if s2 = "" then { e5 with unique_key := none, unique_values := none }
          else { e5 with unique_key := some k,
                         unique_values := some ((s2.splitOn ",").map String.trim) }
        | ConfVal.vStr k, ConfVal.vList l =>
          { e5 with unique_key := some k, unique_values := some l }
        | _, _ => { e5 with unique_key := none, unique_values := none }
      else { e5 with unique_key := none, unique_values := none }
    | _, _ => { e5 with unique_key := none, unique_values := none }
  pure e6

/-- `NeedyEngine.initialize(control, state, conf)` (the Lean name avoids
the Python method name): a straight `_set_conf` application, `None`
conf embedded as `[]`. -/
def NeedyEngine.engineStart (e : NeedyEngine) (conf : List (String × ConfVal)) :
    Except String NeedyEngine :=
  e.set_conf conf

/-- `NeedyEngine.reconfigure(control, newconf)`: empty conf is an error,
else `_set_conf`. -/
def NeedyEngine.reconfigure (e : NeedyEngine) (newconf : List (String × ConfVal)) :
    Except String NeedyEngine :=
  if newconf = [] then Except.error "reconfigure expects new engine conf"
  else e.set_conf newconf

/-- An instance as seen by the engine through the `EngineState`
snapshot. -/
structure EngineInstance where
  instance_id : String
  state : InstanceState
  extravars : Option (List (String × Option String))
deriving DecidableEq, Repr

/-- The `EngineState` snapshot: the instances dict and the
`get_unhealthy_instances()` report. -/
structure EngineState where
  instances : List (String × EngineInstance)
  unhealthy : List EngineInstance
deriving DecidableEq, Repr

/-- The engine's requests to its `Control`. -/
inductive EngineAction where
  | launch (dt site allocation : String) (extravars : Option (String × Option String))
  | destroy (instance_id : String)
deriving DecidableEq, Repr

/-- `BAD_STATES` from `needy.py`. -/
def BAD_STATES : List InstanceState :=
  [InstanceState.TERMINATING, InstanceState.TERMINATED, InstanceState.FAILED]

/-- `valid_set`: ids of instances not in a bad state (a Python set,
embedded as the duplicate-free list in first-occurrence order). -/
def EngineState.validList (st : EngineState) : List String :=
  (((st.instances.map Prod.snd).filter
      (fun i => !(BAD_STATES.contains i.state))).map
    (fun i => i.instance_id)).foldl listInsert []

/-- The unhealthy-instance phase of `decide`: destroy every unhealthy
instance and discard it from the valid set. -/
def unhealthyPhase (st : EngineState) : List String × List EngineAction :=
  st.unhealthy.foldl
    (fun acc i =>
      (acc.1.filter (fun id => id ≠ i.instance_id),
       acc.2 ++ [EngineAction.destroy i.instance_id]))
    (st.validList, [])

/-- `valid_uniques_set`: the unique values in use by valid instances
(truthy `extravars` dict, truthy value). -/
def validUniques (key : String) (st : EngineState) (valid : List String) : List String :=
  valid.foldl
    (fun acc id =>
      match alookup st.instances id with
      | none => acc
      | some i =>
        match i.extravars with
        | none => acc
        | some ev =>
          if ev = [] then acc
          else
            match alookup ev key with
            | some (some v) => if v ≠ "" then listInsert acc v else acc
            | _ => acc) []

/-- The launch loop of `decide`: each launch consumes the next unused
unique value, `none` once exhausted; no extravars without a unique key. -/
def launchSeq (dt site allocation : String) (key : Option String) :
    List String → Nat → List EngineAction
  | _, 0 => []
  | unused, n + 1 =>
    match key with
    | none => EngineAction.launch dt site allocation none
        :: launchSeq dt site allocation none unused n
    | some k => EngineAction.launch dt site allocation (some (k, unused.head?))
        :: launchSeq dt site allocation (some k) unused.tail n

/-- The destroy loop of `decide`: scan the remaining valid set for a
retirable id (Python treats a falsy id as not found and falls back to the
random sample, modelled by the `pick` oracle), destroy it, and discard it
from the set. -/
def destroySeq (retirable : List String) (pick : List String → String) :
    List String → Nat → List EngineAction
  | _, 0 => []
  | valid, n + 1 =>
    let die := match valid.find? (fun i => retirable.contains i) with
      | some d => if d = "" then pick valid else d
      | none => pick valid
    EngineAction.destroy die
      :: destroySeq retirable pick (valid.filter (fun i => i ≠ die)) n

/-- `NeedyEngine.decide(control, state)`: destroy unhealthy instances,
then launch up to `preserve_n` (with unique extravars when configured) or
destroy down to it (preferring retirable ids, else the random `pick`).
The returned flag is the source's `force_pending`. `random.sample` is the
`pick` oracle; `_launch_one`'s missing-configuration exceptions are the
error cases. -/
def NeedyEngine.decide (e : NeedyEngine) (pick : List String → String) (st : EngineState) :
    Except String (List EngineAction × Bool) :=
  let vp := unhealthyPhase st
  let valid := vp.1
  let acts0 := vp.2
  let validUniq := match e.unique_key with
    | none => []
    | some k => validUniques k st valid
  let vc := valid.length
  if vc = e.preserve_n then Except.ok (acts0, false)
  else if vc < e.preserve_n then
    match e.iaas_site with
    | none => Except.error "No IaaS site configuration"
    | some site =>
      if site = "" then Except.error "No IaaS site configuration"
      else
        match e.iaas_allocation with
        | none => Except.error "No IaaS allocation configuration"
        | some allocation =>
          if allocation = "" then Except.error "No IaaS allocation configuration"
          else
            match e.deployable_type with
            | none => Except.error "No deployable type configuration"
            | some dt =>
              if dt = "" then Except.error "No deployable type configuration"
              else
                match e.unique_key with
                | none => Except.ok
                    (acts0 ++ launchSeq dt site allocation none [] (e.preserve_n - vc), true)
                | some k =>
                  match e.unique_values with
                  | none => Except.error "unique_values not configured"
                  | some vals =>
                    let unused := vals.filter (fun v => !(validUniq.contains v))
                    Except.ok
                      (acts0 ++ launchSeq dt site allocation (some k) unused
                        (e.preserve_n - vc), true)
  else Except.ok (acts0 ++ destroySeq e.retirable_nodes pick valid (vc - e.preserve_n), true)

/-! ## EPUM reactor (`epu/epumanagement/reactor.py`) -/

/-- An instance record as the reactor sees it. -/
structure RInstance where
  instance_id : String
  state : InstanceState
deriving DecidableEq, Repr

/-- A domain held by the store: its id and instance records. -/
structure RDomain where
  domain_id : String
  instances : List (String × RInstance)
deriving DecidableEq, Repr

/-- The store as the reactor uses it for instance-state messages. -/
structure EpumStore where
  domains : List (String × RDomain)
deriving DecidableEq, Repr

/-- Modelled from the spec: the store's reverse index
`get_domain_for_instance_id` (§4.1, "at most one domain per instance"),
returning the keyed entry of the first domain holding the instance. -/
def EpumStore.domainForInstance (s : EpumStore) (iid : String) :
    Option (String × RDomain) :=
  s.domains.find? (fun kv => (alookup kv.2.instances iid).isSome)

/-- Modelled from the spec: the store's `new_instance_state` "preserves
monotonicity and stamps timestamps" (§4.4); backward transitions are
rejected (§3). -/
def RDomain.recordInstanceState (d : RDomain) (iid : String) (st : InstanceState) : RDomain :=
  let ins := aupd d.instances iid (fun i => if i.state < st then { i with state := st } else i)
  { d with instances := ins }

/-- An instance-state message: `node_id` and `state` are required fields
(missing ones are the `KeyError` path). -/
structure StateMsg where
  node_id : Option String
  state : Option InstanceState
deriving DecidableEq, Repr

/-- A call made to `subscribers.notify_subscribers(instance, domain,
notify_state)`: the pre-update instance record, the domain id, and the
reduced state. -/
structure Notification where
  inst : Option RInstance
  domain_id : String
  state : InstanceState
deriving DecidableEq, Repr

/-- `EPUMReactor.new_instance_state(content)`: drop malformed messages
and unknown domains; record the state through the store; for reported
state < RUNNING stay silent, for RUNNING notify RUNNING, above RUNNING
notify FAILED; a notifier exception (the `notify` oracle's `error`
outcome) is caught and counted as a logged error, never propagated — so
the handler's own result is always `ok`. The returned triple is the new
store, the notification calls made, and the number of notifier errors
logged. -/
def EPUMReactor.new_instance_state (store : EpumStore)
    (notify : Option RInstance → String → InstanceState → Except String Unit)
    (content : StateMsg) :
    Except String (EpumStore × List Notification × Nat) :=
  match content.node_id, content.state with
  | none, _ => Except.ok (store, [], 0)
  | _, none => Except.ok (store, [], 0)
  | some iid, some st =>
    if iid = "" then Except.ok (store, [], 0)
    else
      match store.domainForInstance iid with
      | none => Except.ok (store, [], 0)
      | some kv =>
        let inst := alookup kv.2.instances iid
        let store' : EpumStore :=
          { domains := aset store.domains kv.1 (kv.2.recordInstanceState iid st) }
        if st < InstanceState.RUNNING then Except.ok (store', [], 0)
        else
          let ns := if st = InstanceState.RUNNING then InstanceState.RUNNING
                    else InstanceState.FAILED
          match notify inst kv.2.domain_id ns with
          | Except.ok _ => Except.ok (store', [⟨inst, kv.2.domain_id, ns⟩], 0)
          | Except.error _ => Except.ok (store', [⟨inst, kv.2.domain_id, ns⟩], 1)

/-! ## Claim predicates and operation wrappers -/

/-- The upid is in the waiting queue. -/
def inQueueB (S : PDC) (u : String) : Bool := S.queue.contains u

/-- The upid is in some resource's pending set. -/
def inPendingB (S : PDC) (u : String) : Bool :=
  S.resources.any (fun kv => kv.2.pending.contains u)

/-- The upid is in some resource's processes collection. -/
def inProcessesB (S : PDC) (u : String) : Bool :=
  S.resources.any (fun kv => kv.2.processes.contains u)

/-- The spec's exclusivity invariant for one upid: it appears in at most
one of the queue, some pending set, some processes collection. -/
def atMostOnePlace (S : PDC) (u : String) : Bool :=
  decide ((if inQueueB S u then 1 else 0) + (if inPendingB S u then 1 else 0)
    + (if inProcessesB S u then 1 else 0) ≤ 1)

/-- The spec's assigned-resource invariant for one upid: a non-null
`assigned` names an existing resource, or the process is in a terminal or
restart-pending state. -/
def assignedOkB (S : PDC) (u : String) : Bool :=
  match alookup S.processes u with
  | none => true
  | some p =>
    match p.assigned with
    | none => true
    | some ee =>
      (alookup S.resources ee).isSome ||
      [ProcessState.TERMINATED, ProcessState.FAILED, ProcessState.REJECTED,
        ProcessState.DIED_REQUESTED].contains p.state

/-- The spec's assigned-nullity invariant for one upid: `assigned` is
null in {REQUESTED, WAITING, REJECTED, DIED_REQUESTED, TERMINATED,
FAILED} and non-null in {PENDING, RUNNING, TERMINATING}. -/
def assignedNullityB (S : PDC) (u : String) : Bool :=
  match alookup S.processes u with
  | none => true
  | some p =>
    match p.state with
    | ProcessState.REQUESTED | ProcessState.WAITING | ProcessState.REJECTED
    | ProcessState.DIED_REQUESTED | ProcessState.TERMINATED | ProcessState.FAILED =>
        p.assigned = none
    | ProcessState.PENDING | ProcessState.RUNNING | ProcessState.TERMINATING =>
        p.assigned ≠ none

/-- `upid` was acknowledged by a heartbeat on resource `ee` (it is in
that resource's `processes` collection). -/
def ackedOn (S : PDC) (ee upid : String) : Prop :=
  ∃ r, alookup S.resources ee = some r ∧ upid ∈ r.processes

/-- A sequence of further `dispatch_process` calls with a fixed upid and
arbitrary other arguments, accumulating the emitted effects. -/
def dispatchCalls (upid : String) :
    PDC → List (PSpec × List String × Option (List (String × Option CVal)) × Bool) →
    PDC × List Effect
  | S, [] => (S, [])
  | S, a :: rest =>
    let r := dispatch_process S upid a.1 a.2.1 a.2.2.1 a.2.2.2
    let r2 := dispatchCalls upid r.1 rest
    (r2.1, r.2.1 ++ r2.2)

/-- `n` successive `terminate_process` calls on the same upid,
accumulating the emitted effects (stopping at a `NotFound`). -/
def terminateCalls (upid : String) : PDC → Nat → PDC × List Effect
  | S, 0 => (S, [])
  | S, n + 1 =>
    match terminate_process S upid with
    | Except.error _ => (S, [])
    | Except.ok r =>
      let r2 := terminateCalls upid r.1 n
      (r2.1, r.2.1 ++ r2.2)

/-- Correctness of a destroy-action sequence relative to a remaining
valid set: every victim is a remaining valid instance, a retirable one
whenever any remaining valid instance is retirable, and victims are
removed from the remaining set as they are destroyed. -/
def DestroyChoicesOK (retirable : List String) :
    List String → List EngineAction → Prop
  | _, [] => True
  | remaining, EngineAction.destroy d :: rest =>
      d ∈ remaining ∧ ((∃ x ∈ remaining, x ∈ retirable) → d ∈ retirable) ∧
      DestroyChoicesOK retirable (remaining.filter (fun i => i ≠ d)) rest
  | _, EngineAction.launch _ _ _ _ :: _ => False

/-- A public operation of the Process Dispatcher Core. -/
inductive PDOp where
  | dispatch (upid : String) (spec : PSpec) (subs : List String)
      (cons : Option (List (String × Option CVal))) (imm : Bool)
  | terminate (upid : String)
  | dtState (node_id dt : String) (st : InstanceState)
      (props : Option (List (String × String)))
  | heartbeat (sender : String) (beat : List BeatProc)

/-- Apply a public operation to the core state (a raised `NotFound`
leaves the state unchanged). -/
def applyOp (S : PDC) : PDOp → PDC
  | PDOp.dispatch u sp subs c i => (dispatch_process S u sp subs c i).1
  | PDOp.terminate u =>
    match terminate_process S u with
    | Except.ok r => r.1
    | Except.error _ => S
  | PDOp.dtState n d st pr => (dt_state S n d st pr).1
  | PDOp.heartbeat s b => (ee_heartbeart S s b).1

/-- An honest EE heartbeat relative to the current core state: each
process is reported at most once; a process reported at or below RUNNING
is known, at its current round, and assigned to the sender; a process
reported TERMINATED or FAILED at a non-stale round is assigned to the
sender. (An EE only reports processes the dispatcher launched on it; the
dispatcher never forgets a process and bumps the round whenever it
re-deploys one elsewhere.) -/
def honestBeat (S : PDC) (sender : String) (beat : List BeatProc) : Prop :=
  (beat.map (fun e => e.upid)).Nodup ∧
  (∀ e ∈ beat, e.state ≤ ProcessState.RUNNING →
    ∃ p, alookup S.processes e.upid = some p ∧ e.round = p.round ∧
      p.assigned = some sender) ∧
  (∀ e ∈ beat, (e.state = ProcessState.TERMINATED ∨ e.state = ProcessState.FAILED) →
    ∀ p, alookup S.processes e.upid = some p → p.round ≤ e.round →
      p.assigned = some sender)

/-- Honesty condition of one public operation (only heartbeats are
constrained). -/
def opHonest (S : PDC) : PDOp → Prop
  | PDOp.heartbeat s b => honestBeat S s b
  | _ => True

/-- Core states reachable from a fresh core through public operations
whose heartbeats are honest. -/
inductive ReachedHonest : PDC → Prop where
  | init (reg : List EngineSpec) : ReachedHonest (PDC.init reg)
  | step (S : PDC) (o : PDOp) : ReachedHonest S → opHonest S o → ReachedHonest (applyOp S o)

/-- The inductive well-formedness invariant of the core state. The
exclusivity of queue / pending / processes membership follows from the
assigned-consistency clauses plus per-resource disjointness: a upid in
a collection has a record assigning it to exactly that place. -/
structure PDCInv (S : PDC) : Prop where
  nodup_resources : (S.resources.map Prod.fst).Nodup
  nodup_nodes : (S.nodes.map Prod.fst).Nodup
  keys_resources : ∀ k r, alookup S.resources k = some r → r.ee_id = k
  pending_nodup : ∀ k r, alookup S.resources k = some r → r.pending.Nodup
  processes_nodup : ∀ k r, alookup S.resources k = some r → r.processes.Nodup
  pend_proc_disjoint : ∀ k r, alookup S.resources k = some r →
      ∀ u ∈ r.pending, u ∉ r.processes
  pending_assigned : ∀ k r, alookup S.resources k = some r → ∀ u ∈ r.pending,
      ∃ p, alookup S.processes u = some p ∧ p.assigned = some k
  processes_assigned : ∀ k r, alookup S.resources k = some r → ∀ u ∈ r.processes,
      ∃ p, alookup S.processes u = some p ∧ p.assigned = some k
  queue_assigned : ∀ u ∈ S.queue, ∃ p, alookup S.processes u = some p ∧ p.assigned = none
  node_resources : ∀ k n, alookup S.nodes k = some n → n.resources.Nodup ∧
      ∀ ee ∈ n.resources, (alookup S.resources ee).isSome ∧
        node_id_from_eeagent_name ee = k

/-! ## Concrete fixtures -/

/-- A registry with two deployable types (1-slot and 4-slot engines). -/
def exReg : List EngineSpec := [⟨"dt1", "eng1", 1, 0⟩, ⟨"dt2", "eng2", 4, 0⟩]

/-- Node `n1` registered RUNNING. -/
def exS1 : PDC := (dt_state (PDC.init exReg) "n1" "dt1" InstanceState.RUNNING none).1

/-- Node `n2` registered RUNNING. -/
def exS2 : PDC := (dt_state exS1 "n2" "dt2" InstanceState.RUNNING none).1

/-- First heartbeat from `n1`'s EE: resource `n1` (1 slot). -/
def exS3 : PDC := (ee_heartbeart exS2 "n1" []).1

/-- First heartbeat from `n2`'s EE: resource `n2` (4 slots). -/
def exS4 : PDC := (ee_heartbeart exS3 "n2" []).1

/-- Process `p` dispatched: PENDING, assigned `n1`, in `n1`'s pending
set. -/
def exDispatched : PDC := (dispatch_process exS4 "p" ⟨"rt", "pm"⟩ [] none false).1

/-- Heartbeat from `n1` acknowledges `p` RUNNING. -/
def exRunning : PDC := (ee_heartbeart exDispatched "n1" [⟨"p", 0, ProcessState.RUNNING⟩]).1

/-- First `terminate_process` call on the running `p`. -/
def exTermCall1 : PDC × List Effect :=
  match terminate_process exRunning "p" with
  | Except.ok r => (r.1, r.2.1)
  | Except.error _ => (exRunning, [])

/-- Second `terminate_process` call on `p`. -/
def exTermCall2 : PDC × List Effect :=
  match terminate_process exTermCall1.1 "p" with
  | Except.ok r => (r.1, r.2.1)
  | Except.error _ => (exTermCall1.1, [])

/-- Node `n1` lost while `p` is TERMINATING on it. -/
def exAfterLoss : PDC := (dt_state exTermCall1.1 "n1" "dt1" InstanceState.TERMINATED none).1

/-- Node `n1` lost while `p` is still unacknowledged in `n1`'s pending
set. -/
def exLostPending : PDC := (dt_state exDispatched "n1" "dt1" InstanceState.TERMINATED none).1

/-- A dishonest heartbeat from `n2` reporting `p`, which is pending on
`n1`. -/
def exCrossBeat : PDC := (ee_heartbeart exDispatched "n2" [⟨"p", 0, ProcessState.RUNNING⟩]).1

/-- The REQUESTED record `dispatch_process` creates for a fresh upid. -/
def freshRecord (upid : String) (spec : PSpec) (subs : List String)
    (cons : Option (List (String × Option CVal))) (imm : Bool) : ProcessRecord :=
  { upid := upid, spec := spec, state := ProcessState.REQUESTED, subscribers := subs,
    constraints := cons, round := 0, priority := 0, immediate := imm, assigned := none }

/-- The core state right after `dispatch_process` inserts the fresh
REQUESTED record, before matchmaking. -/
def dispatchInserted (S : PDC) (upid : String) (spec : PSpec) (subs : List String)
    (cons : Option (List (String × Option CVal))) (imm : Bool) : PDC :=
  { S with processes := aset S.processes upid (freshRecord upid spec subs cons imm) }

/-- The core state after `_dispatch_matched_process` enacts a match of a
present record `p` with the resource keyed `ee`. -/
def matchDispatched (S : PDC) (upid : String) (p : ProcessRecord) (ee : String) : PDC :=
  { S with
      processes := aset S.processes upid { p with assigned := some ee, state := ProcessState.PENDING },
      resources := aupd S.resources ee (fun res => { res with pending := listInsert res.pending upid }) }

/-- A one-domain, one-instance store for the reactor witness. -/
def exDomain : RDomain := ⟨"d1", [("i1", ⟨"i1", InstanceState.PENDING⟩)]⟩

/-- The store holding `exDomain`. -/
def exStore : EpumStore := ⟨[("d1", exDomain)]⟩

/-- A notifier that always raises. -/
def exBadNotify : Option RInstance → String → InstanceState → Except String Unit :=
  fun _ _ _ => Except.error "notify failed"

/-- Three valid instances, for the destroy-path witness. -/
def exSt3 : EngineState :=
  ⟨[("i1", ⟨"i1", InstanceState.RUNNING, none⟩), ("i2", ⟨"i2", InstanceState.RUNNING, none⟩),
    ("i3", ⟨"i3", InstanceState.PENDING, none⟩)], []⟩

/-- An engine preserving one instance and preferring to retire `i2`. -/
def exRetireEngine : NeedyEngine :=
  { preserve_n := 1, iaas_site := none, iaas_allocation := none, deployable_type := none,
    retirable_nodes := ["i2"], unique_key := none, unique_values := none }

/-- The DIED_REQUESTED record the reschedule path writes: round bumped,
assignment cleared. -/
def diedRecord (p : ProcessRecord) : ProcessRecord :=
  { p with round := p.round + 1, assigned := none, state := ProcessState.DIED_REQUESTED }

/-- The state right after the reschedule path marks `u` DIED_REQUESTED,
before re-matchmaking. -/
def diedState (S : PDC) (u : String) (p : ProcessRecord) : PDC :=
  { S with processes := aset S.processes u (diedRecord p) }

/-- The upids acknowledged on resource `ee` (its processes snapshot). -/
def processedOf (S : PDC) (ee : String) : List String :=
  ((alookup S.resources ee).map (fun r => r.processes)).getD []

/-- The fields of a resource entry that the dt_state reschedule loop
never changes (only pending sets change during rescheduling). -/
def resFlag (r : ExecutionEngineResource) : String × Bool × List String :=
  (r.ee_id, r.enabled, r.processes)

/-- Terminal or restart-pending process states (claim C5's escape
clause). -/
def terminalOrRestart (s : ProcessState) : Prop :=
  s = ProcessState.TERMINATED ∨ s = ProcessState.FAILED ∨ s = ProcessState.REJECTED ∨
  s = ProcessState.DIED_REQUESTED

/-- A record is safe in state `S`: unassigned, terminal/restart-pending,
or assigned to an enabled resource present in the table. -/
def safeRec (S : PDC) (q : ProcessRecord) : Prop :=
  q.assigned = none ∨ terminalOrRestart q.state ∨
  ∃ ee r, q.assigned = some ee ∧ alookup S.resources ee = some r ∧ r.enabled = true

/-- The invariant of the dt_state reschedule loop, relative to the state
`S1` at the start of the loop: resource entry keys, flags, node table
and queue evolve only by pending-set updates; every already-rescheduled
upid (`procd`) has a safe record; all other records are untouched. -/
structure RInv (S1 : PDC) (S : PDC) (procd : List String) : Prop where
  keys_ee : ∀ kv ∈ S.resources, kv.2.ee_id = kv.1
  keys_eq : S.resources.map Prod.fst = S1.resources.map Prod.fst
  flags : ∀ k, (alookup S.resources k).map resFlag = (alookup S1.resources k).map resFlag
  procd_G : ∀ u ∈ procd, ∀ q, alookup S.processes u = some q → safeRec S q
  untouched : ∀ u, u ∉ procd → alookup S.processes u = alookup S1.processes u

/-- The virtual state of the `ee_heartbeart` reconciliation loop: the
sender's `processes` collection replaced by the `running_upids`
accumulated so far (the loop only installs it after the last beat entry,
so mid-loop well-formedness is stated of this state). -/
def virt (sender : String) (Rl : List String) (X : PDC) : PDC :=
  { X with resources := aupd X.resources sender (fun r => { r with processes := Rl }) }

/-- The virtual state of the `_consider_resource` loop: the upids
dispatched so far removed from the queue (the loop only filters the
queue after the last candidate, so mid-loop well-formedness is stated of
this state). -/
def qvirt (X : PDC) (matched : List String) : PDC :=
  { X with queue := X.queue.filter (fun v => !(matched.contains v)) }

/-- The extra invariant of the dt_state reschedule loop needed for
exclusivity, alongside `RInv`: the assigned-consistency clauses of
`PDCInv` hold throughout, except that the `processes` collections of the
dying resources `D` (whose members are being rescheduled one by one) are
exempted. -/
structure DTExtra (D : List String) (S1 : PDC) (T : PDC) : Prop where
  nodes_eq : T.nodes = S1.nodes
  pending_nodup : ∀ k r, alookup T.resources k = some r → r.pending.Nodup
  pend_assigned : ∀ k r, alookup T.resources k = some r → ∀ u ∈ r.pending,
      ∃ p, alookup T.processes u = some p ∧ p.assigned = some k
  proc_assigned_live : ∀ k r, alookup T.resources k = some r → k ∉ D →
      ∀ u ∈ r.processes, ∃ p, alookup T.processes u = some p ∧ p.assigned = some k
  queue_assigned : ∀ u ∈ T.queue, ∃ p, alookup T.processes u = some p ∧ p.assigned = none
  pend_proc_disjoint : ∀ k r, alookup T.resources k = some r →
      ∀ u ∈ r.pending, u ∉ r.processes

/-! ## Theorems -/

/-- **C6** (code bug, failing execution): after `p` runs on `n1`
(`exRunning`), `terminate_process` marks it TERMINATING, and
`dt_state(n1, TERMINATED)` finalizes it to TERMINATED via the
"what luck" branch — which, unlike the identical TERMINATING→TERMINATED
transition in `ee_heartbeart` (core.py:450–453), does not clear
`assigned`. The record ends TERMINATED with `assigned = "n1"`, violating
the claimed nullity invariant. -/
theorem dt_state_terminated_keeps_assigned :
    (alookup exAfterLoss.processes "p").map (fun p => (p.state, p.assigned))
      = some (ProcessState.TERMINATED, some "n1") ∧
    assignedNullityB exAfterLoss "p" = false := by decide

/-- **C3** (counterexample): with `p` RUNNING and assigned to `n1`, two
successive `terminate_process` calls each send an EE terminate — two in
total, refuting "at most one EE terminate call in total" — and leave the
record in TERMINATING, which is not a terminal state. -/
theorem terminate_process_single_call_cex :
    exTermCall1.2 = [Effect.terminate_call "n1" "p" 0] ∧
    exTermCall2.2 = [Effect.terminate_call "n1" "p" 0] ∧
    (alookup exTermCall2.1.processes "p").map (fun p => p.state)
      = some ProcessState.TERMINATING := by decide

/-- **C4** (counterexample): from the reachable state `exDispatched`
(where `p` is pending on `n1` and exclusivity holds), the public
operation `ee_heartbeart("n2", [(p, 0, RUNNING)])` — a beat from an EE
that was never assigned `p` — leaves `p` in `n1`'s pending set and adds
it to `n2`'s processes collection, violating the claimed exclusivity. -/
theorem queue_pending_exclusive_cex :
    atMostOnePlace exDispatched "p" = true ∧
    atMostOnePlace exCrossBeat "p" = false := by decide

/-- **C5** (counterexample): `p` is PENDING in `n1`'s pending set (its
launch never acknowledged); `dt_state(n1, TERMINATED)` removes node `n1`
and its resource but only reschedules acknowledged processes, so `p`
stays PENDING — neither terminal nor restart-pending — with `assigned`
naming a resource that no longer exists. -/
theorem assigned_resource_exists_cex :
    (alookup exLostPending.processes "p").map (fun p => (p.state, p.assigned))
      = some (ProcessState.PENDING, some "n1") ∧
    (alookup exLostPending.resources "n1").isNone = true ∧
    assignedOkB exLostPending "p" = false := by decide

/-- **C9** (confirmed): for an instance-state message whose domain and
instance are known, a reported state below RUNNING produces no subscriber
notification, RUNNING notifies with reduced state RUNNING, and anything
above RUNNING notifies with reduced state FAILED; the handler returns
`ok` for every notifier oracle, so a notifier exception is caught (and
counted in the error log), never propagated. -/
theorem reactor_instance_state_notify
    (store : EpumStore)
    (notify : Option RInstance → String → InstanceState → Except String Unit)
    (content : StateMsg) (iid : String) (st : InstanceState)
    (kv : String × RDomain) (inst : RInstance)
    (hn : content.node_id = some iid) (hs : content.state = some st)
    (hiid : iid ≠ "")
    (hdom : store.domainForInstance iid = some kv)
    (hinst : alookup kv.2.instances iid = some inst) :
    ∃ store' nerr,
      EPUMReactor.new_instance_state store notify content =
        Except.ok (store',
          (if st < InstanceState.RUNNING then []
           else [⟨some inst, kv.2.domain_id,
                  if st = InstanceState.RUNNING then InstanceState.RUNNING
                  else InstanceState.FAILED⟩]),
          nerr) := by
  simp only [EPUMReactor.new_instance_state, hn, hs, if_neg hiid, hdom, hinst]
  refine ⟨{ domains := aset store.domains kv.1 (kv.2.recordInstanceState iid st) }, ?_⟩
  by_cases hlt : st < InstanceState.RUNNING
  · exact ⟨0, by simp [hlt]⟩
  · cases hnr : notify (some inst) kv.2.domain_id
      (if st = InstanceState.RUNNING then InstanceState.RUNNING else InstanceState.FAILED) with
    | ok _ => exact ⟨0, by simp [hlt, hnr]⟩
    | error e => exact ⟨1, by simp [hlt, hnr]⟩

/-- Witness for C9 at a concrete input: a TERMINATED report for the known
instance `i1` with a notifier that raises still returns `ok` and notifies
FAILED. -/
theorem reactor_instance_state_notify_witness :
    ∃ store' nerr,
      EPUMReactor.new_instance_state exStore exBadNotify
          ⟨some "i1", some InstanceState.TERMINATED⟩ =
        Except.ok (store',
          (if InstanceState.TERMINATED < InstanceState.RUNNING then []
           else [⟨some ⟨"i1", InstanceState.PENDING⟩, ("d1", exDomain).2.domain_id,
                  if InstanceState.TERMINATED = InstanceState.RUNNING then InstanceState.RUNNING
                  else InstanceState.FAILED⟩]),
          nerr) :=
  reactor_instance_state_notify exStore exBadNotify
    ⟨some "i1", some InstanceState.TERMINATED⟩ "i1" InstanceState.TERMINATED
    ("d1", exDomain) ⟨"i1", InstanceState.PENDING⟩ rfl rfl (by decide) (by decide) (by decide)

/-! ### Needy-engine helper lemmas -/

theorem unhealthyPhase_destroy (st : EngineState) :
    ∀ a ∈ (unhealthyPhase st).2, ∃ i, a = EngineAction.destroy i := by
  unfold unhealthyPhase
  suffices h : ∀ (l : List EngineInstance) (acc : List String × List EngineAction),
      (∀ a ∈ acc.2, ∃ i, a = EngineAction.destroy i) →
      ∀ a ∈ (l.foldl (fun acc i => (acc.1.filter (fun id => id ≠ i.instance_id),
        acc.2 ++ [EngineAction.destroy i.instance_id])) acc).2,
        ∃ i, a = EngineAction.destroy i by
    exact h st.unhealthy (st.validList, []) (by simp)
  intro l
  induction l with
  | nil => intro acc hacc a ha; exact hacc a ha
  | cons hd t ih =>
    intro acc hacc a ha
    refine ih _ ?_ a ha
    intro b hb
    rcases List.mem_append.mp hb with hb | hb
    · exact hacc b hb
    · exact ⟨hd.instance_id, by simpa using hb⟩

theorem launchSeq_none_mem (dt site al : String) :
    ∀ (n : Nat) (unused : List String) (a : EngineAction),
      a ∈ launchSeq dt site al none unused n → a = EngineAction.launch dt site al none := by
  intro n
  induction n with
  | zero => intro unused a ha; simp [launchSeq] at ha
  | succ m ih =>
    intro unused a ha
    rcases (by simpa [launchSeq] using ha : a = EngineAction.launch dt site al none ∨
      a ∈ launchSeq dt site al none unused m) with h | h
    · exact h
    · exact ih unused a h

theorem destroySeq_destroy (ret : List String) (pick : List String → String) :
    ∀ (n : Nat) (valid : List String) (a : EngineAction),
      a ∈ destroySeq ret pick valid n → ∃ i, a = EngineAction.destroy i := by
  intro n
  induction n with
  | zero => intro valid a ha; simp [destroySeq] at ha
  | succ m ih =>
    intro valid a ha
    simp only [destroySeq, List.mem_cons] at ha
    rcases ha with h | h
    · exact ⟨_, h⟩
    · exact ih _ a h

/-- If the engine has no unique key, every launch action of a successful
decide step carries no extravars. -/
theorem decide_launches_no_extravars (e : NeedyEngine) (hkey : e.unique_key = none)
    (pick : List String → String) (st : EngineState) (acts : List EngineAction) (fp : Bool)
    (hdec : e.decide pick st = Except.ok (acts, fp)) :
    ∀ a ∈ acts, ∀ dt site al ev, a = EngineAction.launch dt site al ev → ev = none := by
  unfold NeedyEngine.decide at hdec
  simp only [hkey] at hdec
  by_cases h1 : (unhealthyPhase st).1.length = e.preserve_n
  · simp only [if_pos h1] at hdec
    injection hdec with hdec
    intro a ha dt site al ev hae
    obtain ⟨i, hi⟩ := unhealthyPhase_destroy st a (by
      have hacts : acts = (unhealthyPhase st).2 := congrArg Prod.fst hdec.symm
      simpa [hacts] using ha)
    simp [hi] at hae
  · simp only [if_neg h1] at hdec
    by_cases h2 : (unhealthyPhase st).1.length < e.preserve_n
    · simp only [if_pos h2] at hdec
      rcases hsite : e.iaas_site with _ | site
      · simp only [hsite] at hdec
        exact absurd hdec (by simp)
      · simp only [hsite] at hdec
        by_cases hsite2 : site = ""
        · simp only [if_pos hsite2] at hdec
          exact absurd hdec (by simp)
        · simp only [if_neg hsite2] at hdec
          rcases halloc : e.iaas_allocation with _ | alloc
          · simp only [halloc] at hdec
            exact absurd hdec (by simp)
          · simp only [halloc] at hdec
            by_cases halloc2 : alloc = ""
            · simp only [if_pos halloc2] at hdec
              exact absurd hdec (by simp)
            · simp only [if_neg halloc2] at hdec
              rcases hdt : e.deployable_type with _ | dt0
              · simp only [hdt] at hdec
                exact absurd hdec (by simp)
              · simp only [hdt] at hdec
                by_cases hdt2 : dt0 = ""
                · simp only [if_pos hdt2] at hdec
                  exact absurd hdec (by simp)
                · simp only [if_neg hdt2] at hdec
                  injection hdec with hdec
                  have hacts : acts = (unhealthyPhase st).2 ++
                      launchSeq dt0 site alloc none []
                        (e.preserve_n - (unhealthyPhase st).1.length) :=
                    congrArg Prod.fst hdec.symm
                  intro a ha dt site' al ev hae
                  rcases List.mem_append.mp (hacts ▸ ha) with h | h
                  · obtain ⟨i, hi⟩ := unhealthyPhase_destroy st a h
                    simp [hi] at hae
                  · have hl := launchSeq_none_mem dt0 site alloc _ _ a h
                    rw [hl] at hae
                    exact ((EngineAction.launch.injEq _ _ _ _ _ _ _ _).mp hae.symm).2.2.2
    · simp only [if_neg h2] at hdec
      injection hdec with hdec
      have hacts : acts = (unhealthyPhase st).2 ++
          destroySeq e.retirable_nodes pick (unhealthyPhase st).1
            ((unhealthyPhase st).1.length - e.preserve_n) :=
        congrArg Prod.fst hdec.symm
      intro a ha dt site al ev hae
      rcases List.mem_append.mp (hacts ▸ ha) with h | h
      · obtain ⟨i, hi⟩ := unhealthyPhase_destroy st a h
        simp [hi] at hae
      · obtain ⟨i, hi⟩ := destroySeq_destroy _ pick _ _ a h
        simp [hi] at hae

/-- `_set_conf` resets the unique settings whenever the new conf does not
carry both a truthy `unique_key` and a truthy `unique_values`. -/
theorem set_conf_unique_none (e e' : NeedyEngine) (conf : List (String × ConfVal))
    (hnot : ((alookup conf CONF_UNIQUE_KEY).elim false ConfVal.truthy &&
             (alookup conf CONF_UNIQUE_VALUES).elim false ConfVal.truthy) = false)
    (hok : e.set_conf conf = Except.ok e') :
    e'.unique_key = none ∧ e'.unique_values = none := by
  by_cases hne : conf = []
  · rw [hne] at hok
    simp [NeedyEngine.set_conf, throw, throwThe, MonadExceptOf.throw, Bind.bind, Except.bind,
      Functor.map, Except.map, pure, Except.pure] at hok
  · unfold NeedyEngine.set_conf at hok
    simp only [if_neg hne, Bind.bind, Except.bind, pure, Except.pure, throw, throwThe,
      MonadExceptOf.throw, Functor.map, Except.map] at hok
    rcases hk : alookup conf CONF_UNIQUE_KEY with _ | kv <;>
      rcases hv : alookup conf CONF_UNIQUE_VALUES with _ | vv <;>
      simp only [hk, hv, Option.elim] at hok hnot
    all_goals try simp only [hnot, Bool.false_eq_true, if_false] at hok
    all_goals {
      rcases hpn : alookup conf CONF_PRESERVE_N with _ | v
      · simp only [hpn] at hok
        injection hok with hok
        rw [← hok]
        exact ⟨rfl, rfl⟩
      · simp only [hpn] at hok
        rcases hint : v.asInt with _ | n
        · simp only [hint] at hok
          exact absurd hok (by simp)
        · simp only [hint] at hok
          by_cases hneg : n < 0
          · simp only [if_pos hneg] at hok
            exact absurd hok (by simp)
          · simp only [if_neg hneg] at hok
            injection hok with hok
            rw [← hok]
            exact ⟨rfl, rfl⟩ }

/-- **C10** (confirmed): a `reconfigure` or `initialize` call that
succeeds on a conf lacking a truthy `unique_key` together with a truthy
(non-empty) `unique_values` resets both unique settings to `None` —
whatever they were before, they are not additively merged — and every
launch of a later successful decide step then carries no extravars. -/
theorem needy_reset_unique_conf (e e' : NeedyEngine) (conf : List (String × ConfVal))
    (hnot : ((alookup conf CONF_UNIQUE_KEY).elim false ConfVal.truthy &&
             (alookup conf CONF_UNIQUE_VALUES).elim false ConfVal.truthy) = false)
    (hok : e.reconfigure conf = Except.ok e' ∨ e.engineStart conf = Except.ok e') :
    e'.unique_key = none ∧ e'.unique_values = none ∧
    ∀ (pick : List String → String) (st : EngineState) (acts : List EngineAction) (fp : Bool),
      e'.decide pick st = Except.ok (acts, fp) →
      ∀ a ∈ acts, ∀ dt site al ev, a = EngineAction.launch dt site al ev → ev = none := by
  have hsc : e.set_conf conf = Except.ok e' := by
    rcases hok with hok | hok
    · unfold NeedyEngine.reconfigure at hok
      by_cases hne : conf = []
      · rw [if_pos hne] at hok
        exact absurd hok (by simp)
      · rwa [if_neg hne] at hok
    · exact hok
  obtain ⟨h1, h2⟩ := set_conf_unique_none e e' conf hnot hsc
  exact ⟨h1, h2, fun pick st acts fp hdec =>
    decide_launches_no_extravars e' h1 pick st acts fp hdec⟩

/-- A unique-configured engine for the C10 witness. -/
def exUniqueEngine : NeedyEngine :=
  { preserve_n := 2, iaas_site := some "s1", iaas_allocation := some "a1",
    deployable_type := some "dt1", retirable_nodes := [],
    unique_key := some "slot", unique_values := some ["A", "B", "C"] }

/-- The engine after reconfiguring `exUniqueEngine` with only
`preserve_n`. -/
def exReconfEngine : NeedyEngine :=
  (exUniqueEngine.reconfigure [(CONF_PRESERVE_N, ConfVal.vInt 1)]).toOption.getD NeedyEngine.new

/-- Witness for C10 at a concrete input: reconfiguring a
unique-configured engine with `{preserve_n: 1}` resets the unique
settings. -/
theorem needy_reset_unique_conf_witness :
    exUniqueEngine.reconfigure [(CONF_PRESERVE_N, ConfVal.vInt 1)] =
      Except.ok exReconfEngine ∧
    (exReconfEngine.unique_key = none ∧ exReconfEngine.unique_values = none ∧
     ∀ (pick : List String → String) (st : EngineState) (acts : List EngineAction) (fp : Bool),
       exReconfEngine.decide pick st = Except.ok (acts, fp) →
       ∀ a ∈ acts, ∀ dt site al ev, a = EngineAction.launch dt site al ev → ev = none) :=
  ⟨by rfl, needy_reset_unique_conf exUniqueEngine exReconfEngine
    [(CONF_PRESERVE_N, ConfVal.vInt 1)] (by decide) (Or.inl (by rfl))⟩

/-! ### Matchmaking characterization -/

/-- `_matchmake_process` on a missing upid is a no-op (unreachable in the
source, where the record object is passed directly). -/
theorem matchmake_absent (S : PDC) (upid : String)
    (h : alookup S.processes upid = none) : matchmakeProcess S upid = (S, []) := by
  unfold matchmakeProcess
  rw [h]

/-- The three outcomes of `_matchmake_process` on a present record:
REJECTED (immediate, no candidate), WAITING + queue append (no
candidate), or dispatch onto the minimal-`slot_count` candidate. -/
theorem matchmakeProcess_cases (S : PDC) (upid : String) (p : ProcessRecord)
    (hp : alookup S.processes upid = some p) :
    (minBySlots (candidates S p) = none ∧ p.immediate = true ∧
      matchmakeProcess S upid =
        ({ S with processes := aset S.processes upid { p with state := ProcessState.REJECTED } },
         [])) ∨
    (minBySlots (candidates S p) = none ∧ p.immediate = false ∧
      matchmakeProcess S upid =
        ({ S with processes := aset S.processes upid { p with state := ProcessState.WAITING },
                  queue := S.queue ++ [upid] }, [])) ∨
    (∃ r, minBySlots (candidates S p) = some r ∧
      matchmakeProcess S upid =
        ({ S with
            processes := aset S.processes upid
              { p with assigned := some r.ee_id, state := ProcessState.PENDING },
            resources := aupd S.resources r.ee_id
              (fun res => { res with pending := listInsert res.pending upid }) },
         [Effect.launch_process r.ee_id upid p.round p.spec.run_type p.spec.parameters])) := by
  rcases hmin : minBySlots (candidates S p) with _ | r
  · rcases himm : p.immediate with _ | _
    · right; left
      refine ⟨rfl, rfl, ?_⟩
      unfold matchmakeProcess
      simp only [hp, hmin, himm]
      simp
    · left
      refine ⟨rfl, rfl, ?_⟩
      unfold matchmakeProcess
      simp only [hp, hmin, himm]
      simp
  · right; right
    refine ⟨r, rfl, ?_⟩
    unfold matchmakeProcess
    simp only [hp, hmin]
    unfold dispatchMatchedProcess
    simp only [hp]

/-- After matchmaking a present record, the upid is still present. -/
theorem matchmake_lookup_self (S : PDC) (upid : String) (p : ProcessRecord)
    (hp : alookup S.processes upid = some p) :
    ∃ q, alookup (matchmakeProcess S upid).1.processes upid = some q := by
  rcases matchmakeProcess_cases S upid p hp with ⟨_, _, h⟩ | ⟨_, _, h⟩ | ⟨r, _, h⟩ <;>
    rw [h] <;> exact ⟨_, alookup_aset_self _ _ _⟩

/-- Matchmaking one upid does not change the records of other upids. -/
theorem matchmake_lookup_other (S : PDC) (upid v : String) (hne : v ≠ upid) :
    alookup (matchmakeProcess S upid).1.processes v = alookup S.processes v := by
  rcases hp : alookup S.processes upid with _ | p
  · rw [matchmake_absent S upid hp]
  · rcases matchmakeProcess_cases S upid p hp with ⟨_, _, h⟩ | ⟨_, _, h⟩ | ⟨r, _, h⟩ <;>
      rw [h] <;> exact alookup_aset_ne _ _ _ _ (fun he => hne he.symm)

/-! ### C1: dispatch_process idempotence -/

/-- `dispatch_process` on a known upid returns the record unchanged with
no effects. -/
theorem dispatch_present (S : PDC) (upid : String) (p : ProcessRecord)
    (spec : PSpec) (subs : List String) (cons : Option (List (String × Option CVal)))
    (imm : Bool) (hp : alookup S.processes upid = some p) :
    dispatch_process S upid spec subs cons imm = (S, [], some p) := by
  unfold dispatch_process
  rw [hp]

/-- Any sequence of dispatch calls on a known upid changes nothing and
emits nothing. -/
theorem dispatchCalls_present (upid : String) (p : ProcessRecord) :
    ∀ (args : List (PSpec × List String × Option (List (String × Option CVal)) × Bool))
      (S : PDC), alookup S.processes upid = some p → dispatchCalls upid S args = (S, []) := by
  intro args
  induction args with
  | nil => intro S _; rfl
  | cons a rest ih =>
    intro S hp
    unfold dispatchCalls
    rw [dispatch_present S upid p a.1 a.2.1 a.2.2.1 a.2.2.2 hp]
    simp [ih S hp]

/-- **C1** (confirmed): with a fresh upid, `dispatch_process` inserts a
REQUESTED record and runs matchmaking on it, returning the resulting
record; the upid is then present, and every later call with the same
upid — whatever its other arguments — returns that same record with no
change to the core state and no effects (so a sequence of N calls does
exactly the work of the first: at most one EE launch, one queue entry or
one REJECTED decision). -/
theorem dispatch_process_idempotent (S : PDC) (upid : String) (spec : PSpec)
    (subs : List String) (cons : Option (List (String × Option CVal))) (imm : Bool)
    (hfresh : alookup S.processes upid = none) :
    ∃ p1,
      alookup (dispatch_process S upid spec subs cons imm).1.processes upid = some p1 ∧
      (dispatch_process S upid spec subs cons imm).2.2 = some p1 ∧
      ((dispatch_process S upid spec subs cons imm).1,
       (dispatch_process S upid spec subs cons imm).2.1) =
        matchmakeProcess (dispatchInserted S upid spec subs cons imm) upid ∧
      (∀ spec' subs' cons' imm',
        dispatch_process (dispatch_process S upid spec subs cons imm).1 upid
          spec' subs' cons' imm' =
          ((dispatch_process S upid spec subs cons imm).1, [], some p1)) ∧
      (∀ args, dispatchCalls upid (dispatch_process S upid spec subs cons imm).1 args =
        ((dispatch_process S upid spec subs cons imm).1, [])) := by
  have hd : dispatch_process S upid spec subs cons imm =
      ((matchmakeProcess (dispatchInserted S upid spec subs cons imm) upid).1,
       (matchmakeProcess (dispatchInserted S upid spec subs cons imm) upid).2,
       alookup (matchmakeProcess
         (dispatchInserted S upid spec subs cons imm) upid).1.processes upid) := by
    unfold dispatch_process
    rw [hfresh]
    rfl
  obtain ⟨p1, hp1⟩ := matchmake_lookup_self
    (dispatchInserted S upid spec subs cons imm) upid (freshRecord upid spec subs cons imm)
    (alookup_aset_self _ _ _)
  refine ⟨p1, ?_, ?_, ?_, ?_, ?_⟩
  · rw [hd]; exact hp1
  · rw [hd]; exact hp1
  · rw [hd]
  · intro spec' subs' cons' imm'
    refine dispatch_present _ upid p1 spec' subs' cons' imm' ?_
    rw [hd]; exact hp1
  · intro args
    refine dispatchCalls_present upid p1 args _ ?_
    rw [hd]; exact hp1

/-- Witness for C1 at a concrete input: dispatching `p` into `exS4`
(two free resources) and re-dispatching. -/
theorem dispatch_process_idempotent_witness :
    alookup exS4.processes "p" = none ∧
    (∃ p1,
      alookup (dispatch_process exS4 "p" ⟨"rt", "pm"⟩ [] none false).1.processes "p" = some p1 ∧
      (dispatch_process exS4 "p" ⟨"rt", "pm"⟩ [] none false).2.2 = some p1 ∧
      ((dispatch_process exS4 "p" ⟨"rt", "pm"⟩ [] none false).1,
       (dispatch_process exS4 "p" ⟨"rt", "pm"⟩ [] none false).2.1) =
        matchmakeProcess (dispatchInserted exS4 "p" ⟨"rt", "pm"⟩ [] none false) "p" ∧
      (∀ spec' subs' cons' imm',
        dispatch_process (dispatch_process exS4 "p" ⟨"rt", "pm"⟩ [] none false).1 "p"
          spec' subs' cons' imm' =
          ((dispatch_process exS4 "p" ⟨"rt", "pm"⟩ [] none false).1, [], some p1)) ∧
      (∀ args, dispatchCalls "p" (dispatch_process exS4 "p" ⟨"rt", "pm"⟩ [] none false).1 args =
        ((dispatch_process exS4 "p" ⟨"rt", "pm"⟩ [] none false).1, []))) :=
  ⟨by decide, dispatch_process_idempotent exS4 "p" ⟨"rt", "pm"⟩ [] none false (by decide)⟩

/-! ### C2: matchmaking -/

theorem foldlMin_mem (t : List ExecutionEngineResource) :
    ∀ acc, t.foldl (fun acc x => if x.slot_count < acc.slot_count then x else acc) acc = acc ∨
      t.foldl (fun acc x => if x.slot_count < acc.slot_count then x else acc) acc ∈ t := by
  induction t with
  | nil => intro acc; left; rfl
  | cons a t ih =>
    intro acc
    simp only [List.foldl_cons]
    by_cases h : a.slot_count < acc.slot_count
    · rw [if_pos h]
      rcases ih a with h1 | h1
      · right; rw [h1]; exact List.mem_cons_self a t
      · right; exact List.mem_cons_of_mem a h1
    · rw [if_neg h]
      rcases ih acc with h1 | h1
      · left; exact h1
      · right; exact List.mem_cons_of_mem a h1

theorem foldlMin_le (t : List ExecutionEngineResource) :
    ∀ acc, (t.foldl (fun acc x => if x.slot_count < acc.slot_count then x else acc) acc).slot_count
        ≤ acc.slot_count ∧
      ∀ x ∈ t, (t.foldl (fun acc x => if x.slot_count < acc.slot_count then x else acc)
        acc).slot_count ≤ x.slot_count := by
  induction t with
  | nil => intro acc; exact ⟨Nat.le_refl _, by simp⟩
  | cons a t ih =>
    intro acc
    simp only [List.foldl_cons]
    by_cases h : a.slot_count < acc.slot_count
    · rw [if_pos h]
      refine ⟨Nat.le_trans (ih a).1 (Nat.le_of_lt h), ?_⟩
      intro x hx
      rcases List.mem_cons.mp hx with hx | hx
      · rw [hx]; exact (ih a).1
      · exact (ih a).2 x hx
    · rw [if_neg h]
      refine ⟨(ih acc).1, ?_⟩
      intro x hx
      rcases List.mem_cons.mp hx with hx | hx
      · rw [hx]; exact Nat.le_trans (ih acc).1 (Nat.le_of_not_lt h)
      · exact (ih acc).2 x hx

theorem minBySlots_none (l : List ExecutionEngineResource) :
    minBySlots l = none ↔ l = [] := by
  cases l with
  | nil => simp [minBySlots]
  | cons a t => simp [minBySlots]

theorem minBySlots_mem (l : List ExecutionEngineResource) (r : ExecutionEngineResource)
    (h : minBySlots l = some r) : r ∈ l := by
  cases l with
  | nil => simp [minBySlots] at h
  | cons a t =>
    simp only [minBySlots, Option.some.injEq] at h
    rcases foldlMin_mem t a with h1 | h1
    · rw [← h, h1]; exact List.mem_cons_self a t
    · rw [← h]; exact List.mem_cons_of_mem a h1

theorem minBySlots_min (l : List ExecutionEngineResource) (r : ExecutionEngineResource)
    (h : minBySlots l = some r) : ∀ x ∈ l, r.slot_count ≤ x.slot_count := by
  cases l with
  | nil => simp [minBySlots] at h
  | cons a t =>
    simp only [minBySlots, Option.some.injEq] at h
    intro x hx
    rcases List.mem_cons.mp hx with hx | hx
    · rw [← h, hx]; exact (foldlMin_le t a).1
    · rw [← h]; exact (foldlMin_le t a).2 x hx

/-- **C2** (confirmed): the candidate set of `_matchmake_process` is
exactly the resources with a positive `available_slots` whose properties
satisfy the process's constraints; with no candidate the process becomes
REJECTED when `immediate` and otherwise WAITING and appended to the
queue; with candidates it is dispatched to a candidate of minimal total
`slot_count` — set PENDING, `assigned` to that resource, its upid added
to the resource's pending set, and exactly one EE launch emitted. -/
theorem matchmake_process_spec (S : PDC) (upid : String) (p : ProcessRecord)
    (hp : alookup S.processes upid = some p) :
    (∀ r, r ∈ candidates S p ↔
      (r ∈ S.resources.map Prod.snd ∧ 0 < r.available_slots ∧
        match_constraints p.constraints r.properties = true)) ∧
    (candidates S p = [] → p.immediate = true →
      matchmakeProcess S upid =
        ({ S with processes := aset S.processes upid { p with state := ProcessState.REJECTED } },
         [])) ∧
    (candidates S p = [] → p.immediate = false →
      matchmakeProcess S upid =
        ({ S with processes := aset S.processes upid { p with state := ProcessState.WAITING },
                  queue := S.queue ++ [upid] }, [])) ∧
    (candidates S p ≠ [] →
      ∃ r, r ∈ candidates S p ∧ (∀ x ∈ candidates S p, r.slot_count ≤ x.slot_count) ∧
        matchmakeProcess S upid = (matchDispatched S upid p r.ee_id,
          [Effect.launch_process r.ee_id upid p.round p.spec.run_type p.spec.parameters])) := by
  refine ⟨?_, ?_, ?_, ?_⟩
  · intro r
    simp [candidates, resourceMatches, List.mem_filter, Bool.and_eq_true, decide_eq_true_eq]
  · intro hc himm
    have hmin : minBySlots (candidates S p) = none := by rw [hc]; rfl
    rcases matchmakeProcess_cases S upid p hp with ⟨_, _, h⟩ | ⟨_, hi, _⟩ | ⟨r, hm, _⟩
    · exact h
    · rw [himm] at hi; cases hi
    · rw [hmin] at hm; cases hm
  · intro hc himm
    have hmin : minBySlots (candidates S p) = none := by rw [hc]; rfl
    rcases matchmakeProcess_cases S upid p hp with ⟨_, hi, _⟩ | ⟨_, _, h⟩ | ⟨r, hm, _⟩
    · rw [himm] at hi; cases hi
    · exact h
    · rw [hmin] at hm; cases hm
  · intro hc
    rcases hmin : minBySlots (candidates S p) with _ | r
    · exact absurd ((minBySlots_none _).mp hmin) hc
    · refine ⟨r, minBySlots_mem _ _ hmin, minBySlots_min _ _ hmin, ?_⟩
      rcases matchmakeProcess_cases S upid p hp with ⟨hm, _, _⟩ | ⟨hm, _, _⟩ | ⟨r', hm, h⟩
      · rw [hmin] at hm; cases hm
      · rw [hmin] at hm; cases hm
      · rw [hmin] at hm
        injection hm with hm
        rw [← hm] at h
        exact h

/-- Witness for C2 at a concrete input: matchmaking the fresh REQUESTED
record of `p` against the two free resources of `exS4`. -/
theorem matchmake_process_spec_witness :
    alookup (dispatchInserted exS4 "p" ⟨"rt", "pm"⟩ [] none false).processes "p" =
      some (freshRecord "p" ⟨"rt", "pm"⟩ [] none false) ∧
    (∀ r, r ∈ candidates (dispatchInserted exS4 "p" ⟨"rt", "pm"⟩ [] none false)
        (freshRecord "p" ⟨"rt", "pm"⟩ [] none false) ↔
      (r ∈ (dispatchInserted exS4 "p" ⟨"rt", "pm"⟩ [] none false).resources.map Prod.snd ∧
        0 < r.available_slots ∧
        match_constraints (freshRecord "p" ⟨"rt", "pm"⟩ [] none false).constraints
          r.properties = true)) ∧
    (candidates (dispatchInserted exS4 "p" ⟨"rt", "pm"⟩ [] none false)
        (freshRecord "p" ⟨"rt", "pm"⟩ [] none false) = [] →
      (freshRecord "p" ⟨"rt", "pm"⟩ [] none false).immediate = true →
      matchmakeProcess (dispatchInserted exS4 "p" ⟨"rt", "pm"⟩ [] none false) "p" =
        ({ dispatchInserted exS4 "p" ⟨"rt", "pm"⟩ [] none false with
            processes := aset (dispatchInserted exS4 "p" ⟨"rt", "pm"⟩ [] none false).processes
              "p" { freshRecord "p" ⟨"rt", "pm"⟩ [] none false with
                    state := ProcessState.REJECTED } }, [])) ∧
    (candidates (dispatchInserted exS4 "p" ⟨"rt", "pm"⟩ [] none false)
        (freshRecord "p" ⟨"rt", "pm"⟩ [] none false) = [] →
      (freshRecord "p" ⟨"rt", "pm"⟩ [] none false).immediate = false →
      matchmakeProcess (dispatchInserted exS4 "p" ⟨"rt", "pm"⟩ [] none false) "p" =
        ({ dispatchInserted exS4 "p" ⟨"rt", "pm"⟩ [] none false with
            processes := aset (dispatchInserted exS4 "p" ⟨"rt", "pm"⟩ [] none false).processes
              "p" { freshRecord "p" ⟨"rt", "pm"⟩ [] none false with
                    state := ProcessState.WAITING },
            queue := (dispatchInserted exS4 "p" ⟨"rt", "pm"⟩ [] none false).queue ++ ["p"] },
         [])) ∧
    (candidates (dispatchInserted exS4 "p" ⟨"rt", "pm"⟩ [] none false)
        (freshRecord "p" ⟨"rt", "pm"⟩ [] none false) ≠ [] →
      ∃ r, r ∈ candidates (dispatchInserted exS4 "p" ⟨"rt", "pm"⟩ [] none false)
          (freshRecord "p" ⟨"rt", "pm"⟩ [] none false) ∧
        (∀ x ∈ candidates (dispatchInserted exS4 "p" ⟨"rt", "pm"⟩ [] none false)
          (freshRecord "p" ⟨"rt", "pm"⟩ [] none false), r.slot_count ≤ x.slot_count) ∧
        matchmakeProcess (dispatchInserted exS4 "p" ⟨"rt", "pm"⟩ [] none false) "p" =
          (matchDispatched (dispatchInserted exS4 "p" ⟨"rt", "pm"⟩ [] none false) "p"
            (freshRecord "p" ⟨"rt", "pm"⟩ [] none false) r.ee_id,
           [Effect.launch_process r.ee_id "p"
             (freshRecord "p" ⟨"rt", "pm"⟩ [] none false).round
             (freshRecord "p" ⟨"rt", "pm"⟩ [] none false).spec.run_type
             (freshRecord "p" ⟨"rt", "pm"⟩ [] none false).spec.parameters])) :=
  ⟨by decide, matchmake_process_spec (dispatchInserted exS4 "p" ⟨"rt", "pm"⟩ [] none false)
    "p" (freshRecord "p" ⟨"rt", "pm"⟩ [] none false) (by decide)⟩

/-! ### C7: Needy launch loop -/

theorem launchSeq_length (dt site al : String) (key : Option String) :
    ∀ (n : Nat) (unused : List String), (launchSeq dt site al key unused n).length = n := by
  intro n
  induction n with
  | zero => intro unused; rfl
  | succ m ih =>
    intro unused
    cases key with
    | none => simp [launchSeq, ih]
    | some k => simp [launchSeq, ih]

theorem launchSeq_none_replicate (dt site al : String) :
    ∀ (n : Nat) (unused : List String),
      launchSeq dt site al none unused n =
        List.replicate n (EngineAction.launch dt site al none) := by
  intro n
  induction n with
  | zero => intro unused; rfl
  | succ m ih => intro unused; simp [launchSeq, List.replicate_succ, ih]

theorem launchSeq_get (dt site al k : String) :
    ∀ (n : Nat) (unused : List String) (j : Nat), j < n →
      (launchSeq dt site al (some k) unused n)[j]? =
        some (EngineAction.launch dt site al (some (k, unused[j]?))) := by
  intro n
  induction n with
  | zero => intro unused j hj; exact absurd hj (Nat.not_lt_zero j)
  | succ m ih =>
    intro unused j hj
    cases j with
    | zero =>
      simp [launchSeq]
      cases unused with
      | nil => rfl
      | cons a t => simp
    | succ j' =>
      have h1 : (launchSeq dt site al (some k) unused (m + 1))[j' + 1]? =
          (launchSeq dt site al (some k) unused.tail m)[j']? := by
        simp [launchSeq]
      rw [h1, ih unused.tail j' (Nat.lt_of_succ_lt_succ hj)]
      congr 2
      cases unused with
      | nil => rfl
      | cons a t => simp

/-- **C7** (confirmed): when the valid count (after the unhealthy
destroys) is below `preserve_n` and launch configuration is present, the
decide step requests exactly `preserve_n − valid` launches after the
unhealthy-destroy prefix; without a unique key they carry no extravars,
and with a configured unique key the j-th launch carries the j-th
element, in list order, of the unique values not in use by a valid
instance — `none` once those run out. -/
theorem needy_decide_launch_spec (e : NeedyEngine) (pick : List String → String)
    (st : EngineState) (site alloc dt : String)
    (hsite : e.iaas_site = some site) (hsite2 : site ≠ "")
    (halloc : e.iaas_allocation = some alloc) (halloc2 : alloc ≠ "")
    (hdt : e.deployable_type = some dt) (hdt2 : dt ≠ "")
    (hlt : (unhealthyPhase st).1.length < e.preserve_n) :
    (e.unique_key = none →
      e.decide pick st = Except.ok ((unhealthyPhase st).2 ++
        List.replicate (e.preserve_n - (unhealthyPhase st).1.length)
          (EngineAction.launch dt site alloc none), true)) ∧
    (∀ k vs, e.unique_key = some k → e.unique_values = some vs →
      ∃ launches,
        e.decide pick st = Except.ok ((unhealthyPhase st).2 ++ launches, true) ∧
        launches.length = e.preserve_n - (unhealthyPhase st).1.length ∧
        ∀ j < launches.length, launches[j]? =
          some (EngineAction.launch dt site alloc (some (k,
            (vs.filter (fun v =>
              !((validUniques k st (unhealthyPhase st).1).contains v)))[j]?)))) := by
  have hne : ¬ (unhealthyPhase st).1.length = e.preserve_n := Nat.ne_of_lt hlt
  constructor
  · intro hkey
    unfold NeedyEngine.decide
    simp only [hkey, if_neg hne, if_pos hlt, hsite, if_neg hsite2, halloc, if_neg halloc2,
      hdt, if_neg hdt2]
    rw [launchSeq_none_replicate]
  · intro k vs hkey hvals
    refine ⟨launchSeq dt site alloc (some k)
      (vs.filter (fun v => !((validUniques k st (unhealthyPhase st).1).contains v)))
      (e.preserve_n - (unhealthyPhase st).1.length), ?_, launchSeq_length _ _ _ _ _ _, ?_⟩
    · unfold NeedyEngine.decide
      simp only [hkey, hvals, if_neg hne, if_pos hlt, hsite, if_neg hsite2, halloc,
        if_neg halloc2, hdt, if_neg hdt2]
    · intro j hj
      rw [launchSeq_length] at hj
      exact launchSeq_get dt site alloc k _ _ j hj

/-- Witness for C7 at a concrete input: `exUniqueEngine` (preserve 2,
uniques A,B,C) on an empty state. -/
theorem needy_decide_launch_spec_witness :
    exUniqueEngine.iaas_site = some "s1" ∧
    (unhealthyPhase ⟨[], []⟩).1.length < exUniqueEngine.preserve_n ∧
    ((exUniqueEngine.unique_key = none →
      exUniqueEngine.decide (fun l => l.headD "") ⟨[], []⟩ =
        Except.ok ((unhealthyPhase ⟨[], []⟩).2 ++
          List.replicate (exUniqueEngine.preserve_n - (unhealthyPhase ⟨[], []⟩).1.length)
            (EngineAction.launch "dt1" "s1" "a1" none), true)) ∧
    (∀ k vs, exUniqueEngine.unique_key = some k → exUniqueEngine.unique_values = some vs →
      ∃ launches,
        exUniqueEngine.decide (fun l => l.headD "") ⟨[], []⟩ =
          Except.ok ((unhealthyPhase ⟨[], []⟩).2 ++ launches, true) ∧
        launches.length = exUniqueEngine.preserve_n - (unhealthyPhase ⟨[], []⟩).1.length ∧
        ∀ j < launches.length, launches[j]? =
          some (EngineAction.launch "dt1" "s1" "a1" (some (k,
            (vs.filter (fun v =>
              !((validUniques k ⟨[], []⟩ (unhealthyPhase ⟨[], []⟩).1).contains v)))[j]?))))) :=
  ⟨by decide, by decide,
    needy_decide_launch_spec exUniqueEngine (fun l => l.headD "") ⟨[], []⟩ "s1" "a1" "dt1"
      (by decide) (by decide) (by decide) (by decide) (by decide) (by decide) (by decide)⟩

/-! ### C8: Needy destroy loop -/

theorem listInsert_nodup (l : List String) (x : String) (h : l.Nodup) :
    (listInsert l x).Nodup := by
  unfold listInsert
  by_cases hx : x ∈ l
  · rwa [if_pos hx]
  · rw [if_neg hx]
    simpa [List.nodup_append] using ⟨h, hx⟩

theorem foldl_listInsert_nodup :
    ∀ (l acc : List String), acc.Nodup → (l.foldl listInsert acc).Nodup := by
  intro l
  induction l with
  | nil => intro acc h; exact h
  | cons a t ih => intro acc h; exact ih (listInsert acc a) (listInsert_nodup acc a h)

theorem validList_nodup (st : EngineState) : st.validList.Nodup := by
  unfold EngineState.validList
  exact foldl_listInsert_nodup _ [] List.nodup_nil

theorem unhealthyPhase_nodup (st : EngineState) : (unhealthyPhase st).1.Nodup := by
  unfold unhealthyPhase
  suffices h : ∀ (l : List EngineInstance) (acc : List String × List EngineAction),
      acc.1.Nodup →
      (l.foldl (fun acc i => (acc.1.filter (fun id => id ≠ i.instance_id),
        acc.2 ++ [EngineAction.destroy i.instance_id])) acc).1.Nodup by
    exact h st.unhealthy (st.validList, []) (validList_nodup st)
  intro l
  induction l with
  | nil => intro acc h; exact h
  | cons a t ih => intro acc h; exact ih _ (List.Nodup.filter _ h)

theorem filter_ne_length_of_nodup (a : String) :
    ∀ (l : List String), l.Nodup → a ∈ l →
      (l.filter (fun x => x ≠ a)).length + 1 = l.length := by
  intro l
  induction l with
  | nil => intro _ ha; cases ha
  | cons b t ih =>
    intro hnd ha
    have hbt : b ∉ t := (List.nodup_cons.mp hnd).1
    have hnd2 : t.Nodup := (List.nodup_cons.mp hnd).2
    by_cases hb : b = a
    · subst hb
      have hft : t.filter (fun x => x ≠ b) = t := by
        refine List.filter_eq_self.mpr ?_
        intro x hx
        simp only [decide_eq_true_eq]
        exact fun he => hbt (he ▸ hx)
      have hcons : (b :: t).filter (fun x => x ≠ b) = t.filter (fun x => x ≠ b) := by
        simp [List.filter_cons]
      rw [hcons, hft, List.length_cons]
    · have hat : a ∈ t := by
        rcases List.mem_cons.mp ha with h | h
        · exact absurd h.symm hb
        · exact h
      have hcons : (b :: t).filter (fun x => x ≠ a) = b :: t.filter (fun x => x ≠ a) := by
        simp [List.filter_cons, hb]
      rw [hcons, List.length_cons, List.length_cons, ← ih hnd2 hat]

theorem destroySeq_spec (ret : List String) (pick : List String → String)
    (hpick : ∀ l : List String, l ≠ [] → pick l ∈ l) (hret : "" ∉ ret) :
    ∀ (n : Nat) (valid : List String), valid.Nodup → n ≤ valid.length →
      DestroyChoicesOK ret valid (destroySeq ret pick valid n) ∧
      (destroySeq ret pick valid n).length = n := by
  intro n
  induction n with
  | zero => intro valid _ _; exact ⟨trivial, rfl⟩
  | succ m ih =>
    intro valid hnd hlen
    have hvne : valid ≠ [] := by
      intro h
      rw [h] at hlen
      exact absurd hlen (by simp)
    rcases hf : valid.find? (fun i => ret.contains i) with _ | d
    · have hpe : pick valid ∈ valid := hpick valid hvne
      have hstep : destroySeq ret pick valid (m + 1) =
          EngineAction.destroy (pick valid) ::
            destroySeq ret pick (valid.filter (fun i => i ≠ pick valid)) m := by
        conv_lhs => rw [destroySeq.eq_def]
        simp only [hf]
      have hlen2 : m ≤ (valid.filter (fun i => i ≠ pick valid)).length := by
        have := filter_ne_length_of_nodup (pick valid) valid hnd hpe
        omega
      obtain ⟨hok2, hlen3⟩ := ih _ (List.Nodup.filter _ hnd) hlen2
      constructor
      · rw [hstep]
        refine ⟨hpe, ?_, hok2⟩
        rintro ⟨x, hx, hxr⟩
        have hx2 := List.find?_eq_none.mp hf x hx
        simp at hx2
        exact absurd hxr hx2
      · rw [hstep, List.length_cons, hlen3]
    · have hdv : d ∈ valid := List.mem_of_find?_eq_some hf
      have hdr : d ∈ ret := by
        have := List.find?_some hf
        simpa using this
      have hdne : ¬ d = "" := fun he => hret (he ▸ hdr)
      have hstep : destroySeq ret pick valid (m + 1) =
          EngineAction.destroy d :: destroySeq ret pick (valid.filter (fun i => i ≠ d)) m := by
        conv_lhs => rw [destroySeq.eq_def]
        simp only [hf, if_neg hdne]
      have hlen2 : m ≤ (valid.filter (fun i => i ≠ d)).length := by
        have := filter_ne_length_of_nodup d valid hnd hdv
        omega
      obtain ⟨hok2, hlen3⟩ := ih _ (List.Nodup.filter _ hnd) hlen2
      constructor
      · rw [hstep]
        exact ⟨hdv, fun _ => hdr, hok2⟩
      · rw [hstep, List.length_cons, hlen3]

theorem destroyChoices_victims (ret : List String) :
    ∀ (acts : List EngineAction) (remaining : List String),
      DestroyChoicesOK ret remaining acts →
      ∃ victims : List String, acts = victims.map EngineAction.destroy ∧ victims.Nodup ∧
        ∀ v ∈ victims, v ∈ remaining := by
  intro acts
  induction acts with
  | nil => intro remaining _; exact ⟨[], rfl, List.nodup_nil, by simp⟩
  | cons a rest ih =>
    intro remaining hok
    cases a with
    | launch dt site al ev => exact absurd hok (by simp [DestroyChoicesOK])
    | destroy d =>
      obtain ⟨hd, _, hrec⟩ := hok
      obtain ⟨victims, heq, hnd, hmem⟩ := ih _ hrec
      refine ⟨d :: victims, by simp [heq], ?_, ?_⟩
      · refine List.nodup_cons.mpr ⟨?_, hnd⟩
        intro hdv
        have := hmem d hdv
        simp [List.mem_filter] at this
      · intro v hv
        rcases List.mem_cons.mp hv with hv | hv
        · exact hv ▸ hd
        · have := hmem v hv
          exact (List.mem_filter.mp this).1

/-- `headD ""` is a membership-respecting pick oracle. -/
theorem headD_mem (l : List String) (h : l ≠ []) : l.headD "" ∈ l := by
  cases l with
  | nil => exact absurd rfl h
  | cons a t => simp [List.headD]

/-- **C8** (confirmed): when the valid count (after the unhealthy
destroys) exceeds `preserve_n`, the decide step issues exactly
`valid − preserve_n` destroy requests after the unhealthy-destroy
prefix, each for a distinct valid instance; each victim is a remaining
valid instance, and is retirable whenever some remaining valid instance
is retirable — only when none is does the choice fall to the random
`pick` oracle over the remaining valid set. -/
theorem needy_decide_destroy_spec (e : NeedyEngine) (pick : List String → String)
    (st : EngineState)
    (hgt : e.preserve_n < (unhealthyPhase st).1.length)
    (hpick : ∀ l : List String, l ≠ [] → pick l ∈ l)
    (hret : "" ∉ e.retirable_nodes) :
    ∃ destroys,
      e.decide pick st = Except.ok ((unhealthyPhase st).2 ++ destroys, true) ∧
      destroys.length = (unhealthyPhase st).1.length - e.preserve_n ∧
      DestroyChoicesOK e.retirable_nodes (unhealthyPhase st).1 destroys ∧
      ∃ victims : List String, destroys = victims.map EngineAction.destroy ∧ victims.Nodup ∧
        ∀ v ∈ victims, v ∈ (unhealthyPhase st).1 := by
  have hne : ¬ (unhealthyPhase st).1.length = e.preserve_n :=
    fun h => Nat.lt_irrefl _ (h ▸ hgt)
  have hnlt : ¬ (unhealthyPhase st).1.length < e.preserve_n := Nat.not_lt_of_gt hgt
  refine ⟨destroySeq e.retirable_nodes pick (unhealthyPhase st).1
    ((unhealthyPhase st).1.length - e.preserve_n), ?_, ?_, ?_, ?_⟩
  · unfold NeedyEngine.decide
    simp only [if_neg hne, if_neg hnlt]
  · exact (destroySeq_spec e.retirable_nodes pick hpick hret _ _
      (unhealthyPhase_nodup st) (Nat.sub_le _ _)).2
  · exact (destroySeq_spec e.retirable_nodes pick hpick hret _ _
      (unhealthyPhase_nodup st) (Nat.sub_le _ _)).1
  · exact destroyChoices_victims e.retirable_nodes _ _
      (destroySeq_spec e.retirable_nodes pick hpick hret _ _
        (unhealthyPhase_nodup st) (Nat.sub_le _ _)).1

/-- Witness for C8 at a concrete input: `exRetireEngine` (preserve 1,
retire `i2` first) on three valid instances. -/
theorem needy_decide_destroy_spec_witness :
    exRetireEngine.preserve_n < (unhealthyPhase exSt3).1.length ∧
    ∃ destroys,
      exRetireEngine.decide (fun l => l.headD "") exSt3 =
        Except.ok ((unhealthyPhase exSt3).2 ++ destroys, true) ∧
      destroys.length = (unhealthyPhase exSt3).1.length - exRetireEngine.preserve_n ∧
      DestroyChoicesOK exRetireEngine.retirable_nodes (unhealthyPhase exSt3).1 destroys ∧
      ∃ victims : List String, destroys = victims.map EngineAction.destroy ∧ victims.Nodup ∧
        ∀ v ∈ victims, v ∈ (unhealthyPhase exSt3).1 :=
  ⟨by decide, needy_decide_destroy_spec exRetireEngine (fun l => l.headD "") exSt3
    (by decide) (fun l h => headD_mem l h) (by decide)⟩

/-! ### C3: terminate_process -/

theorem terminateCalls_stable (upid : String) :
    ∀ (n : Nat) (S : PDC) (q : ProcessRecord), alookup S.processes upid = some q →
      ProcessState.TERMINATED ≤ q.state → terminateCalls upid S n = (S, []) := by
  intro n
  induction n with
  | zero => intro S q _ _; rfl
  | succ m ih =>
    intro S q hq hge
    have ht : terminate_process S upid = Except.ok (S, [], q) := by
      unfold terminate_process
      simp only [hq, if_pos hge]
    unfold terminateCalls
    simp only [ht]
    simp [ih S q hq hge]

theorem terminateCalls_terminating (upid ee : String) :
    ∀ (n : Nat) (S : PDC) (q : ProcessRecord), alookup S.processes upid = some q →
      q.state = ProcessState.TERMINATING → q.assigned = some ee →
      (terminateCalls upid S n).2 = List.replicate n (Effect.terminate_call ee upid q.round) ∧
      (alookup (terminateCalls upid S n).1.processes upid).map ProcessRecord.state =
        some ProcessState.TERMINATING := by
  intro n
  induction n with
  | zero =>
    intro S q hq hst _
    exact ⟨rfl, by simp [terminateCalls, hq, hst]⟩
  | succ m ih =>
    intro S q hq hst hass
    have hnge : ¬ ProcessState.TERMINATED ≤ q.state := by
      rw [hst]; decide
    have ht : terminate_process S upid = Except.ok
        ({ S with processes := aset S.processes upid { q with state := ProcessState.TERMINATING } },
         [Effect.terminate_call ee upid q.round], { q with state := ProcessState.TERMINATING }) := by
      unfold terminate_process
      simp only [hq, if_neg hnge, hass]
    have hq1 : alookup (aset S.processes upid { q with state := ProcessState.TERMINATING }) upid =
        some { q with state := ProcessState.TERMINATING } := alookup_aset_self _ _ _
    obtain ⟨he, hs⟩ := ih
      { S with processes := aset S.processes upid { q with state := ProcessState.TERMINATING } }
      { q with state := ProcessState.TERMINATING } hq1 rfl hass
    unfold terminateCalls
    simp only [ht]
    refine ⟨?_, hs⟩
    simp only at he
    simp [he, List.replicate_succ]

/-- **C3** (corrected, amended): `terminate_process` behaves per case as
claimed — absent record: NotFound; state ≥ TERMINATED: no-op returning
the record; unassigned: mark TERMINATED; otherwise send the EE agent a
terminate and mark TERMINATING — and each single call sends at most one
EE terminate; but a sequence of N calls on an assigned live record sends
one terminate per call, N in total (not at most one overall), and leaves
the record in TERMINATING — not a terminal state — until the EE confirms
(the record reaches TERMINATED without EE involvement only in the
unassigned case). -/
theorem terminate_process_cases (S : PDC) (upid : String) (p : ProcessRecord) (n : Nat)
    (hp : alookup S.processes upid = some p) :
    (∀ S2 : PDC, alookup S2.processes upid = none →
      terminate_process S2 upid = Except.error ()) ∧
    (ProcessState.TERMINATED ≤ p.state → terminate_process S upid = Except.ok (S, [], p)) ∧
    (¬ ProcessState.TERMINATED ≤ p.state → p.assigned = none →
      terminate_process S upid = Except.ok
        ({ S with processes := aset S.processes upid { p with state := ProcessState.TERMINATED } },
         [], { p with state := ProcessState.TERMINATED })) ∧
    (∀ ee, ¬ ProcessState.TERMINATED ≤ p.state → p.assigned = some ee →
      terminate_process S upid = Except.ok
        ({ S with processes := aset S.processes upid { p with state := ProcessState.TERMINATING } },
         [Effect.terminate_call ee upid p.round], { p with state := ProcessState.TERMINATING })) ∧
    (∀ r, terminate_process S upid = Except.ok r → r.2.1.length ≤ 1) ∧
    (ProcessState.TERMINATED ≤ p.state → terminateCalls upid S n = (S, [])) ∧
    (¬ ProcessState.TERMINATED ≤ p.state → p.assigned = none → 0 < n →
      (terminateCalls upid S n).2 = [] ∧
      (alookup (terminateCalls upid S n).1.processes upid).map ProcessRecord.state =
        some ProcessState.TERMINATED) ∧
    (∀ ee, ¬ ProcessState.TERMINATED ≤ p.state → p.assigned = some ee →
      (terminateCalls upid S n).2 = List.replicate n (Effect.terminate_call ee upid p.round) ∧
      (0 < n → (alookup (terminateCalls upid S n).1.processes upid).map ProcessRecord.state =
        some ProcessState.TERMINATING)) := by
  have habs : ∀ S2 : PDC, alookup S2.processes upid = none →
      terminate_process S2 upid = Except.error () := by
    intro S2 h2
    unfold terminate_process
    simp only [h2]
  have hcase1 : ProcessState.TERMINATED ≤ p.state →
      terminate_process S upid = Except.ok (S, [], p) := by
    intro hge
    unfold terminate_process
    simp only [hp, if_pos hge]
  have hcase2 : ¬ ProcessState.TERMINATED ≤ p.state → p.assigned = none →
      terminate_process S upid = Except.ok
        ({ S with processes := aset S.processes upid { p with state := ProcessState.TERMINATED } },
         [], { p with state := ProcessState.TERMINATED }) := by
    intro hnge hass
    unfold terminate_process
    simp only [hp, if_neg hnge, hass]
  have hcase3 : ∀ ee, ¬ ProcessState.TERMINATED ≤ p.state → p.assigned = some ee →
      terminate_process S upid = Except.ok
        ({ S with processes := aset S.processes upid { p with state := ProcessState.TERMINATING } },
         [Effect.terminate_call ee upid p.round], { p with state := ProcessState.TERMINATING }) := by
    intro ee hnge hass
    unfold terminate_process
    simp only [hp, if_neg hnge, hass]
  refine ⟨habs, hcase1, hcase2, hcase3, ?_, ?_, ?_, ?_⟩
  · intro r hr
    by_cases hge : ProcessState.TERMINATED ≤ p.state
    · rw [hcase1 hge] at hr
      injection hr with hr
      rw [← hr]
      simp
    · rcases hass : p.assigned with _ | ee
      · rw [hcase2 hge hass] at hr
        injection hr with hr
        rw [← hr]
        simp
      · rw [hcase3 ee hge hass] at hr
        injection hr with hr
        rw [← hr]
        simp
  · intro hge
    exact terminateCalls_stable upid n S p hp hge
  · intro hnge hass hn
    obtain ⟨m, rfl⟩ := Nat.exists_eq_succ_of_ne_zero (Nat.pos_iff_ne_zero.mp hn)
    unfold terminateCalls
    simp only [hcase2 hnge hass]
    have hq1 : alookup (aset S.processes upid { p with state := ProcessState.TERMINATED }) upid =
        some { p with state := ProcessState.TERMINATED } := alookup_aset_self _ _ _
    have hstab := terminateCalls_stable upid m
      { S with processes := aset S.processes upid { p with state := ProcessState.TERMINATED } }
      { p with state := ProcessState.TERMINATED } hq1 (by simp [ProcessState.instLE])
    simp only at hstab
    rw [hstab]
    exact ⟨rfl, by simp [hq1]⟩
  · intro ee hnge hass
    cases n with
    | zero =>
      refine ⟨rfl, fun h => absurd h (by decide)⟩
    | succ m =>
      unfold terminateCalls
      simp only [hcase3 ee hnge hass]
      have hq1 : alookup (aset S.processes upid { p with state := ProcessState.TERMINATING }) upid =
          some { p with state := ProcessState.TERMINATING } := alookup_aset_self _ _ _
      obtain ⟨he, hs⟩ := terminateCalls_terminating upid ee m
        { S with processes := aset S.processes upid { p with state := ProcessState.TERMINATING } }
        { p with state := ProcessState.TERMINATING } hq1 rfl hass
      simp only at he hs
      refine ⟨?_, fun _ => hs⟩
      simp [he, List.replicate_succ]

/-- Witness for C3 at a concrete input: two terminate calls on the
running `p` of `exRunning`. -/
theorem terminate_process_cases_witness :
    alookup exRunning.processes "p" =
      some ⟨"p", ⟨"rt", "pm"⟩, ProcessState.RUNNING, [], none, 0, 0, false, some "n1"⟩ ∧
    (∀ ee, ¬ ProcessState.TERMINATED ≤
        (⟨"p", ⟨"rt", "pm"⟩, ProcessState.RUNNING, [], none, 0, 0, false,
          some "n1"⟩ : ProcessRecord).state →
      (⟨"p", ⟨"rt", "pm"⟩, ProcessState.RUNNING, [], none, 0, 0, false,
        some "n1"⟩ : ProcessRecord).assigned = some ee →
      (terminateCalls "p" exRunning 2).2 = List.replicate 2 (Effect.terminate_call ee "p" 0) ∧
      (0 < 2 → (alookup (terminateCalls "p" exRunning 2).1.processes "p").map
        ProcessRecord.state = some ProcessState.TERMINATING)) :=
  ⟨by decide, (terminate_process_cases exRunning "p"
    ⟨"p", ⟨"rt", "pm"⟩, ProcessState.RUNNING, [], none, 0, 0, false, some "n1"⟩ 2
    (by decide)).2.2.2.2.2.2.2⟩

/-! ### Association-list lemmas for the invariant proofs -/

theorem alookup_adel_ne {α : Type} (l : List (String × α)) (k k' : String) (h : k ≠ k') :
    alookup (adel l k) k' = alookup l k' := by
  induction l with
  | nil => rfl
  | cons hd t ih =>
    obtain ⟨k'', v''⟩ := hd
    by_cases hk : k'' = k
    · subst hk
      simp [adel, alookup, h]
    · simp [adel, alookup, hk, ih]

theorem alookup_foldl_adel_notin {α : Type} (keys : List String) :
    ∀ (l : List (String × α)) (k : String), k ∉ keys →
      alookup (keys.foldl adel l) k = alookup l k := by
  induction keys with
  | nil => intro l k _; rfl
  | cons e t ih =>
    intro l k hk
    have hke : e ≠ k := fun he => hk (he ▸ List.mem_cons_self e t)
    have hkt : k ∉ t := fun h => hk (List.mem_cons_of_mem e h)
    simp only [List.foldl_cons]
    rw [ih (adel l e) k hkt, alookup_adel_ne l e k hke]

theorem aupd_keys {α : Type} (l : List (String × α)) (k : String) (f : α → α) :
    (aupd l k f).map Prod.fst = l.map Prod.fst := by
  induction l with
  | nil => rfl
  | cons hd t ih =>
    obtain ⟨k', v'⟩ := hd
    by_cases hk : k' = k <;> simp [aupd, hk, ih]

theorem mem_of_alookup {α : Type} (l : List (String × α)) (k : String) (v : α)
    (h : alookup l k = some v) : (k, v) ∈ l := by
  induction l with
  | nil => cases h
  | cons hd t ih =>
    obtain ⟨k', v'⟩ := hd
    by_cases hk : k' = k
    · subst hk
      simp [alookup] at h
      simp [h]
    · simp [alookup, hk] at h
      exact List.mem_cons_of_mem _ (ih h)

theorem alookup_of_mem_nodup {α : Type} (l : List (String × α)) (k : String) (v : α)
    (hmem : (k, v) ∈ l) (hnd : (l.map Prod.fst).Nodup) : alookup l k = some v := by
  induction l with
  | nil => cases hmem
  | cons hd t ih =>
    obtain ⟨k', v'⟩ := hd
    rcases List.mem_cons.mp hmem with h | h
    · obtain ⟨h1, h2⟩ := Prod.mk.injEq .. ▸ h.symm
      simp [alookup, h1.symm, h2.symm]
    · have hk : k' ≠ k := by
        intro he
        subst he
        have : k' ∈ t.map Prod.fst := List.mem_map.mpr ⟨(k', v), h, rfl⟩
        exact (List.nodup_cons.mp (by simpa using hnd)).1 this
      simp only [alookup, if_neg hk]
      exact ih h (List.nodup_cons.mp (by simpa using hnd)).2

theorem aupd_forall {α : Type} (l : List (String × α)) (k0 : String) (f : α → α)
    (P : String → α → Prop) (hl : ∀ kv ∈ l, P kv.1 kv.2)
    (hf : ∀ k v, P k v → P k (f v)) : ∀ kv ∈ aupd l k0 f, P kv.1 kv.2 := by
  induction l with
  | nil => intro kv h; cases h
  | cons hd t ih =>
    obtain ⟨k', v'⟩ := hd
    intro kv hkv
    by_cases hk : k' = k0
    · rw [aupd_cons, if_pos hk] at hkv
      rcases List.mem_cons.mp hkv with h | h
      · rw [h]
        exact hf k' v' (hl (k', v') (List.mem_cons_self _ _))
      · exact hl kv (List.mem_cons_of_mem _ h)
    · rw [aupd_cons, if_neg hk] at hkv
      rcases List.mem_cons.mp hkv with h | h
      · rw [h]
        exact hl (k', v') (List.mem_cons_self _ _)
      · exact ih (fun kv h2 => hl kv (List.mem_cons_of_mem _ h2)) kv h

theorem alookup_foldl_aupd_idem {α : Type} (f : α → α) (hf : ∀ v, f (f v) = f v)
    (keys : List String) :
    ∀ (l : List (String × α)) (k : String),
      alookup (keys.foldl (fun acc e => aupd acc e f) l) k =
        if k ∈ keys then (alookup l k).map f else alookup l k := by
  induction keys with
  | nil => intro l k; simp
  | cons e t ih =>
    intro l k
    simp only [List.foldl_cons]
    rw [ih (aupd l e f) k]
    by_cases hkt : k ∈ t
    · rw [if_pos hkt, if_pos (List.mem_cons_of_mem e hkt)]
      by_cases hke : e = k
      · subst hke
        rw [alookup_aupd_self]
        cases alookup l e with
        | none => rfl
        | some v => simp [hf]
      · rw [alookup_aupd_ne l e k f hke]
    · rw [if_neg hkt]
      by_cases hke : e = k
      · subst hke
        rw [if_pos (List.mem_cons_self _ _), alookup_aupd_self]
      · rw [alookup_aupd_ne l e k f hke, if_neg (by
          intro h
          rcases List.mem_cons.mp h with h | h
          · exact hke h.symm
          · exact hkt h)]

/-! ### Matchmake shape lemmas -/

/-- Matchmaking never changes the node table. -/
theorem matchmake_nodes (S : PDC) (u : String) :
    (matchmakeProcess S u).1.nodes = S.nodes := by
  rcases hp : alookup S.processes u with _ | p
  · rw [matchmake_absent S u hp]
  · rcases matchmakeProcess_cases S u p hp with ⟨_, _, h⟩ | ⟨_, _, h⟩ | ⟨r, _, h⟩ <;> rw [h]

/-- Matchmaking leaves the queue unchanged or appends the matched upid. -/
theorem matchmake_queue_shape (S : PDC) (u : String) :
    (matchmakeProcess S u).1.queue = S.queue ∨
    (matchmakeProcess S u).1.queue = S.queue ++ [u] := by
  rcases hp : alookup S.processes u with _ | p
  · rw [matchmake_absent S u hp]; left; rfl
  · rcases matchmakeProcess_cases S u p hp with ⟨_, _, h⟩ | ⟨_, _, h⟩ | ⟨r, _, h⟩ <;> rw [h]
    · left; rfl
    · right; rfl
    · left; rfl

/-- Matchmaking leaves the resource table unchanged or adds the upid to
one resource's pending set. -/
theorem matchmake_resources_shape (S : PDC) (u : String) :
    (matchmakeProcess S u).1.resources = S.resources ∨
    ∃ ee, (matchmakeProcess S u).1.resources = aupd S.resources ee
      (fun res => { res with pending := listInsert res.pending u }) := by
  rcases hp : alookup S.processes u with _ | p
  · rw [matchmake_absent S u hp]; left; rfl
  · rcases matchmakeProcess_cases S u p hp with ⟨_, _, h⟩ | ⟨_, _, h⟩ | ⟨r, _, h⟩ <;> rw [h]
    · left; rfl
    · left; rfl
    · right; exact ⟨r.ee_id, rfl⟩

/-- Matchmaking preserves every resource entry's key, enabled flag and
processes collection. -/
theorem matchmake_flags (S : PDC) (u : String) (k : String) :
    (alookup (matchmakeProcess S u).1.resources k).map resFlag =
      (alookup S.resources k).map resFlag := by
  rcases matchmake_resources_shape S u with h | ⟨ee, h⟩
  · rw [h]
  · rw [h]
    by_cases hke : ee = k
    · subst hke
      rw [alookup_aupd_self]
      cases alookup S.resources ee with
      | none => rfl
      | some r => rfl
    · rw [alookup_aupd_ne _ _ _ _ hke]

/-- Matchmaking preserves the resource key list. -/
theorem matchmake_keys_eq (S : PDC) (u : String) :
    (matchmakeProcess S u).1.resources.map Prod.fst = S.resources.map Prod.fst := by
  rcases matchmake_resources_shape S u with h | ⟨ee, h⟩ <;> rw [h]
  exact aupd_keys _ _ _

/-- Matchmaking preserves the key/ee_id agreement of resource entries. -/
theorem matchmake_keys_ee (S : PDC) (u : String)
    (h : ∀ kv ∈ S.resources, kv.2.ee_id = kv.1) :
    ∀ kv ∈ (matchmakeProcess S u).1.resources, kv.2.ee_id = kv.1 := by
  rcases matchmake_resources_shape S u with hs | ⟨ee, hs⟩ <;> rw [hs]
  · exact h
  · exact aupd_forall S.resources ee _ (fun k r => r.ee_id = k) h (fun k v hv => hv)

/-- The record a matchmake leaves for the matched upid: REJECTED,
WAITING, or PENDING assigned to an enabled resource present in the
post-state table. -/
theorem matchmake_result_record (S : PDC) (u : String) (p : ProcessRecord)
    (hp : alookup S.processes u = some p)
    (hkeys : ∀ kv ∈ S.resources, kv.2.ee_id = kv.1)
    (hnodup : (S.resources.map Prod.fst).Nodup) :
    alookup (matchmakeProcess S u).1.processes u = some { p with state := ProcessState.REJECTED } ∨
    alookup (matchmakeProcess S u).1.processes u = some { p with state := ProcessState.WAITING } ∨
    ∃ ee r', alookup (matchmakeProcess S u).1.processes u =
        some { p with assigned := some ee, state := ProcessState.PENDING } ∧
      alookup (matchmakeProcess S u).1.resources ee = some r' ∧ r'.enabled = true := by
  rcases matchmakeProcess_cases S u p hp with ⟨_, _, h⟩ | ⟨_, _, h⟩ | ⟨r, hmin, h⟩
  · left
    rw [h]
    exact alookup_aset_self _ _ _
  · right; left
    rw [h]
    exact alookup_aset_self _ _ _
  · right; right
    have hrc : r ∈ candidates S p := minBySlots_mem _ _ hmin
    have hren : r.enabled = true := by
      have havail : 0 < r.available_slots := by
        have := (List.mem_filter.mp hrc).2
        unfold resourceMatches at this
        have := (Bool.and_eq_true _ _).mp this
        exact of_decide_eq_true this.1
      by_contra hen
      have : r.available_slots = 0 := by
        unfold ExecutionEngineResource.available_slots
        rw [if_neg hen]
      omega
    have hrmem : r ∈ S.resources.map Prod.snd := (List.mem_filter.mp hrc).1
    obtain ⟨kv, hkv, hkv2⟩ := List.mem_map.mp hrmem
    have hkey : kv.1 = r.ee_id := by
      rw [← hkv2]
      exact (hkeys kv hkv).symm
    have hlook : alookup S.resources r.ee_id = some r := by
      have : (r.ee_id, r) ∈ S.resources := by
        have : kv = (r.ee_id, r) := by
          obtain ⟨a, b⟩ := kv
          simp only at hkey hkv2
          rw [hkey, hkv2]
        exact this ▸ hkv
      exact alookup_of_mem_nodup _ _ _ this hnodup
    refine ⟨r.ee_id, { r with pending := listInsert r.pending u }, ?_, ?_, hren⟩
    · rw [h]
      exact alookup_aset_self _ _ _
    · rw [h]
      show alookup (aupd S.resources r.ee_id _) r.ee_id = _
      rw [alookup_aupd_self, hlook]
      rfl

/-! ### The dt_state reschedule loop invariant -/

/-- Flag-preserving resource evolution keeps records safe. -/
theorem safe_transfer (S S' : PDC) (q : ProcessRecord)
    (hfl : ∀ k, (alookup S'.resources k).map resFlag = (alookup S.resources k).map resFlag)
    (hs : safeRec S q) : safeRec S' q := by
  rcases hs with h | h | ⟨ee, r, ha, hl, hen⟩
  · exact Or.inl h
  · exact Or.inr (Or.inl h)
  · refine Or.inr (Or.inr ?_)
    have := hfl ee
    rw [hl] at this
    rcases hl2 : alookup S'.resources ee with _ | r2
    · rw [hl2] at this; cases this
    · rw [hl2] at this
      have h3 : resFlag r2 = resFlag r := by simpa using this
      refine ⟨ee, r2, ha, hl2, ?_⟩
      have h4 : r2.enabled = r.enabled := congrArg (fun x => x.2.1) h3
      rw [h4, hen]

/-- A process state that is neither TERMINATING nor below it is terminal
or restart-pending. -/
theorem state_high_terminal (s : ProcessState) (h1 : ¬ s = ProcessState.TERMINATING)
    (h2 : ¬ s < ProcessState.TERMINATING) : terminalOrRestart s := by
  unfold terminalOrRestart
  revert h1 h2
  cases s <;> decide

/-- One `rescheduleUpid` step preserves the loop invariant and makes the
processed upid's record safe. -/
theorem rescheduleUpid_inv (S1 : PDC) (hnodup1 : (S1.resources.map Prod.fst).Nodup)
    (ee : String) (S : PDC) (effs : List Effect) (procd : List String) (u : String)
    (hinv : RInv S1 S procd) :
    RInv S1 (rescheduleUpid ee (S, effs) u).1 (procd ++ [u]) := by
  have hnodup : (S.resources.map Prod.fst).Nodup := hinv.keys_eq ▸ hnodup1
  unfold rescheduleUpid
  dsimp only
  rcases hp : alookup S.processes u with _ | p
  · simp only [hp]
    refine ⟨hinv.keys_ee, hinv.keys_eq, hinv.flags, ?_, ?_⟩
    · intro v hv q hq
      rcases List.mem_append.mp hv with hv | hv
      · exact hinv.procd_G v hv q hq
      · have : v = u := by simpa using hv
        rw [this, hp] at hq
        cases hq
    · intro v hv
      exact hinv.untouched v (fun h => hv (List.mem_append_left _ h))
  · simp only [hp]
    by_cases hterm : p.state = ProcessState.TERMINATING
    · simp only [if_pos hterm]
      refine ⟨hinv.keys_ee, hinv.keys_eq, hinv.flags, ?_, ?_⟩
      · intro v hv q hq
        have hq2 : alookup (aset S.processes u { p with state := ProcessState.TERMINATED }) v =
            some q := hq
        by_cases hvu : v = u
        · subst hvu
          rw [alookup_aset_self] at hq2
          injection hq2 with hq2
          rw [← hq2]
          exact Or.inr (Or.inl (Or.inl rfl))
        · rw [alookup_aset_ne _ _ _ _ (fun h => hvu h.symm)] at hq2
          rcases List.mem_append.mp hv with hv2 | hv2
          · exact hinv.procd_G v hv2 q hq2
          · exact absurd (by simpa using hv2) hvu
      · intro v hv
        have hvu : v ≠ u := fun h => hv (List.mem_append_right _ (by simp [h]))
        have h1 : alookup (aset S.processes u { p with state := ProcessState.TERMINATED }) v =
            alookup S.processes v := alookup_aset_ne _ _ _ _ (fun h => hvu h.symm)
        exact h1.trans (hinv.untouched v (fun h => hv (List.mem_append_left _ h)))
    · simp only [if_neg hterm]
      by_cases hlt : p.state < ProcessState.TERMINATING
      · simp only [if_pos hlt]
        have hpmid : alookup (diedState S u p).processes u = some (diedRecord p) :=
          alookup_aset_self _ _ _
        have hkeysmid : ∀ kv ∈ (diedState S u p).resources, kv.2.ee_id = kv.1 := hinv.keys_ee
        have hnodupmid : ((diedState S u p).resources.map Prod.fst).Nodup := hnodup
        show RInv S1 (matchmakeProcess (diedState S u p) u).1 (procd ++ [u])
        refine ⟨?_, ?_, ?_, ?_, ?_⟩
        · exact matchmake_keys_ee (diedState S u p) u hkeysmid
        · exact (matchmake_keys_eq (diedState S u p) u).trans hinv.keys_eq
        · intro k
          exact (matchmake_flags (diedState S u p) u k).trans (hinv.flags k)
        · intro v hv q hq
          by_cases hvu : v = u
          · subst hvu
            rcases matchmake_result_record (diedState S v p) v (diedRecord p) hpmid
              hkeysmid hnodupmid with h | h | ⟨ee2, r2, h, hl2, hen2⟩
            · rw [h] at hq
              injection hq with hq
              rw [← hq]
              exact Or.inr (Or.inl (Or.inr (Or.inr (Or.inl rfl))))
            · rw [h] at hq
              injection hq with hq
              rw [← hq]
              exact Or.inl rfl
            · rw [h] at hq
              injection hq with hq
              rw [← hq]
              exact Or.inr (Or.inr ⟨ee2, r2, rfl, hl2, hen2⟩)
          · have h1 : alookup (matchmakeProcess (diedState S u p) u).1.processes v =
                alookup S.processes v :=
              (matchmake_lookup_other (diedState S u p) u v hvu).trans
                (alookup_aset_ne S.processes u v (diedRecord p) (fun h => hvu h.symm))
            rw [h1] at hq
            rcases List.mem_append.mp hv with hv2 | hv2
            · refine safe_transfer S _ q ?_ (hinv.procd_G v hv2 q hq)
              intro k
              exact matchmake_flags (diedState S u p) u k
            · exact absurd (by simpa using hv2) hvu
        · intro v hv
          have hvu : v ≠ u := fun h => hv (List.mem_append_right _ (by simp [h]))
          have h1 : alookup (matchmakeProcess (diedState S u p) u).1.processes v =
              alookup S.processes v :=
            (matchmake_lookup_other (diedState S u p) u v hvu).trans
              (alookup_aset_ne S.processes u v (diedRecord p) (fun h => hvu h.symm))
          exact h1.trans (hinv.untouched v (fun h => hv (List.mem_append_left _ h)))
      · simp only [if_neg hlt]
        refine ⟨hinv.keys_ee, hinv.keys_eq, hinv.flags, ?_, ?_⟩
        · intro v hv q hq
          rcases List.mem_append.mp hv with hv | hv
          · exact hinv.procd_G v hv q hq
          · have hvu : v = u := by simpa using hv
            rw [hvu, hp] at hq
            injection hq with hq
            rw [← hq]
            exact Or.inr (Or.inl (state_high_terminal p.state hterm hlt))
        · intro v hv
          exact hinv.untouched v (fun h => hv (List.mem_append_left _ h))

/-- The invariant is preserved by a reschedule loop over any upid
list. -/
theorem rescheduleUpids_inv (S1 : PDC) (hnodup1 : (S1.resources.map Prod.fst).Nodup)
    (ee : String) :
    ∀ (ups : List String) (Se : PDC × List Effect) (procd : List String),
      RInv S1 Se.1 procd →
      RInv S1 (ups.foldl (rescheduleUpid ee) Se).1 (procd ++ ups) := by
  intro ups
  induction ups with
  | nil => intro Se procd h; simpa using h
  | cons v t ih =>
    intro Se procd h
    have h1 := rescheduleUpid_inv S1 hnodup1 ee Se.1 Se.2 procd v h
    rw [show ((Se.1, Se.2) : PDC × List Effect) = Se from rfl] at h1
    have h2 := ih (rescheduleUpid ee Se v) (procd ++ [v]) h1
    simpa using h2

/-- The invariant is preserved by rescheduling one dying resource; the
processed upids are exactly its acknowledged processes (which the loop
never changes, so the snapshot agrees with the loop-start state). -/
theorem rescheduleResource_inv (S1 : PDC) (hnodup1 : (S1.resources.map Prod.fst).Nodup)
    (Se : PDC × List Effect) (ee : String) (procd : List String)
    (h : RInv S1 Se.1 procd) :
    RInv S1 (rescheduleResource Se ee).1 (procd ++ processedOf S1 ee) := by
  unfold rescheduleResource
  rcases hr : alookup Se.1.resources ee with _ | r
  · have hS1 : alookup S1.resources ee = none := by
      have hfl := h.flags ee
      rw [hr] at hfl
      cases hS1 : alookup S1.resources ee with
      | none => rfl
      | some r1 => rw [hS1] at hfl; cases hfl
    have hpe : processedOf S1 ee = [] := by
      unfold processedOf
      rw [hS1]
      rfl
    rw [hpe, List.append_nil]
    exact h
  · have hproc : r.processes = processedOf S1 ee := by
      have hfl := h.flags ee
      rw [hr] at hfl
      cases hS1 : alookup S1.resources ee with
      | none => rw [hS1] at hfl; cases hfl
      | some r1 =>
        rw [hS1] at hfl
        have h3 : resFlag r = resFlag r1 := by simpa using hfl
        have h4 : r.processes = r1.processes := congrArg (fun x => x.2.2) h3
        unfold processedOf
        rw [hS1, h4]
        rfl
    have h2 := rescheduleUpids_inv S1 hnodup1 ee r.processes Se procd h
    show RInv S1 (r.processes.foldl (rescheduleUpid ee) Se).1 (procd ++ processedOf S1 ee)
    rw [← hproc]
    exact h2

/-- The invariant is preserved by the whole reschedule phase over a list
of dying resources. -/
theorem rescheduleFold_inv (S1 : PDC) (hnodup1 : (S1.resources.map Prod.fst).Nodup) :
    ∀ (D : List String) (Se : PDC × List Effect) (procd : List String),
      RInv S1 Se.1 procd →
      RInv S1 (D.foldl rescheduleResource Se).1
        (procd ++ (D.map (processedOf S1)).flatten) := by
  intro D
  induction D with
  | nil => intro Se procd h; simpa using h
  | cons e t ih =>
    intro Se procd h
    have h1 := rescheduleResource_inv S1 hnodup1 Se e procd h
    have h2 := ih (rescheduleResource Se e) (procd ++ processedOf S1 e) h1
    simpa [List.append_assoc] using h2

/-- The disable phase, componentwise. -/
theorem disable_fold_eq (D : List String) :
    ∀ S : PDC, D.foldl (fun s ee => { s with resources := aupd s.resources ee (fun r => { r with enabled := false }) }) S = { S with resources := D.foldl (fun res ee => aupd res ee (fun r => { r with enabled := false })) S.resources } := by
  induction D with
  | nil => intro S; rfl
  | cons e t ih =>
    intro S
    simp only [List.foldl_cons]
    rw [ih]

/-- The resource-deletion phase, componentwise. -/
theorem delete_fold_eq (D : List String) :
    ∀ S : PDC, D.foldl (fun s ee => { s with resources := adel s.resources ee }) S = { S with resources := D.foldl adel S.resources } := by
  induction D with
  | nil => intro S; rfl
  | cons e t ih =>
    intro S
    simp only [List.foldl_cons]
    rw [ih]

theorem foldl_aupd_keys {α : Type} (f : α → α) (D : List String) :
    ∀ l : List (String × α),
      (D.foldl (fun res ee => aupd res ee f) l).map Prod.fst = l.map Prod.fst := by
  induction D with
  | nil => intro l; rfl
  | cons e t ih =>
    intro l
    simp only [List.foldl_cons]
    rw [ih, aupd_keys]

theorem foldl_aupd_forall {α : Type} (f : α → α) (P : String → α → Prop)
    (hf : ∀ k v, P k v → P k (f v)) (D : List String) :
    ∀ l : List (String × α), (∀ kv ∈ l, P kv.1 kv.2) →
      ∀ kv ∈ D.foldl (fun res ee => aupd res ee f) l, P kv.1 kv.2 := by
  induction D with
  | nil => intro l h; exact h
  | cons e t ih =>
    intro l h
    simp only [List.foldl_cons]
    exact ih _ (aupd_forall l e f P h hf)

/-- `dt_state` on a terminating/terminated unknown node is a no-op. -/
theorem dt_state_term_nonode (S : PDC) (node_id dt : String)
    (props : Option (List (String × String))) (st : InstanceState)
    (hnr : ¬ st = InstanceState.RUNNING)
    (hterm : st = InstanceState.TERMINATING ∨ st = InstanceState.TERMINATED)
    (hnode : alookup S.nodes node_id = none) :
    dt_state S node_id dt st props = (S, []) := by
  unfold dt_state
  simp only [if_neg hnr, if_pos hterm, hnode]

/-- The state `dt_state` leaves after tearing down a known node: the
reschedule phase runs on the disabled-resources state, then the node and
its resources are dropped. -/
theorem dt_state_term_components (S : PDC) (node_id dt : String)
    (props : Option (List (String × String))) (st : InstanceState)
    (hnr : ¬ st = InstanceState.RUNNING)
    (hterm : st = InstanceState.TERMINATING ∨ st = InstanceState.TERMINATED)
    (node : DeployedNode) (hnode : alookup S.nodes node_id = some node) :
    (dt_state S node_id dt st props).1 =
      (fun Sn => { Sn with nodes := adel Sn.nodes node_id, resources := node.resources.foldl adel Sn.resources })
        (node.resources.foldl rescheduleResource ({ S with resources := node.resources.foldl (fun res ee => aupd res ee (fun r => { r with enabled := false })) S.resources }, [])).1 := by
  unfold dt_state
  simp only [if_neg hnr, if_pos hterm, hnode]
  rw [disable_fold_eq, delete_fold_eq]

/-- **C5** (corrected, amended): after a `dt_state` node teardown (and
trivially after a no-op), every process whose `assigned` is non-null
either names a resource still in the table, or is in a terminal or
restart-pending state, or was never acknowledged by a heartbeat on the
assigned resource — `dt_state` only reschedules the processes in a dead
resource's `processes` collection, so a process still waiting in its
`pending` set keeps a dangling PENDING assignment. -/
theorem assigned_resource_exists_acked (S : PDC) (node_id dt : String)
    (props : Option (List (String × String))) (st : InstanceState)
    (hst : st = InstanceState.TERMINATING ∨ st = InstanceState.TERMINATED)
    (hkeys : ∀ kv ∈ S.resources, kv.2.ee_id = kv.1)
    (hnodup : (S.resources.map Prod.fst).Nodup) :
    ∀ u p', alookup (dt_state S node_id dt st props).1.processes u = some p' →
      ∀ ee, p'.assigned = some ee →
        (alookup (dt_state S node_id dt st props).1.resources ee).isSome = true ∨
        terminalOrRestart p'.state ∨ ¬ ackedOn S ee u := by
  have hnr : ¬ st = InstanceState.RUNNING := by
    rcases hst with h | h <;> subst h <;> decide
  rcases hnode : alookup S.nodes node_id with _ | node
  · rw [dt_state_term_nonode S node_id dt props st hnr hst hnode]
    intro u p' hp' ee hee
    by_cases hr : (alookup S.resources ee).isSome
    · exact Or.inl hr
    · refine Or.inr (Or.inr ?_)
      rintro ⟨r0, hr0, _⟩
      rw [hr0] at hr
      exact hr rfl
  · rw [dt_state_term_components S node_id dt props st hnr hst node hnode]
    intro u p' hp' ee hee
    have hf_idem : ∀ r : ExecutionEngineResource,
        (fun r => { r with enabled := false }) ((fun r => { r with enabled := false }) r) =
          (fun r => { r with enabled := false }) r := fun r => rfl
    have hS1keys : ∀ kv ∈ ({ S with resources := node.resources.foldl (fun res ee => aupd res ee (fun r => { r with enabled := false })) S.resources } : PDC).resources, kv.2.ee_id = kv.1 :=
      foldl_aupd_forall (fun r => { r with enabled := false }) (fun k r => r.ee_id = k)
        (fun k v hv => hv) node.resources S.resources hkeys
    have hS1keyseq : ({ S with resources := node.resources.foldl (fun res ee => aupd res ee (fun r => { r with enabled := false })) S.resources } : PDC).resources.map Prod.fst = S.resources.map Prod.fst :=
      foldl_aupd_keys (fun r => { r with enabled := false }) node.resources S.resources
    have hS1nodup : (({ S with resources := node.resources.foldl (fun res ee => aupd res ee (fun r => { r with enabled := false })) S.resources } : PDC).resources.map Prod.fst).Nodup :=
      hS1keyseq ▸ hnodup
    have hS1look : ∀ k, alookup ({ S with resources := node.resources.foldl (fun res ee => aupd res ee (fun r => { r with enabled := false })) S.resources } : PDC).resources k =
        if k ∈ node.resources then (alookup S.resources k).map (fun r => { r with enabled := false }) else alookup S.resources k :=
      fun k => alookup_foldl_aupd_idem (fun r => { r with enabled := false }) hf_idem node.resources S.resources k
    have hinv0 : RInv { S with resources := node.resources.foldl (fun res ee => aupd res ee (fun r => { r with enabled := false })) S.resources } { S with resources := node.resources.foldl (fun res ee => aupd res ee (fun r => { r with enabled := false })) S.resources } [] :=
      ⟨hS1keys, rfl, fun _ => rfl, by simp, fun _ _ => rfl⟩
    have hinvN := rescheduleFold_inv _ hS1nodup node.resources
      ({ S with resources := node.resources.foldl (fun res ee => aupd res ee (fun r => { r with enabled := false })) S.resources }, []) [] hinv0
    rw [List.nil_append] at hinvN
    by_cases hu : u ∈ ((node.resources.map (processedOf { S with resources := node.resources.foldl (fun res ee => aupd res ee (fun r => { r with enabled := false })) S.resources })).flatten : List String)
    · have hsafe := hinvN.procd_G u hu p' hp'
      rcases hsafe with h | h | ⟨ee2, r2, ha2, hl2, hen2⟩
      · rw [hee] at h
        cases h
      · exact Or.inr (Or.inl h)
      · rw [hee] at ha2
        injection ha2 with ha2
        subst ha2
        have hnotin : ee ∉ node.resources := by
          intro hin
          have hfl := hinvN.flags ee
          rw [hl2] at hfl
          rcases h1 : alookup ({ S with resources := node.resources.foldl (fun res ee => aupd res ee (fun r => { r with enabled := false })) S.resources } : PDC).resources ee with _ | r1
          · rw [h1] at hfl
            cases hfl
          · rw [h1] at hfl
            have h2 : resFlag r2 = resFlag r1 := by simpa using hfl
            have h3 : r2.enabled = r1.enabled := congrArg (fun x => x.2.1) h2
            have h4 := hS1look ee
            rw [if_pos hin, h1] at h4
            rcases h5 : alookup S.resources ee with _ | r0
            · rw [h5] at h4
              cases h4
            · rw [h5] at h4
              have h6 : r1 = { r0 with enabled := false } := by
                injection h4.symm with h7
                exact h7.symm
              rw [hen2] at h3
              rw [h6] at h3
              cases h3
        refine Or.inl ?_
        have h7 : alookup (node.resources.foldl adel (node.resources.foldl rescheduleResource ({ S with resources := node.resources.foldl (fun res ee => aupd res ee (fun r => { r with enabled := false })) S.resources }, [])).1.resources) ee =
            alookup (node.resources.foldl rescheduleResource ({ S with resources := node.resources.foldl (fun res ee => aupd res ee (fun r => { r with enabled := false })) S.resources }, [])).1.resources ee :=
          alookup_foldl_adel_notin node.resources _ ee hnotin
        show (alookup (node.resources.foldl adel (node.resources.foldl rescheduleResource ({ S with resources := node.resources.foldl (fun res ee => aupd res ee (fun r => { r with enabled := false })) S.resources }, [])).1.resources) ee).isSome = true
        rw [h7, hl2]
        rfl
    · have hp3 : alookup S.processes u = some p' := by
        have h1 := hinvN.untouched u hu
        rw [h1] at hp'
        exact hp'
      by_cases hres : (alookup ((fun Sn : PDC => { Sn with nodes := adel Sn.nodes node_id, resources := node.resources.foldl adel Sn.resources }) (node.resources.foldl rescheduleResource ({ S with resources := node.resources.foldl (fun res ee => aupd res ee (fun r => { r with enabled := false })) S.resources }, [])).1).resources ee).isSome
      · exact Or.inl hres
      · refine Or.inr (Or.inr ?_)
        rintro ⟨r0, hr0, hu0⟩
        by_cases hin : ee ∈ node.resources
        · refine hu ?_
          have hS1ee : alookup ({ S with resources := node.resources.foldl (fun res ee => aupd res ee (fun r => { r with enabled := false })) S.resources } : PDC).resources ee =
              some { r0 with enabled := false } := by
            have h4 := hS1look ee
            rw [if_pos hin, hr0] at h4
            exact h4
          have hpo : u ∈ processedOf { S with resources := node.resources.foldl (fun res ee => aupd res ee (fun r => { r with enabled := false })) S.resources } ee := by
            unfold processedOf
            rw [hS1ee]
            exact hu0
          exact List.mem_flatten.mpr ⟨_, List.mem_map.mpr ⟨ee, hin, rfl⟩, hpo⟩
        · refine absurd ?_ hres
          have hS1ee : alookup ({ S with resources := node.resources.foldl (fun res ee => aupd res ee (fun r => { r with enabled := false })) S.resources } : PDC).resources ee = some r0 := by
            have h4 := hS1look ee
            rw [if_neg hin, hr0] at h4
            exact h4
          have hfl := hinvN.flags ee
          rw [hS1ee] at hfl
          rcases hSn : alookup (node.resources.foldl rescheduleResource ({ S with resources := node.resources.foldl (fun res ee => aupd res ee (fun r => { r with enabled := false })) S.resources }, [])).1.resources ee with _ | rn
          · rw [hSn] at hfl
            cases hfl
          · have h7 : alookup (node.resources.foldl adel (node.resources.foldl rescheduleResource ({ S with resources := node.resources.foldl (fun res ee => aupd res ee (fun r => { r with enabled := false })) S.resources }, [])).1.resources) ee =
                alookup (node.resources.foldl rescheduleResource ({ S with resources := node.resources.foldl (fun res ee => aupd res ee (fun r => { r with enabled := false })) S.resources }, [])).1.resources ee :=
              alookup_foldl_adel_notin node.resources _ ee hin
            show (alookup (node.resources.foldl adel (node.resources.foldl rescheduleResource ({ S with resources := node.resources.foldl (fun res ee => aupd res ee (fun r => { r with enabled := false })) S.resources }, [])).1.resources) ee).isSome = true
            rw [h7, hSn]
            rfl

/-- Witness for C5 at a concrete input: tearing down node `n1` while `p`
is pending (unacknowledged) on it leaves `p` PENDING with a dangling
assignment — the never-acknowledged escape clause holds. -/
theorem assigned_resource_exists_acked_witness :
    (alookup (dt_state exDispatched "n1" "dt1" InstanceState.TERMINATED
        none).1.resources "n1").isSome = true ∨
      terminalOrRestart ProcessState.PENDING ∨ ¬ ackedOn exDispatched "n1" "p" :=
  assigned_resource_exists_acked exDispatched "n1" "dt1" none InstanceState.TERMINATED
    (Or.inr rfl) (by decide) (by decide) "p"
    ⟨"p", ⟨"rt", "pm"⟩, ProcessState.PENDING, [], none, 0, 0, false, some "n1"⟩
    (by decide) "n1" rfl

/-! ### Association-list utilities for the invariant proofs -/

theorem alookup_eq_none_iff {α : Type} (l : List (String × α)) (k : String) :
    alookup l k = none ↔ k ∉ l.map Prod.fst := by
  induction l with
  | nil => simp
  | cons hd t ih =>
    obtain ⟨k', v'⟩ := hd
    simp only [alookup_cons, List.map_cons, List.mem_cons]
    by_cases hk : k' = k
    · subst hk
      simp
    · rw [if_neg hk, ih]
      constructor
      · intro h hmem
        rcases hmem with h2 | h2
        · exact hk h2.symm
        · exact h h2
      · intro h h2
        exact h (Or.inr h2)

theorem aupd_absent {α : Type} (l : List (String × α)) (k : String) (f : α → α)
    (h : alookup l k = none) : aupd l k f = l := by
  induction l with
  | nil => rfl
  | cons hd t ih =>
    obtain ⟨k', v'⟩ := hd
    by_cases hk : k' = k
    · rw [alookup_cons, if_pos hk] at h
      cases h
    · rw [alookup_cons, if_neg hk] at h
      rw [aupd_cons, if_neg hk, ih h]

theorem aupd_lookup_id {α : Type} (l : List (String × α)) (k : String) (f : α → α) (v : α)
    (h : alookup l k = some v) (hf : f v = v) : aupd l k f = l := by
  induction l with
  | nil => cases h
  | cons hd t ih =>
    obtain ⟨k', v'⟩ := hd
    by_cases hk : k' = k
    · rw [alookup_cons, if_pos hk] at h
      injection h with h
      rw [aupd_cons, if_pos hk, h, hf]
    · rw [alookup_cons, if_neg hk] at h
      rw [aupd_cons, if_neg hk, ih h]

theorem aset_lookup_eq {α : Type} (l : List (String × α)) (k : String) (v : α)
    (h : alookup l k = some v) : aset l k v = l := by
  induction l with
  | nil => cases h
  | cons hd t ih =>
    obtain ⟨k', v'⟩ := hd
    by_cases hk : k' = k
    · rw [alookup_cons, if_pos hk] at h
      injection h with h
      rw [aset_cons, if_pos hk, h, hk]
    · rw [alookup_cons, if_neg hk] at h
      rw [aset_cons, if_neg hk, ih h]

theorem aset_absent {α : Type} (l : List (String × α)) (k : String) (v : α)
    (h : alookup l k = none) : aset l k v = l ++ [(k, v)] := by
  induction l with
  | nil => rfl
  | cons hd t ih =>
    obtain ⟨k', v'⟩ := hd
    by_cases hk : k' = k
    · rw [alookup_cons, if_pos hk] at h
      cases h
    · rw [alookup_cons, if_neg hk] at h
      rw [aset_cons, if_neg hk, ih h, List.cons_append]

theorem adel_sublist {α : Type} (l : List (String × α)) (k : String) :
    (adel l k).Sublist l := by
  induction l with
  | nil => exact List.Sublist.refl _
  | cons hd t ih =>
    obtain ⟨k', v'⟩ := hd
    by_cases hk : k' = k
    · rw [adel_cons, if_pos hk]
      exact List.sublist_cons_self _ _
    · rw [adel_cons, if_neg hk]
      exact List.Sublist.cons₂ _ ih

theorem foldl_adel_sublist {α : Type} (D : List String) :
    ∀ l : List (String × α), (D.foldl adel l).Sublist l := by
  induction D with
  | nil => intro l; exact List.Sublist.refl _
  | cons e t ih =>
    intro l
    simp only [List.foldl_cons]
    exact (ih (adel l e)).trans (adel_sublist l e)

theorem alookup_adel_self_nodup {α : Type} (l : List (String × α)) (k : String)
    (hnd : (l.map Prod.fst).Nodup) : alookup (adel l k) k = none := by
  induction l with
  | nil => rfl
  | cons hd t ih =>
    obtain ⟨k', v'⟩ := hd
    rw [List.map_cons, List.nodup_cons] at hnd
    by_cases hk : k' = k
    · rw [adel_cons, if_pos hk]
      rw [alookup_eq_none_iff]
      rw [← hk]
      exact hnd.1
    · rw [adel_cons, if_neg hk, alookup_cons, if_neg hk]
      exact ih hnd.2

theorem alookup_foldl_adel_mem {α : Type} (D : List String) :
    ∀ (l : List (String × α)) (k : String), (l.map Prod.fst).Nodup → k ∈ D →
      alookup (D.foldl adel l) k = none := by
  induction D with
  | nil => intro l k _ hk; cases hk
  | cons e t ih =>
    intro l k hnd hk
    simp only [List.foldl_cons]
    by_cases hek : e = k
    · subst hek
      rw [alookup_eq_none_iff]
      intro hmem
      have hsub : (t.foldl adel (adel l e)).Sublist (adel l e) := foldl_adel_sublist t _
      have hmem2 : e ∈ (adel l e).map Prod.fst := (hsub.map Prod.fst).mem hmem
      exact ((alookup_eq_none_iff (adel l e) e).mp (alookup_adel_self_nodup l e hnd)) hmem2
    · have hkt : k ∈ t := by
        rcases List.mem_cons.mp hk with h | h
        · exact absurd h.symm hek
        · exact h
      have hnd2 : ((adel l e).map Prod.fst).Nodup := ((adel_sublist l e).map Prod.fst).nodup hnd
      exact ih (adel l e) k hnd2 hkt

theorem alookup_foldl_adel_keys_sub {α : Type} (D : List String) (l : List (String × α)) :
    ((D.foldl adel l).map Prod.fst).Sublist (l.map Prod.fst) :=
  (foldl_adel_sublist D l).map Prod.fst

theorem aupd_aupd_self {α : Type} (l : List (String × α)) (k : String) (f g : α → α) :
    aupd (aupd l k f) k g = aupd l k (fun v => g (f v)) := by
  induction l with
  | nil => rfl
  | cons hd t ih =>
    obtain ⟨k', v'⟩ := hd
    by_cases hk : k' = k
    · simp [aupd, hk]
    · simp [aupd, hk, ih]

theorem aupd_comm_ne {α : Type} (l : List (String × α)) (k k' : String) (f g : α → α)
    (h : k ≠ k') : aupd (aupd l k f) k' g = aupd (aupd l k' g) k f := by
  induction l with
  | nil => rfl
  | cons hd t ih =>
    obtain ⟨a, b⟩ := hd
    by_cases hak : a = k
    · have hak' : ¬ a = k' := fun h2 => h (hak.symm.trans h2)
      simp [aupd, hak, hak', h]
    · by_cases hak' : a = k'
      · have hk'k : ¬ k' = k := Ne.symm h
        simp [aupd, hak, hak', hk'k]
      · simp [aupd, hak, hak', ih]

theorem alookup_aupd_isSome {α : Type} (l : List (String × α)) (k k' : String) (f : α → α) :
    (alookup (aupd l k f) k').isSome = (alookup l k').isSome := by
  by_cases hk : k = k'
  · subst hk
    rw [alookup_aupd_self]
    cases alookup l k <;> rfl
  · rw [alookup_aupd_ne l k k' f hk]

theorem entry_eq_of_nodup {α : Type} (l : List (String × α)) (hnd : (l.map Prod.fst).Nodup)
    (kv kv' : String × α) (h1 : kv ∈ l) (h2 : kv' ∈ l) (hk : kv.1 = kv'.1) : kv = kv' := by
  have e1 : alookup l kv.1 = some kv.2 := alookup_of_mem_nodup l kv.1 kv.2 h1 hnd
  have e2 : alookup l kv'.1 = some kv'.2 := alookup_of_mem_nodup l kv'.1 kv'.2 h2 hnd
  rw [hk, e2] at e1
  injection e1 with e1
  obtain ⟨a, b⟩ := kv
  obtain ⟨a', b'⟩ := kv'
  simp only at hk e1
  rw [hk, e1]

/-! ### Exclusivity follows from the invariant -/

theorem inQueueB_iff (S : PDC) (u : String) : inQueueB S u = true ↔ u ∈ S.queue := by
  unfold inQueueB
  simp

theorem inPendingB_iff (S : PDC) (u : String) :
    inPendingB S u = true ↔ ∃ kv ∈ S.resources, u ∈ kv.2.pending := by
  unfold inPendingB
  rw [List.any_eq_true]
  simp

theorem inProcessesB_iff (S : PDC) (u : String) :
    inProcessesB S u = true ↔ ∃ kv ∈ S.resources, u ∈ kv.2.processes := by
  unfold inProcessesB
  rw [List.any_eq_true]
  simp

theorem PDCInv_exclusive (S : PDC) (hinv : PDCInv S) : ∀ u, atMostOnePlace S u = true := by
  intro u
  have hqp : inQueueB S u = true → inPendingB S u = true → False := by
    intro h1 h2
    obtain ⟨p, hp, hpn⟩ := hinv.queue_assigned u ((inQueueB_iff S u).mp h1)
    obtain ⟨kv, hkv, hpend⟩ := (inPendingB_iff S u).mp h2
    have hlk : alookup S.resources kv.1 = some kv.2 :=
      alookup_of_mem_nodup _ _ _ hkv hinv.nodup_resources
    obtain ⟨p', hp', hpa⟩ := hinv.pending_assigned kv.1 kv.2 hlk u hpend
    rw [hp] at hp'
    injection hp' with hpp
    rw [← hpp, hpn] at hpa
    cases hpa
  have hqr : inQueueB S u = true → inProcessesB S u = true → False := by
    intro h1 h2
    obtain ⟨p, hp, hpn⟩ := hinv.queue_assigned u ((inQueueB_iff S u).mp h1)
    obtain ⟨kv, hkv, hproc⟩ := (inProcessesB_iff S u).mp h2
    have hlk : alookup S.resources kv.1 = some kv.2 :=
      alookup_of_mem_nodup _ _ _ hkv hinv.nodup_resources
    obtain ⟨p', hp', hpa⟩ := hinv.processes_assigned kv.1 kv.2 hlk u hproc
    rw [hp] at hp'
    injection hp' with hpp
    rw [← hpp, hpn] at hpa
    cases hpa
  have hpr : inPendingB S u = true → inProcessesB S u = true → False := by
    intro h1 h2
    obtain ⟨kv, hkv, hpend⟩ := (inPendingB_iff S u).mp h1
    obtain ⟨kv', hkv', hproc⟩ := (inProcessesB_iff S u).mp h2
    have hlk : alookup S.resources kv.1 = some kv.2 :=
      alookup_of_mem_nodup _ _ _ hkv hinv.nodup_resources
    have hlk' : alookup S.resources kv'.1 = some kv'.2 :=
      alookup_of_mem_nodup _ _ _ hkv' hinv.nodup_resources
    obtain ⟨p, hp, hpa⟩ := hinv.pending_assigned kv.1 kv.2 hlk u hpend
    obtain ⟨p', hp', hpa'⟩ := hinv.processes_assigned kv'.1 kv'.2 hlk' u hproc
    rw [hp] at hp'
    injection hp' with hpp
    rw [← hpp, hpa] at hpa'
    injection hpa' with hkk
    have hkv_eq : kv = kv' := entry_eq_of_nodup S.resources hinv.nodup_resources kv kv' hkv hkv' hkk
    rw [hkv_eq] at hpend
    exact hinv.pend_proc_disjoint kv'.1 kv'.2 hlk' u hpend hproc
  unfold atMostOnePlace
  cases h1 : inQueueB S u <;> cases h2 : inPendingB S u <;> cases h3 : inProcessesB S u
  · decide
  · decide
  · decide
  · exact (hpr h2 h3).elim
  · decide
  · exact (hqr h1 h3).elim
  · exact (hqp h1 h2).elim
  · exact (hqp h1 h2).elim

/-! ### Invariant preservation: building blocks -/

theorem mem_listInsert (l : List String) (x v : String) (h : v ∈ listInsert l x) :
    v ∈ l ∨ v = x := by
  unfold listInsert at h
  by_cases hx : x ∈ l
  · rw [if_pos hx] at h
    exact Or.inl h
  · rw [if_neg hx] at h
    rcases List.mem_append.mp h with h | h
    · exact Or.inl h
    · right
      simpa using h

theorem self_mem_listInsert (l : List String) (x : String) : x ∈ listInsert l x := by
  unfold listInsert
  by_cases hx : x ∈ l
  · rw [if_pos hx]
    exact hx
  · rw [if_neg hx]
    simp

/-- Rewriting one record is safe as long as the new `assigned` agrees
with every place the upid occupies. -/
theorem PDCInv_aset_any (Y : PDC) (u : String) (q : ProcessRecord)
    (hinv : PDCInv Y)
    (hqueue : u ∈ Y.queue → q.assigned = none)
    (hcol : ∀ k r, alookup Y.resources k = some r → (u ∈ r.pending ∨ u ∈ r.processes) →
        q.assigned = some k) :
    PDCInv { Y with processes := aset Y.processes u q } := by
  refine ⟨hinv.nodup_resources, hinv.nodup_nodes, hinv.keys_resources, hinv.pending_nodup,
    hinv.processes_nodup, hinv.pend_proc_disjoint, ?_, ?_, ?_, hinv.node_resources⟩
  · intro k r hk v hv
    by_cases hvu : v = u
    · subst hvu
      exact ⟨q, alookup_aset_self _ _ _, hcol k r hk (Or.inl hv)⟩
    · obtain ⟨p', hp', ha⟩ := hinv.pending_assigned k r hk v hv
      exact ⟨p', (alookup_aset_ne _ _ _ _ (fun h => hvu h.symm)).trans hp', ha⟩
  · intro k r hk v hv
    by_cases hvu : v = u
    · subst hvu
      exact ⟨q, alookup_aset_self _ _ _, hcol k r hk (Or.inr hv)⟩
    · obtain ⟨p', hp', ha⟩ := hinv.processes_assigned k r hk v hv
      exact ⟨p', (alookup_aset_ne _ _ _ _ (fun h => hvu h.symm)).trans hp', ha⟩
  · intro v hv
    by_cases hvu : v = u
    · subst hvu
      exact ⟨q, alookup_aset_self _ _ _, hqueue hv⟩
    · obtain ⟨p', hp', ha⟩ := hinv.queue_assigned v hv
      exact ⟨p', (alookup_aset_ne _ _ _ _ (fun h => hvu h.symm)).trans hp', ha⟩

/-- Rewriting one record without changing its `assigned` preserves the
invariant. -/
theorem PDCInv_aset_keep (Y : PDC) (u : String) (p q : ProcessRecord)
    (hinv : PDCInv Y) (hp : alookup Y.processes u = some p)
    (hqa : q.assigned = p.assigned) :
    PDCInv { Y with processes := aset Y.processes u q } := by
  apply PDCInv_aset_any Y u q hinv
  · intro hu
    obtain ⟨p', hp', ha⟩ := hinv.queue_assigned u hu
    rw [hp] at hp'
    injection hp' with e
    rw [hqa, e]
    exact ha
  · intro k r hk hmem
    rcases hmem with hm | hm
    · obtain ⟨p', hp', ha⟩ := hinv.pending_assigned k r hk u hm
      rw [hp] at hp'
      injection hp' with e
      rw [hqa, e]
      exact ha
    · obtain ⟨p', hp', ha⟩ := hinv.processes_assigned k r hk u hm
      rw [hp] at hp'
      injection hp' with e
      rw [hqa, e]
      exact ha

/-- Appending an unassigned known upid to the queue preserves the
invariant. -/
theorem PDCInv_enqueue (Y : PDC) (u : String)
    (hinv : PDCInv Y) (h : ∃ p, alookup Y.processes u = some p ∧ p.assigned = none) :
    PDCInv { Y with queue := Y.queue ++ [u] } := by
  refine ⟨hinv.nodup_resources, hinv.nodup_nodes, hinv.keys_resources, hinv.pending_nodup,
    hinv.processes_nodup, hinv.pend_proc_disjoint, hinv.pending_assigned,
    hinv.processes_assigned, ?_, hinv.node_resources⟩
  intro v hv
  rcases List.mem_append.mp hv with h2 | h2
  · exact hinv.queue_assigned v h2
  · have hvu : v = u := by simpa using h2
    rw [hvu]
    exact h

/-- An unassigned record's upid is in no pending set and no processes
collection. -/
theorem unassigned_not_placed (Y : PDC) (u : String) (p : ProcessRecord)
    (hinv : PDCInv Y) (hp : alookup Y.processes u = some p) (hass : p.assigned = none) :
    ∀ k r, alookup Y.resources k = some r → u ∉ r.pending ∧ u ∉ r.processes := by
  intro k r hk
  constructor
  · intro hmem
    obtain ⟨p', hp', ha⟩ := hinv.pending_assigned k r hk u hmem
    rw [hp] at hp'
    injection hp' with e
    rw [← e, hass] at ha
    cases ha
  · intro hmem
    obtain ⟨p', hp', ha⟩ := hinv.processes_assigned k r hk u hmem
    rw [hp] at hp'
    injection hp' with e
    rw [← e, hass] at ha
    cases ha

/-- An assigned record's upid is not in the queue. -/
theorem assigned_some_not_queue (Y : PDC) (u : String) (p : ProcessRecord) (s : String)
    (hinv : PDCInv Y) (hp : alookup Y.processes u = some p) (hass : p.assigned = some s) :
    u ∉ Y.queue := by
  intro hu
  obtain ⟨p', hp', ha⟩ := hinv.queue_assigned u hu
  rw [hp] at hp'
  injection hp' with e
  rw [← e, hass] at ha
  cases ha

/-- An assigned record's upid occupies no collection of any other
resource. -/
theorem assigned_some_only (Y : PDC) (u : String) (p : ProcessRecord) (s : String)
    (hinv : PDCInv Y) (hp : alookup Y.processes u = some p) (hass : p.assigned = some s)
    (k : String) (r : ExecutionEngineResource) (hk : alookup Y.resources k = some r)
    (hne : k ≠ s) : u ∉ r.pending ∧ u ∉ r.processes := by
  constructor
  · intro hmem
    obtain ⟨p', hp', ha⟩ := hinv.pending_assigned k r hk u hmem
    rw [hp] at hp'
    injection hp' with e
    rw [← e, hass] at ha
    injection ha with ha
    exact hne ha.symm
  · intro hmem
    obtain ⟨p', hp', ha⟩ := hinv.processes_assigned k r hk u hmem
    rw [hp] at hp'
    injection hp' with e
    rw [← e, hass] at ha
    injection ha with ha
    exact hne ha.symm

/-- The `_dispatch_matched_process` shape preserves the invariant: set
the record assigned to `ee`, add the upid to `ee`'s pending set, and
drop the upid from the queue (a no-op filter when it was not queued). -/
theorem PDCInv_dispatch_shape (Y : PDC) (u : String) (q : ProcessRecord) (ee : String)
    (hinv : PDCInv Y) (hqass : q.assigned = some ee)
    (hnp : ∀ k r, alookup Y.resources k = some r → u ∉ r.pending ∧ u ∉ r.processes) :
    PDCInv { Y with
      processes := aset Y.processes u q,
      resources := aupd Y.resources ee (fun res => { res with pending := listInsert res.pending u }),
      queue := Y.queue.filter (fun v => !(v == u)) } := by
  refine ⟨?_, hinv.nodup_nodes, ?_, ?_, ?_, ?_, ?_, ?_, ?_, ?_⟩
  · show ((aupd Y.resources ee _).map Prod.fst).Nodup
    rw [aupd_keys]
    exact hinv.nodup_resources
  · intro k r hk
    by_cases hke : ee = k
    · subst hke
      rw [show alookup (aupd Y.resources ee (fun res => { res with pending := listInsert res.pending u })) ee = (alookup Y.resources ee).map (fun res => { res with pending := listInsert res.pending u }) from alookup_aupd_self _ _ _] at hk
      rcases hly : alookup Y.resources ee with _ | r0
      · rw [hly] at hk
        cases hk
      · rw [hly] at hk
        injection hk with hk
        rw [← hk]
        exact hinv.keys_resources ee r0 hly
    · rw [alookup_aupd_ne _ _ _ _ hke] at hk
      exact hinv.keys_resources k r hk
  · intro k r hk
    by_cases hke : ee = k
    · subst hke
      rw [alookup_aupd_self] at hk
      rcases hly : alookup Y.resources ee with _ | r0
      · rw [hly] at hk
        cases hk
      · rw [hly] at hk
        injection hk with hk
        rw [← hk]
        exact listInsert_nodup r0.pending u (hinv.pending_nodup ee r0 hly)
    · rw [alookup_aupd_ne _ _ _ _ hke] at hk
      exact hinv.pending_nodup k r hk
  · intro k r hk
    by_cases hke : ee = k
    · subst hke
      rw [alookup_aupd_self] at hk
      rcases hly : alookup Y.resources ee with _ | r0
      · rw [hly] at hk
        cases hk
      · rw [hly] at hk
        injection hk with hk
        rw [← hk]
        exact hinv.processes_nodup ee r0 hly
    · rw [alookup_aupd_ne _ _ _ _ hke] at hk
      exact hinv.processes_nodup k r hk
  · intro k r hk v hv
    by_cases hke : ee = k
    · subst hke
      rw [alookup_aupd_self] at hk
      rcases hly : alookup Y.resources ee with _ | r0
      · rw [hly] at hk
        cases hk
      · rw [hly] at hk
        injection hk with hk
        rw [← hk] at hv ⊢
        rcases mem_listInsert r0.pending u v hv with hv2 | hv2
        · exact hinv.pend_proc_disjoint ee r0 hly v hv2
        · rw [hv2]
          exact (hnp ee r0 hly).2
    · rw [alookup_aupd_ne _ _ _ _ hke] at hk
      exact hinv.pend_proc_disjoint k r hk v hv
  · intro k r hk v hv
    by_cases hke : ee = k
    · subst hke
      rw [alookup_aupd_self] at hk
      rcases hly : alookup Y.resources ee with _ | r0
      · rw [hly] at hk
        cases hk
      · rw [hly] at hk
        injection hk with hk
        rw [← hk] at hv
        rcases mem_listInsert r0.pending u v hv with hv2 | hv2
        · have hvu : v ≠ u := fun he => (hnp ee r0 hly).1 (he ▸ hv2)
          obtain ⟨p', hp', ha⟩ := hinv.pending_assigned ee r0 hly v hv2
          exact ⟨p', (alookup_aset_ne _ _ _ _ (fun h => hvu h.symm)).trans hp', ha⟩
        · rw [hv2]
          exact ⟨q, alookup_aset_self _ _ _, hqass⟩
    · rw [alookup_aupd_ne _ _ _ _ hke] at hk
      have hvu : v ≠ u := fun he => (hnp k r hk).1 (he ▸ hv)
      obtain ⟨p', hp', ha⟩ := hinv.pending_assigned k r hk v hv
      exact ⟨p', (alookup_aset_ne _ _ _ _ (fun h => hvu h.symm)).trans hp', ha⟩
  · intro k r hk v hv
    by_cases hke : ee = k
    · subst hke
      rw [alookup_aupd_self] at hk
      rcases hly : alookup Y.resources ee with _ | r0
      · rw [hly] at hk
        cases hk
      · rw [hly] at hk
        injection hk with hk
        rw [← hk] at hv
        have hvu : v ≠ u := fun he => (hnp ee r0 hly).2 (he ▸ hv)
        obtain ⟨p', hp', ha⟩ := hinv.processes_assigned ee r0 hly v hv
        exact ⟨p', (alookup_aset_ne _ _ _ _ (fun h => hvu h.symm)).trans hp', ha⟩
    · rw [alookup_aupd_ne _ _ _ _ hke] at hk
      have hvu : v ≠ u := fun he => (hnp k r hk).2 (he ▸ hv)
      obtain ⟨p', hp', ha⟩ := hinv.processes_assigned k r hk v hv
      exact ⟨p', (alookup_aset_ne _ _ _ _ (fun h => hvu h.symm)).trans hp', ha⟩
  · intro v hv
    have hv2 := List.mem_filter.mp hv
    have hvu : v ≠ u := by
      have := hv2.2
      simpa using this
    obtain ⟨p', hp', ha⟩ := hinv.queue_assigned v hv2.1
    exact ⟨p', (alookup_aset_ne _ _ _ _ (fun h => hvu h.symm)).trans hp', ha⟩
  · intro k n hk
    obtain ⟨hnd, hres⟩ := hinv.node_resources k n hk
    refine ⟨hnd, ?_⟩
    intro ee' hee'
    obtain ⟨hsome, hid⟩ := hres ee' hee'
    refine ⟨?_, hid⟩
    rw [alookup_aupd_isSome]
    exact hsome

/-- Matchmaking a present unassigned unqueued record preserves the
invariant. -/
theorem matchmake_PDCInv (X : PDC) (u : String) (p : ProcessRecord)
    (hinv : PDCInv X) (hp : alookup X.processes u = some p) (hass : p.assigned = none)
    (hq : u ∉ X.queue) :
    PDCInv (matchmakeProcess X u).1 := by
  rcases matchmakeProcess_cases X u p hp with ⟨_, _, h⟩ | ⟨_, _, h⟩ | ⟨r, hmin, h⟩
  · rw [h]
    exact PDCInv_aset_keep X u p { p with state := ProcessState.REJECTED } hinv hp rfl
  · rw [h]
    have h1 : PDCInv { X with processes := aset X.processes u { p with state := ProcessState.WAITING } } :=
      PDCInv_aset_keep X u p { p with state := ProcessState.WAITING } hinv hp rfl
    exact PDCInv_enqueue { X with processes := aset X.processes u { p with state := ProcessState.WAITING } } u h1 ⟨{ p with state := ProcessState.WAITING }, alookup_aset_self _ _ _, hass⟩
  · rw [h]
    have hres := PDCInv_dispatch_shape X u
      { p with assigned := some r.ee_id, state := ProcessState.PENDING } r.ee_id hinv rfl
      (unassigned_not_placed X u p hinv hp hass)
    have hfq : X.queue.filter (fun v => !(v == u)) = X.queue := by
      apply List.filter_eq_self.mpr
      intro v hv
      have hvu : v ≠ u := fun he => hq (he ▸ hv)
      simp [hvu]
    rw [hfq] at hres
    exact hres

/-- `dispatch_process` preserves the invariant. -/
theorem dispatch_PDCInv (S : PDC) (u : String) (sp : PSpec) (subs : List String)
    (cons : Option (List (String × Option CVal))) (imm : Bool)
    (hinv : PDCInv S) : PDCInv (dispatch_process S u sp subs cons imm).1 := by
  rcases hp : alookup S.processes u with _ | p
  · unfold dispatch_process
    simp only [hp]
    have hXinv : PDCInv (dispatchInserted S u sp subs cons imm) := by
      apply PDCInv_aset_any S u (freshRecord u sp subs cons imm) hinv
      · intro hu
        obtain ⟨p', hp', _⟩ := hinv.queue_assigned u hu
        rw [hp] at hp'
        cases hp'
      · intro k r hk hmem
        rcases hmem with hm | hm
        · obtain ⟨p', hp', _⟩ := hinv.pending_assigned k r hk u hm
          rw [hp] at hp'
          cases hp'
        · obtain ⟨p', hp', _⟩ := hinv.processes_assigned k r hk u hm
          rw [hp] at hp'
          cases hp'
    have hlook : alookup (dispatchInserted S u sp subs cons imm).processes u =
        some (freshRecord u sp subs cons imm) := alookup_aset_self _ _ _
    have hqX : u ∉ (dispatchInserted S u sp subs cons imm).queue := by
      intro hu
      obtain ⟨p', hp', _⟩ := hinv.queue_assigned u hu
      rw [hp] at hp'
      cases hp'
    exact matchmake_PDCInv (dispatchInserted S u sp subs cons imm) u
      (freshRecord u sp subs cons imm) hXinv hlook rfl hqX
  · rw [dispatch_present S u p sp subs cons imm hp]
    exact hinv

/-- `terminate_process` (as a public operation) preserves the
invariant. -/
theorem terminate_PDCInv (S : PDC) (u : String) (hinv : PDCInv S) :
    PDCInv (applyOp S (PDOp.terminate u)) := by
  dsimp only [applyOp]
  rcases ht : terminate_process S u with e | r
  · exact hinv
  · unfold terminate_process at ht
    rcases hp : alookup S.processes u with _ | p
    · rw [hp] at ht
      cases ht
    · rw [hp] at ht
      dsimp only at ht
      by_cases hge : ProcessState.TERMINATED ≤ p.state
      · rw [if_pos hge] at ht
        injection ht with ht
        rw [← ht]
        exact hinv
      · rw [if_neg hge] at ht
        rcases ha : p.assigned with _ | ee
        · simp only [ha] at ht
          injection ht with ht
          rw [← ht]
          exact PDCInv_aset_keep S u p
            { p with state := ProcessState.TERMINATED, assigned := none } hinv hp ha.symm
        · simp only [ha] at ht
          injection ht with ht
          rw [← ht]
          exact PDCInv_aset_keep S u p
            { p with state := ProcessState.TERMINATING, assigned := some ee } hinv hp ha.symm

/-- The fresh core satisfies the invariant. -/
theorem PDCInv_init (reg : List EngineSpec) : PDCInv (PDC.init reg) := by
  refine ⟨List.nodup_nil, List.nodup_nil, ?_, ?_, ?_, ?_, ?_, ?_, ?_, ?_⟩
  · intro k r h
    cases h
  · intro k r h
    cases h
  · intro k r h
    cases h
  · intro k r h
    cases h
  · intro k r h
    cases h
  · intro k r h
    cases h
  · intro v hv
    cases hv
  · intro k n h
    cases h

/-! ### dt_state teardown preserves the invariant -/

/-- A matchmaking candidate is an enabled resource present in the
table. -/
theorem candidate_lookup (X : PDC) (p : ProcessRecord) (r : ExecutionEngineResource)
    (hkeys : ∀ kv ∈ X.resources, kv.2.ee_id = kv.1)
    (hnodup : (X.resources.map Prod.fst).Nodup)
    (hrc : r ∈ candidates X p) :
    alookup X.resources r.ee_id = some r ∧ r.enabled = true := by
  have hren : r.enabled = true := by
    have havail : 0 < r.available_slots := by
      have h2 := (List.mem_filter.mp hrc).2
      unfold resourceMatches at h2
      have h3 := (Bool.and_eq_true _ _).mp h2
      exact of_decide_eq_true h3.1
    by_contra hen
    have : r.available_slots = 0 := by
      unfold ExecutionEngineResource.available_slots
      rw [if_neg hen]
    omega
  have hrmem : r ∈ X.resources.map Prod.snd := (List.mem_filter.mp hrc).1
  obtain ⟨kv, hkv, hkv2⟩ := List.mem_map.mp hrmem
  have hkey : kv.1 = r.ee_id := by
    rw [← hkv2]
    exact (hkeys kv hkv).symm
  refine ⟨?_, hren⟩
  have hmem2 : (r.ee_id, r) ∈ X.resources := by
    have he : kv = (r.ee_id, r) := by
      obtain ⟨a, b⟩ := kv
      simp only at hkey hkv2
      rw [hkey, hkv2]
    exact he ▸ hkv
  exact alookup_of_mem_nodup _ _ _ hmem2 hnodup

theorem processedOf_nodup (S1 : PDC) (k : String)
    (h : ∀ k' r, alookup S1.resources k' = some r → r.processes.Nodup) :
    (processedOf S1 k).Nodup := by
  unfold processedOf
  rcases hl : alookup S1.resources k with _ | r
  · simp
  · simpa using h k r hl

/-- Two distinct resources acknowledge disjoint upid sets (each
acknowledged upid is assigned to its resource). -/
theorem processedOf_disjoint (S1 : PDC)
    (hpa1 : ∀ k r, alookup S1.resources k = some r → ∀ v ∈ r.processes,
        ∃ p, alookup S1.processes v = some p ∧ p.assigned = some k) :
    ∀ k1 k2, k1 ≠ k2 → ∀ v ∈ processedOf S1 k1, v ∉ processedOf S1 k2 := by
  intro k1 k2 hne v hv1 hv2
  unfold processedOf at hv1 hv2
  rcases h1 : alookup S1.resources k1 with _ | r1
  · rw [h1] at hv1
    simp at hv1
  · rw [h1] at hv1
    rcases h2 : alookup S1.resources k2 with _ | r2
    · rw [h2] at hv2
      simp at hv2
    · rw [h2] at hv2
      obtain ⟨p1, hp1, ha1⟩ := hpa1 k1 r1 h1 v (by simpa using hv1)
      obtain ⟨p2, hp2, ha2⟩ := hpa1 k2 r2 h2 v (by simpa using hv2)
      rw [hp1] at hp2
      injection hp2 with e
      rw [← e, ha1] at ha2
      injection ha2 with ha2
      exact hne ha2

/-- Rewriting one record preserves the loop extras as long as the new
`assigned` agrees with every place the upid occupies. -/
theorem DTExtra_aset (D : List String) (S1 T : PDC) (u : String) (q : ProcessRecord)
    (hE : DTExtra D S1 T)
    (hqueue : u ∈ T.queue → q.assigned = none)
    (hpend : ∀ k r, alookup T.resources k = some r → u ∈ r.pending → q.assigned = some k)
    (hproc : ∀ k r, alookup T.resources k = some r → k ∉ D → u ∈ r.processes →
        q.assigned = some k) :
    DTExtra D S1 { T with processes := aset T.processes u q } := by
  refine ⟨hE.nodes_eq, hE.pending_nodup, ?_, ?_, ?_, hE.pend_proc_disjoint⟩
  · intro k r hk v hv
    by_cases hvu : v = u
    · subst hvu
      exact ⟨q, alookup_aset_self _ _ _, hpend k r hk hv⟩
    · obtain ⟨p', hp', ha⟩ := hE.pend_assigned k r hk v hv
      exact ⟨p', (alookup_aset_ne _ _ _ _ (fun h => hvu h.symm)).trans hp', ha⟩
  · intro k r hk hkD v hv
    by_cases hvu : v = u
    · subst hvu
      exact ⟨q, alookup_aset_self _ _ _, hproc k r hk hkD hv⟩
    · obtain ⟨p', hp', ha⟩ := hE.proc_assigned_live k r hk hkD v hv
      exact ⟨p', (alookup_aset_ne _ _ _ _ (fun h => hvu h.symm)).trans hp', ha⟩
  · intro v hv
    by_cases hvu : v = u
    · subst hvu
      exact ⟨q, alookup_aset_self _ _ _, hqueue hv⟩
    · obtain ⟨p', hp', ha⟩ := hE.queue_assigned v hv
      exact ⟨p', (alookup_aset_ne _ _ _ _ (fun h => hvu h.symm)).trans hp', ha⟩

theorem DTExtra_enqueue (D : List String) (S1 T : PDC) (u : String)
    (hE : DTExtra D S1 T)
    (h : ∃ p, alookup T.processes u = some p ∧ p.assigned = none) :
    DTExtra D S1 { T with queue := T.queue ++ [u] } := by
  refine ⟨hE.nodes_eq, hE.pending_nodup, hE.pend_assigned, hE.proc_assigned_live, ?_,
    hE.pend_proc_disjoint⟩
  intro v hv
  rcases List.mem_append.mp hv with h2 | h2
  · exact hE.queue_assigned v h2
  · have hvu : v = u := by simpa using h2
    rw [hvu]
    exact h

/-- The dispatched-match shape preserves the loop extras when the
target resource is live and the upid occupies nothing. -/
theorem DTExtra_dispatch (D : List String) (S1 T : PDC) (u : String) (q : ProcessRecord)
    (ee : String) (hE : DTExtra D S1 T)
    (hqass : q.assigned = some ee) (heeD : ee ∉ D)
    (hnp : ∀ k r, alookup T.resources k = some r → u ∉ r.pending)
    (hnproc : ∀ k r, alookup T.resources k = some r → k ∉ D → u ∉ r.processes)
    (hnq : u ∉ T.queue) :
    DTExtra D S1 { T with processes := aset T.processes u q, resources := aupd T.resources ee (fun res => { res with pending := listInsert res.pending u }) } := by
  refine ⟨hE.nodes_eq, ?_, ?_, ?_, ?_, ?_⟩
  · intro k r hk
    by_cases hke : ee = k
    · subst hke
      rw [alookup_aupd_self] at hk
      rcases hly : alookup T.resources ee with _ | r0
      · rw [hly] at hk
        cases hk
      · rw [hly] at hk
        injection hk with hk
        rw [← hk]
        exact listInsert_nodup r0.pending u (hE.pending_nodup ee r0 hly)
    · rw [alookup_aupd_ne _ _ _ _ hke] at hk
      exact hE.pending_nodup k r hk
  · intro k r hk v hv
    by_cases hke : ee = k
    · subst hke
      rw [alookup_aupd_self] at hk
      rcases hly : alookup T.resources ee with _ | r0
      · rw [hly] at hk
        cases hk
      · rw [hly] at hk
        injection hk with hk
        rw [← hk] at hv
        rcases mem_listInsert r0.pending u v hv with hv2 | hv2
        · have hvu : v ≠ u := fun he => hnp ee r0 hly (he ▸ hv2)
          obtain ⟨p', hp', ha⟩ := hE.pend_assigned ee r0 hly v hv2
          exact ⟨p', (alookup_aset_ne _ _ _ _ (fun h => hvu h.symm)).trans hp', ha⟩
        · rw [hv2]
          exact ⟨q, alookup_aset_self _ _ _, hqass⟩
    · rw [alookup_aupd_ne _ _ _ _ hke] at hk
      have hvu : v ≠ u := fun he => hnp k r hk (he ▸ hv)
      obtain ⟨p', hp', ha⟩ := hE.pend_assigned k r hk v hv
      exact ⟨p', (alookup_aset_ne _ _ _ _ (fun h => hvu h.symm)).trans hp', ha⟩
  · intro k r hk hkD v hv
    by_cases hke : ee = k
    · subst hke
      rw [alookup_aupd_self] at hk
      rcases hly : alookup T.resources ee with _ | r0
      · rw [hly] at hk
        cases hk
      · rw [hly] at hk
        injection hk with hk
        rw [← hk] at hv
        have hvu : v ≠ u := fun he => hnproc ee r0 hly hkD (he ▸ hv)
        obtain ⟨p', hp', ha⟩ := hE.proc_assigned_live ee r0 hly hkD v hv
        exact ⟨p', (alookup_aset_ne _ _ _ _ (fun h => hvu h.symm)).trans hp', ha⟩
    · rw [alookup_aupd_ne _ _ _ _ hke] at hk
      have hvu : v ≠ u := fun he => hnproc k r hk hkD (he ▸ hv)
      obtain ⟨p', hp', ha⟩ := hE.proc_assigned_live k r hk hkD v hv
      exact ⟨p', (alookup_aset_ne _ _ _ _ (fun h => hvu h.symm)).trans hp', ha⟩
  · intro v hv
    have hvu : v ≠ u := fun he => hnq (he ▸ hv)
    obtain ⟨p', hp', ha⟩ := hE.queue_assigned v hv
    exact ⟨p', (alookup_aset_ne _ _ _ _ (fun h => hvu h.symm)).trans hp', ha⟩
  · intro k r hk v hv
    by_cases hke : ee = k
    · subst hke
      rw [alookup_aupd_self] at hk
      rcases hly : alookup T.resources ee with _ | r0
      · rw [hly] at hk
        cases hk
      · rw [hly] at hk
        injection hk with hk
        rw [← hk] at hv ⊢
        rcases mem_listInsert r0.pending u v hv with hv2 | hv2
        · exact hE.pend_proc_disjoint ee r0 hly v hv2
        · rw [hv2]
          exact hnproc ee r0 hly heeD
    · rw [alookup_aupd_ne _ _ _ _ hke] at hk
      exact hE.pend_proc_disjoint k r hk v hv

/-- One `rescheduleUpid` step on a fresh upid acknowledged by a dying
resource preserves the loop extras. -/
theorem rescheduleUpid_extra (D : List String) (S1 : PDC)
    (hnd1 : (S1.resources.map Prod.fst).Nodup)
    (hDdis : ∀ k ∈ D, ∀ r, alookup S1.resources k = some r → r.enabled = false)
    (hpa1 : ∀ k r, alookup S1.resources k = some r → ∀ v ∈ r.processes,
        ∃ p, alookup S1.processes v = some p ∧ p.assigned = some k)
    (k0 : String) (hk0 : k0 ∈ D)
    (T : PDC) (effs : List Effect) (procd : List String) (u : String)
    (hu : u ∈ processedOf S1 k0) (hfresh : u ∉ procd)
    (hR : RInv S1 T procd) (hE : DTExtra D S1 T) :
    DTExtra D S1 (rescheduleUpid k0 (T, effs) u).1 := by
  rcases hS1k0 : alookup S1.resources k0 with _ | r1
  · exfalso
    unfold processedOf at hu
    rw [hS1k0] at hu
    simp at hu
  · have hu' : u ∈ r1.processes := by
      unfold processedOf at hu
      rw [hS1k0] at hu
      simpa using hu
    obtain ⟨p1, hp1, hass1⟩ := hpa1 k0 r1 hS1k0 u hu'
    have hTu : alookup T.processes u = some p1 := (hR.untouched u hfresh).trans hp1
    have hnotq : u ∉ T.queue := by
      intro h
      obtain ⟨p', hp', ha⟩ := hE.queue_assigned u h
      rw [hTu] at hp'
      injection hp' with e
      rw [← e, hass1] at ha
      cases ha
    have hnotpend : ∀ k r, alookup T.resources k = some r → u ∉ r.pending := by
      intro k r hk hm
      obtain ⟨p', hp', ha⟩ := hE.pend_assigned k r hk u hm
      rw [hTu] at hp'
      injection hp' with e
      rw [← e, hass1] at ha
      injection ha with ha
      subst ha
      have hfl := hR.flags k0
      rw [hk, hS1k0] at hfl
      have h3 : resFlag r = resFlag r1 := by simpa using hfl
      have hpe : r.processes = r1.processes := congrArg (fun x => x.2.2) h3
      have hup : u ∈ r.processes := by
        rw [hpe]
        exact hu'
      exact hE.pend_proc_disjoint k0 r hk u hm hup
    have hnotprocLive : ∀ k r, alookup T.resources k = some r → k ∉ D → u ∉ r.processes := by
      intro k r hk hkD hm
      obtain ⟨p', hp', ha⟩ := hE.proc_assigned_live k r hk hkD u hm
      rw [hTu] at hp'
      injection hp' with e
      rw [← e, hass1] at ha
      injection ha with ha
      exact hkD (ha ▸ hk0)
    unfold rescheduleUpid
    dsimp only
    simp only [hTu]
    by_cases hterm : p1.state = ProcessState.TERMINATING
    · simp only [if_pos hterm]
      apply DTExtra_aset D S1 T u { p1 with state := ProcessState.TERMINATED } hE
      · intro h
        exact absurd h hnotq
      · intro k r hk hm
        exact absurd hm (hnotpend k r hk)
      · intro k r hk hkD hm
        exact absurd hm (hnotprocLive k r hk hkD)
    · simp only [if_neg hterm]
      by_cases hlt : p1.state < ProcessState.TERMINATING
      · simp only [if_pos hlt]
        show DTExtra D S1 (matchmakeProcess (diedState T u p1) u).1
        have hE2 : DTExtra D S1 (diedState T u p1) := by
          apply DTExtra_aset D S1 T u (diedRecord p1) hE
          · intro h
            exact absurd h hnotq
          · intro k r hk hm
            exact absurd hm (hnotpend k r hk)
          · intro k r hk hkD hm
            exact absurd hm (hnotprocLive k r hk hkD)
        have hlook2 : alookup (diedState T u p1).processes u = some (diedRecord p1) :=
          alookup_aset_self _ _ _
        have hnotq2 : u ∉ (diedState T u p1).queue := hnotq
        have hnotpend2 : ∀ k r, alookup (diedState T u p1).resources k = some r →
            u ∉ r.pending := hnotpend
        have hnotproc2 : ∀ k r, alookup (diedState T u p1).resources k = some r → k ∉ D →
            u ∉ r.processes := hnotprocLive
        rcases matchmakeProcess_cases (diedState T u p1) u (diedRecord p1) hlook2 with
          ⟨_, _, h⟩ | ⟨_, _, h⟩ | ⟨r, hmin, h⟩
        · rw [h]
          apply DTExtra_aset D S1 (diedState T u p1) u
            { diedRecord p1 with state := ProcessState.REJECTED } hE2
          · intro h2
            exact absurd h2 hnotq2
          · intro k r hk hm
            exact absurd hm (hnotpend2 k r hk)
          · intro k r hk hkD hm
            exact absurd hm (hnotproc2 k r hk hkD)
        · rw [h]
          have h3 : DTExtra D S1 { diedState T u p1 with
              processes := aset (diedState T u p1).processes u
                { diedRecord p1 with state := ProcessState.WAITING } } := by
            apply DTExtra_aset D S1 (diedState T u p1) u
              { diedRecord p1 with state := ProcessState.WAITING } hE2
            · intro h2
              exact absurd h2 hnotq2
            · intro k r hk hm
              exact absurd hm (hnotpend2 k r hk)
            · intro k r hk hkD hm
              exact absurd hm (hnotproc2 k r hk hkD)
          exact DTExtra_enqueue D S1 _ u h3
            ⟨{ diedRecord p1 with state := ProcessState.WAITING },
              alookup_aset_self _ _ _, rfl⟩
        · rw [h]
          have hkeysT : ∀ kv ∈ (diedState T u p1).resources, kv.2.ee_id = kv.1 := hR.keys_ee
          have hndT : ((diedState T u p1).resources.map Prod.fst).Nodup := hR.keys_eq ▸ hnd1
          have hcand := candidate_lookup (diedState T u p1) (diedRecord p1) r hkeysT hndT
            (minBySlots_mem _ _ hmin)
          have hclT : alookup T.resources r.ee_id = some r := hcand.1
          have heeD : r.ee_id ∉ D := by
            intro hin
            have hfl := hR.flags r.ee_id
            rw [hclT] at hfl
            rcases hS1e : alookup S1.resources r.ee_id with _ | re
            · rw [hS1e] at hfl
              cases hfl
            · rw [hS1e] at hfl
              have h3 : resFlag r = resFlag re := by simpa using hfl
              have hen : r.enabled = re.enabled := congrArg (fun x => x.2.1) h3
              have hdis := hDdis r.ee_id hin re hS1e
              rw [hcand.2, hdis] at hen
              exact absurd hen (by decide)
          exact DTExtra_dispatch D S1 (diedState T u p1) u
            { diedRecord p1 with assigned := some r.ee_id, state := ProcessState.PENDING }
            r.ee_id hE2 rfl heeD hnotpend2 hnotproc2 hnotq2
      · simp only [if_neg hlt]
        exact hE

/-- The loop invariant and extras are preserved by a reschedule loop
over fresh acknowledged upids of one dying resource. -/
theorem rescheduleUpids_both (D : List String) (S1 : PDC)
    (hnd1 : (S1.resources.map Prod.fst).Nodup)
    (hDdis : ∀ k ∈ D, ∀ r, alookup S1.resources k = some r → r.enabled = false)
    (hpa1 : ∀ k r, alookup S1.resources k = some r → ∀ v ∈ r.processes,
        ∃ p, alookup S1.processes v = some p ∧ p.assigned = some k)
    (k0 : String) (hk0 : k0 ∈ D) :
    ∀ (ups : List String) (Se : PDC × List Effect) (procd : List String),
      (∀ v ∈ ups, v ∉ procd) → (∀ v ∈ ups, v ∈ processedOf S1 k0) → ups.Nodup →
      RInv S1 Se.1 procd → DTExtra D S1 Se.1 →
      RInv S1 (ups.foldl (rescheduleUpid k0) Se).1 (procd ++ ups) ∧
        DTExtra D S1 (ups.foldl (rescheduleUpid k0) Se).1 := by
  intro ups
  induction ups with
  | nil =>
    intro Se procd _ _ _ hR hE
    exact ⟨by simpa using hR, hE⟩
  | cons v t ih =>
    intro Se procd hfr hmem hnd hR hE
    have hv_fresh : v ∉ procd := hfr v (List.mem_cons_self v t)
    have hv_mem : v ∈ processedOf S1 k0 := hmem v (List.mem_cons_self v t)
    have hR1 := rescheduleUpid_inv S1 hnd1 k0 Se.1 Se.2 procd v hR
    rw [show ((Se.1, Se.2) : PDC × List Effect) = Se from rfl] at hR1
    have hE1 := rescheduleUpid_extra D S1 hnd1 hDdis hpa1 k0 hk0 Se.1 Se.2 procd v
      hv_mem hv_fresh hR hE
    rw [show ((Se.1, Se.2) : PDC × List Effect) = Se from rfl] at hE1
    have hvnotint := (List.nodup_cons.mp hnd).1
    have h2 := ih (rescheduleUpid k0 Se v) (procd ++ [v])
      (fun w hw => by
        intro hwin
        rcases List.mem_append.mp hwin with h3 | h3
        · exact hfr w (List.mem_cons_of_mem v hw) h3
        · have hwv : w = v := by simpa using h3
          exact hvnotint (hwv ▸ hw))
      (fun w hw => hmem w (List.mem_cons_of_mem v hw)) (List.nodup_cons.mp hnd).2 hR1 hE1
    constructor
    · have h3 := h2.1
      simpa using h3
    · have h3 := h2.2
      simpa using h3

/-- The loop invariant and extras are preserved by rescheduling one
dying resource whose acknowledged upids are fresh. -/
theorem rescheduleResource_both (D : List String) (S1 : PDC)
    (hnd1 : (S1.resources.map Prod.fst).Nodup)
    (hDdis : ∀ k ∈ D, ∀ r, alookup S1.resources k = some r → r.enabled = false)
    (hpa1 : ∀ k r, alookup S1.resources k = some r → ∀ v ∈ r.processes,
        ∃ p, alookup S1.processes v = some p ∧ p.assigned = some k)
    (hpnd1 : ∀ k r, alookup S1.resources k = some r → r.processes.Nodup)
    (Se : PDC × List Effect) (k0 : String) (hk0 : k0 ∈ D) (procd : List String)
    (hfr : ∀ v ∈ processedOf S1 k0, v ∉ procd)
    (hR : RInv S1 Se.1 procd) (hE : DTExtra D S1 Se.1) :
    RInv S1 (rescheduleResource Se k0).1 (procd ++ processedOf S1 k0) ∧
      DTExtra D S1 (rescheduleResource Se k0).1 := by
  unfold rescheduleResource
  rcases hr : alookup Se.1.resources k0 with _ | r
  · have hS1 : alookup S1.resources k0 = none := by
      have hfl := hR.flags k0
      rw [hr] at hfl
      cases hS1 : alookup S1.resources k0 with
      | none => rfl
      | some r1 => rw [hS1] at hfl; cases hfl
    have hpe : processedOf S1 k0 = [] := by
      unfold processedOf
      rw [hS1]
      rfl
    rw [hpe, List.append_nil]
    exact ⟨hR, hE⟩
  · have hproc : r.processes = processedOf S1 k0 := by
      have hfl := hR.flags k0
      rw [hr] at hfl
      cases hS1 : alookup S1.resources k0 with
      | none => rw [hS1] at hfl; cases hfl
      | some r1 =>
        rw [hS1] at hfl
        have h3 : resFlag r = resFlag r1 := by simpa using hfl
        have h4 : r.processes = r1.processes := congrArg (fun x => x.2.2) h3
        unfold processedOf
        rw [hS1, h4]
        rfl
    have hnd0 : (processedOf S1 k0).Nodup := processedOf_nodup S1 k0 hpnd1
    have h2 := rescheduleUpids_both D S1 hnd1 hDdis hpa1 k0 hk0 r.processes Se procd
      (fun v hv => hfr v (hproc ▸ hv)) (fun v hv => hproc ▸ hv) (hproc.symm ▸ hnd0) hR hE
    constructor
    · show RInv S1 (r.processes.foldl (rescheduleUpid k0) Se).1 (procd ++ processedOf S1 k0)
      rw [← hproc]
      exact h2.1
    · show DTExtra D S1 (r.processes.foldl (rescheduleUpid k0) Se).1
      exact h2.2

/-- The loop invariant and extras are preserved by the whole reschedule
phase over pairwise-fresh dying resources. -/
theorem rescheduleFold_both (D : List String) (S1 : PDC)
    (hnd1 : (S1.resources.map Prod.fst).Nodup)
    (hDdis : ∀ k ∈ D, ∀ r, alookup S1.resources k = some r → r.enabled = false)
    (hpa1 : ∀ k r, alookup S1.resources k = some r → ∀ v ∈ r.processes,
        ∃ p, alookup S1.processes v = some p ∧ p.assigned = some k)
    (hpnd1 : ∀ k r, alookup S1.resources k = some r → r.processes.Nodup) :
    ∀ (Ds : List String) (Se : PDC × List Effect) (procd : List String),
      (∀ k ∈ Ds, k ∈ D) → Ds.Nodup →
      (∀ k ∈ Ds, ∀ v ∈ processedOf S1 k, v ∉ procd) →
      (∀ k1 ∈ Ds, ∀ k2 ∈ Ds, k1 ≠ k2 → ∀ v ∈ processedOf S1 k1, v ∉ processedOf S1 k2) →
      RInv S1 Se.1 procd → DTExtra D S1 Se.1 →
      RInv S1 (Ds.foldl rescheduleResource Se).1
        (procd ++ (Ds.map (processedOf S1)).flatten) ∧
        DTExtra D S1 (Ds.foldl rescheduleResource Se).1 := by
  intro Ds
  induction Ds with
  | nil =>
    intro Se procd _ _ _ _ hR hE
    exact ⟨by simpa using hR, hE⟩
  | cons e t ih =>
    intro Se procd hsub hnd hfr hpw hR hE
    have h1 := rescheduleResource_both D S1 hnd1 hDdis hpa1 hpnd1 Se e
      (hsub e (List.mem_cons_self e t)) procd (hfr e (List.mem_cons_self e t)) hR hE
    have hentop := (List.nodup_cons.mp hnd).1
    have h2 := ih (rescheduleResource Se e) (procd ++ processedOf S1 e)
      (fun k hk => hsub k (List.mem_cons_of_mem e hk))
      (List.nodup_cons.mp hnd).2
      (fun k hk v hv => by
        intro hvin
        rcases List.mem_append.mp hvin with h3 | h3
        · exact hfr k (List.mem_cons_of_mem e hk) v hv h3
        · have hke : k ≠ e := fun he => hentop (he ▸ hk)
          exact hpw k (List.mem_cons_of_mem e hk) e (List.mem_cons_self e t) hke v hv h3)
      (fun k1 hk1 k2 hk2 => hpw k1 (List.mem_cons_of_mem e hk1) k2 (List.mem_cons_of_mem e hk2))
      h1.1 h1.2
    constructor
    · have h3 := h2.1
      simpa [List.append_assoc] using h3
    · have h3 := h2.2
      simpa using h3

/-- The state a terminating `dt_state` leaves for a known node satisfies
the invariant, given the disable-phase characterization. -/
theorem teardown_PDCInv (S : PDC) (nid : String) (node : DeployedNode) (S1 : PDC)
    (hinv : PDCInv S)
    (hn : alookup S.nodes nid = some node)
    (hS1proc : S1.processes = S.processes)
    (hS1nodes : S1.nodes = S.nodes)
    (hS1queue : S1.queue = S.queue)
    (hS1res : ∀ k, alookup S1.resources k = if k ∈ node.resources then (alookup S.resources k).map (fun r => { r with enabled := false }) else alookup S.resources k)
    (hS1keys : S1.resources.map Prod.fst = S.resources.map Prod.fst) :
    PDCInv ((fun Sn => { Sn with nodes := adel Sn.nodes nid, resources := node.resources.foldl adel Sn.resources }) (node.resources.foldl rescheduleResource (S1, [])).1) := by
  have hnd1 : (S1.resources.map Prod.fst).Nodup := by
    rw [hS1keys]
    exact hinv.nodup_resources
  have hDdis : ∀ k ∈ node.resources, ∀ r, alookup S1.resources k = some r →
      r.enabled = false := by
    intro k hk r hr
    rw [hS1res k, if_pos hk] at hr
    rcases hS : alookup S.resources k with _ | r0
    · rw [hS] at hr
      cases hr
    · rw [hS] at hr
      injection hr with hr
      rw [← hr]
  have hpa1 : ∀ k r, alookup S1.resources k = some r → ∀ v ∈ r.processes,
      ∃ p, alookup S1.processes v = some p ∧ p.assigned = some k := by
    intro k r hr v hv
    rw [hS1proc]
    rw [hS1res k] at hr
    by_cases hk : k ∈ node.resources
    · rw [if_pos hk] at hr
      rcases hS : alookup S.resources k with _ | r0
      · rw [hS] at hr
        cases hr
      · rw [hS] at hr
        injection hr with hr
        have hv0 : v ∈ r0.processes := by
          rw [← hr] at hv
          exact hv
        exact hinv.processes_assigned k r0 hS v hv0
    · rw [if_neg hk] at hr
      exact hinv.processes_assigned k r hr v hv
  have hpnd1 : ∀ k r, alookup S1.resources k = some r → r.processes.Nodup := by
    intro k r hr
    rw [hS1res k] at hr
    by_cases hk : k ∈ node.resources
    · rw [if_pos hk] at hr
      rcases hS : alookup S.resources k with _ | r0
      · rw [hS] at hr
        cases hr
      · rw [hS] at hr
        injection hr with hr
        rw [← hr]
        exact hinv.processes_nodup k r0 hS
    · rw [if_neg hk] at hr
      exact hinv.processes_nodup k r hr
  have hkeys1 : ∀ kv ∈ S1.resources, kv.2.ee_id = kv.1 := by
    intro kv hkv
    have hlk : alookup S1.resources kv.1 = some kv.2 := alookup_of_mem_nodup _ _ _ hkv hnd1
    rw [hS1res kv.1] at hlk
    by_cases hk : kv.1 ∈ node.resources
    · rw [if_pos hk] at hlk
      rcases hS : alookup S.resources kv.1 with _ | r0
      · rw [hS] at hlk
        cases hlk
      · rw [hS] at hlk
        injection hlk with hlk
        have h5 := hinv.keys_resources kv.1 r0 hS
        rw [← hlk]
        exact h5
    · rw [if_neg hk] at hlk
      exact hinv.keys_resources kv.1 kv.2 hlk
  have hR0 : RInv S1 S1 [] :=
    ⟨hkeys1, rfl, fun k => rfl,
      by intro u hu; exact absurd hu (List.not_mem_nil u), fun u _ => rfl⟩
  have hE0 : DTExtra node.resources S1 S1 := by
    refine ⟨rfl, ?_, ?_, ?_, ?_, ?_⟩
    · intro k r hr
      rw [hS1res k] at hr
      by_cases hk : k ∈ node.resources
      · rw [if_pos hk] at hr
        rcases hS : alookup S.resources k with _ | r0
        · rw [hS] at hr
          cases hr
        · rw [hS] at hr
          injection hr with hr
          rw [← hr]
          exact hinv.pending_nodup k r0 hS
      · rw [if_neg hk] at hr
        exact hinv.pending_nodup k r hr
    · intro k r hr v hv
      rw [hS1proc]
      rw [hS1res k] at hr
      by_cases hk : k ∈ node.resources
      · rw [if_pos hk] at hr
        rcases hS : alookup S.resources k with _ | r0
        · rw [hS] at hr
          cases hr
        · rw [hS] at hr
          injection hr with hr
          have hv0 : v ∈ r0.pending := by
            rw [← hr] at hv
            exact hv
          exact hinv.pending_assigned k r0 hS v hv0
      · rw [if_neg hk] at hr
        exact hinv.pending_assigned k r hr v hv
    · intro k r hr _ v hv
      exact hpa1 k r hr v hv
    · intro v hv
      rw [hS1queue] at hv
      rw [hS1proc]
      exact hinv.queue_assigned v hv
    · intro k r hr v hv
      rw [hS1res k] at hr
      by_cases hk : k ∈ node.resources
      · rw [if_pos hk] at hr
        rcases hS : alookup S.resources k with _ | r0
        · rw [hS] at hr
          cases hr
        · rw [hS] at hr
          injection hr with hr
          rw [← hr] at hv ⊢
          exact hinv.pend_proc_disjoint k r0 hS v hv
      · rw [if_neg hk] at hr
        exact hinv.pend_proc_disjoint k r hr v hv
  have hdisj := processedOf_disjoint S1 hpa1
  have hDnodup : node.resources.Nodup := (hinv.node_resources nid node hn).1
  have hres_meta := (hinv.node_resources nid node hn).2
  have hboth := rescheduleFold_both node.resources S1 hnd1 hDdis hpa1 hpnd1
    node.resources (S1, []) [] (fun k hk => hk) hDnodup
    (fun k _ v _ h => absurd h (List.not_mem_nil v))
    (fun k1 _ k2 _ hne => hdisj k1 k2 hne) hR0 hE0
  obtain ⟨hRT, hET⟩ := hboth
  dsimp only
  have hTnodes : (node.resources.foldl rescheduleResource (S1, [])).1.nodes = S.nodes :=
    hET.nodes_eq.trans hS1nodes
  have hTkeys : (node.resources.foldl rescheduleResource (S1, [])).1.resources.map Prod.fst =
      S.resources.map Prod.fst := hRT.keys_eq.trans hS1keys
  have hTnd : ((node.resources.foldl rescheduleResource (S1, [])).1.resources.map
      Prod.fst).Nodup := by
    rw [hTkeys]
    exact hinv.nodup_resources
  refine ⟨?_, ?_, ?_, ?_, ?_, ?_, ?_, ?_, ?_, ?_⟩
  · exact (alookup_foldl_adel_keys_sub node.resources _).nodup hTnd
  · rw [hTnodes]
    exact ((adel_sublist S.nodes nid).map Prod.fst).nodup hinv.nodup_nodes
  · intro k r hk
    by_cases hkD : k ∈ node.resources
    · rw [alookup_foldl_adel_mem node.resources _ k hTnd hkD] at hk
      cases hk
    · rw [alookup_foldl_adel_notin node.resources _ k hkD] at hk
      exact hRT.keys_ee (k, r) (mem_of_alookup _ _ _ hk)
  · intro k r hk
    by_cases hkD : k ∈ node.resources
    · rw [alookup_foldl_adel_mem node.resources _ k hTnd hkD] at hk
      cases hk
    · rw [alookup_foldl_adel_notin node.resources _ k hkD] at hk
      exact hET.pending_nodup k r hk
  · intro k r hk
    by_cases hkD : k ∈ node.resources
    · rw [alookup_foldl_adel_mem node.resources _ k hTnd hkD] at hk
      cases hk
    · rw [alookup_foldl_adel_notin node.resources _ k hkD] at hk
      have hfl := hRT.flags k
      rw [hk] at hfl
      rcases hS1l : alookup S1.resources k with _ | r1
      · rw [hS1l] at hfl
        cases hfl
      · rw [hS1l] at hfl
        have h3 : resFlag r = resFlag r1 := by simpa using hfl
        have h4 : r.processes = r1.processes := congrArg (fun x => x.2.2) h3
        rw [h4]
        exact hpnd1 k r1 hS1l
  · intro k r hk
    by_cases hkD : k ∈ node.resources
    · rw [alookup_foldl_adel_mem node.resources _ k hTnd hkD] at hk
      cases hk
    · rw [alookup_foldl_adel_notin node.resources _ k hkD] at hk
      exact hET.pend_proc_disjoint k r hk
  · intro k r hk
    by_cases hkD : k ∈ node.resources
    · rw [alookup_foldl_adel_mem node.resources _ k hTnd hkD] at hk
      cases hk
    · rw [alookup_foldl_adel_notin node.resources _ k hkD] at hk
      exact hET.pend_assigned k r hk
  · intro k r hk
    by_cases hkD : k ∈ node.resources
    · rw [alookup_foldl_adel_mem node.resources _ k hTnd hkD] at hk
      cases hk
    · rw [alookup_foldl_adel_notin node.resources _ k hkD] at hk
      exact hET.proc_assigned_live k r hk hkD
  · exact hET.queue_assigned
  · intro k n' hk
    have hk2 : alookup (adel S.nodes nid) k = some n' := by
      rw [← hTnodes]
      exact hk
    by_cases hknid : nid = k
    · subst hknid
      rw [alookup_adel_self_nodup S.nodes nid hinv.nodup_nodes] at hk2
      cases hk2
    · rw [alookup_adel_ne S.nodes nid k hknid] at hk2
      obtain ⟨hnd', hmeta⟩ := hinv.node_resources k n' hk2
      refine ⟨hnd', ?_⟩
      intro ee hee
      obtain ⟨hsome, hid⟩ := hmeta ee hee
      refine ⟨?_, hid⟩
      have heeD : ee ∉ node.resources := by
        intro hin
        have h5 := (hres_meta ee hin).2
        rw [hid] at h5
        exact hknid h5.symm
      rw [alookup_foldl_adel_notin node.resources _ ee heeD]
      have hfl := hRT.flags ee
      have hS1e : alookup S1.resources ee = alookup S.resources ee := by
        rw [hS1res ee, if_neg heeD]
      rw [hS1e] at hfl
      rcases hSl : alookup S.resources ee with _ | re
      · rw [hSl] at hsome
        simp at hsome
      · rw [hSl] at hfl
        rcases hTl : alookup (node.resources.foldl rescheduleResource (S1, [])).1.resources ee
          with _ | rt
        · rw [hTl] at hfl
          cases hfl
        · rfl

/-- `dt_state` preserves the invariant. -/
theorem dtState_PDCInv (S : PDC) (nid dt : String) (st : InstanceState)
    (props : Option (List (String × String))) (hinv : PDCInv S) :
    PDCInv (dt_state S nid dt st props).1 := by
  by_cases hrun : st = InstanceState.RUNNING
  · unfold dt_state
    rw [if_pos hrun]
    rcases hn : alookup S.nodes nid with _ | n
    · simp only [hn]
      refine ⟨hinv.nodup_resources, ?_, hinv.keys_resources, hinv.pending_nodup,
        hinv.processes_nodup, hinv.pend_proc_disjoint, hinv.pending_assigned,
        hinv.processes_assigned, hinv.queue_assigned, ?_⟩
      · show ((aset S.nodes nid _).map Prod.fst).Nodup
        rw [aset_absent S.nodes nid _ hn, List.map_append]
        rw [List.nodup_append]
        refine ⟨hinv.nodup_nodes, by simp, ?_⟩
        intro a ha hb
        have hani : a = nid := by simpa using hb
        rw [hani] at ha
        exact ((alookup_eq_none_iff S.nodes nid).mp hn) ha
      · intro k n' hk
        by_cases hkn : nid = k
        · subst hkn
          rw [alookup_aset_self] at hk
          injection hk with hk
          rw [← hk]
          refine ⟨List.nodup_nil, ?_⟩
          intro ee hee
          cases hee
        · rw [alookup_aset_ne _ _ _ _ hkn] at hk
          exact hinv.node_resources k n' hk
    · simp only [hn]
      exact hinv
  · by_cases hterm : st = InstanceState.TERMINATING ∨ st = InstanceState.TERMINATED
    · rcases hn : alookup S.nodes nid with _ | node
      · rw [dt_state_term_nonode S nid dt props st hrun hterm hn]
        exact hinv
      · rw [dt_state_term_components S nid dt props st hrun hterm node hn]
        exact teardown_PDCInv S nid node
          { S with resources := node.resources.foldl (fun res ee => aupd res ee (fun r => { r with enabled := false })) S.resources }
          hinv hn rfl rfl rfl
          (fun k => alookup_foldl_aupd_idem (fun r => { r with enabled := false })
            (fun r => rfl) node.resources S.resources k)
          (foldl_aupd_keys _ node.resources S.resources)
    · unfold dt_state
      rw [if_neg hrun, if_neg hterm]
      exact hinv

/-! ### Heartbeat reconciliation preserves the invariant -/

/-- Erasing a upid from one pending set preserves the invariant. -/
theorem PDCInv_erase_pending (Y : PDC) (s u : String) (hinv : PDCInv Y) :
    PDCInv { Y with resources := aupd Y.resources s (fun r => { r with pending := r.pending.erase u }) } := by
  refine ⟨?_, hinv.nodup_nodes, ?_, ?_, ?_, ?_, ?_, ?_, hinv.queue_assigned, ?_⟩
  · show ((aupd Y.resources s _).map Prod.fst).Nodup
    rw [aupd_keys]
    exact hinv.nodup_resources
  · intro k r hk
    by_cases hks : s = k
    · subst hks
      rw [alookup_aupd_self] at hk
      rcases hly : alookup Y.resources s with _ | r0
      · rw [hly] at hk
        cases hk
      · rw [hly] at hk
        injection hk with hk
        rw [← hk]
        exact hinv.keys_resources s r0 hly
    · rw [alookup_aupd_ne _ _ _ _ hks] at hk
      exact hinv.keys_resources k r hk
  · intro k r hk
    by_cases hks : s = k
    · subst hks
      rw [alookup_aupd_self] at hk
      rcases hly : alookup Y.resources s with _ | r0
      · rw [hly] at hk
        cases hk
      · rw [hly] at hk
        injection hk with hk
        rw [← hk]
        exact (hinv.pending_nodup s r0 hly).erase u
    · rw [alookup_aupd_ne _ _ _ _ hks] at hk
      exact hinv.pending_nodup k r hk
  · intro k r hk
    by_cases hks : s = k
    · subst hks
      rw [alookup_aupd_self] at hk
      rcases hly : alookup Y.resources s with _ | r0
      · rw [hly] at hk
        cases hk
      · rw [hly] at hk
        injection hk with hk
        rw [← hk]
        exact hinv.processes_nodup s r0 hly
    · rw [alookup_aupd_ne _ _ _ _ hks] at hk
      exact hinv.processes_nodup k r hk
  · intro k r hk v hv
    by_cases hks : s = k
    · subst hks
      rw [alookup_aupd_self] at hk
      rcases hly : alookup Y.resources s with _ | r0
      · rw [hly] at hk
        cases hk
      · rw [hly] at hk
        injection hk with hk
        rw [← hk] at hv ⊢
        exact hinv.pend_proc_disjoint s r0 hly v (List.mem_of_mem_erase hv)
    · rw [alookup_aupd_ne _ _ _ _ hks] at hk
      exact hinv.pend_proc_disjoint k r hk v hv
  · intro k r hk v hv
    by_cases hks : s = k
    · subst hks
      rw [alookup_aupd_self] at hk
      rcases hly : alookup Y.resources s with _ | r0
      · rw [hly] at hk
        cases hk
      · rw [hly] at hk
        injection hk with hk
        rw [← hk] at hv
        exact hinv.pending_assigned s r0 hly v (List.mem_of_mem_erase hv)
    · rw [alookup_aupd_ne _ _ _ _ hks] at hk
      exact hinv.pending_assigned k r hk v hv
  · intro k r hk v hv
    by_cases hks : s = k
    · subst hks
      rw [alookup_aupd_self] at hk
      rcases hly : alookup Y.resources s with _ | r0
      · rw [hly] at hk
        cases hk
      · rw [hly] at hk
        injection hk with hk
        rw [← hk] at hv
        exact hinv.processes_assigned s r0 hly v hv
    · rw [alookup_aupd_ne _ _ _ _ hks] at hk
      exact hinv.processes_assigned k r hk v hv
  · intro k n hk
    obtain ⟨hnd, hmeta⟩ := hinv.node_resources k n hk
    refine ⟨hnd, ?_⟩
    intro ee hee
    obtain ⟨hsome, hid⟩ := hmeta ee hee
    refine ⟨?_, hid⟩
    rw [alookup_aupd_isSome]
    exact hsome

/-- The virtual state with an empty running list satisfies the
invariant. -/
theorem PDCInv_virt_nil (X : PDC) (sender : String) (hinv : PDCInv X) :
    PDCInv (virt sender [] X) := by
  unfold virt
  refine ⟨?_, hinv.nodup_nodes, ?_, ?_, ?_, ?_, ?_, ?_, hinv.queue_assigned, ?_⟩
  · show ((aupd X.resources sender _).map Prod.fst).Nodup
    rw [aupd_keys]
    exact hinv.nodup_resources
  · intro k r hk
    by_cases hks : sender = k
    · subst hks
      rw [alookup_aupd_self] at hk
      rcases hly : alookup X.resources sender with _ | r0
      · rw [hly] at hk
        cases hk
      · rw [hly] at hk
        injection hk with hk
        rw [← hk]
        exact hinv.keys_resources sender r0 hly
    · rw [alookup_aupd_ne _ _ _ _ hks] at hk
      exact hinv.keys_resources k r hk
  · intro k r hk
    by_cases hks : sender = k
    · subst hks
      rw [alookup_aupd_self] at hk
      rcases hly : alookup X.resources sender with _ | r0
      · rw [hly] at hk
        cases hk
      · rw [hly] at hk
        injection hk with hk
        rw [← hk]
        exact hinv.pending_nodup sender r0 hly
    · rw [alookup_aupd_ne _ _ _ _ hks] at hk
      exact hinv.pending_nodup k r hk
  · intro k r hk
    by_cases hks : sender = k
    · subst hks
      rw [alookup_aupd_self] at hk
      rcases hly : alookup X.resources sender with _ | r0
      · rw [hly] at hk
        cases hk
      · rw [hly] at hk
        injection hk with hk
        rw [← hk]
        exact List.nodup_nil
    · rw [alookup_aupd_ne _ _ _ _ hks] at hk
      exact hinv.processes_nodup k r hk
  · intro k r hk v hv
    by_cases hks : sender = k
    · subst hks
      rw [alookup_aupd_self] at hk
      rcases hly : alookup X.resources sender with _ | r0
      · rw [hly] at hk
        cases hk
      · rw [hly] at hk
        injection hk with hk
        rw [← hk] at hv ⊢
        intro hm
        exact absurd hm (List.not_mem_nil v)
    · rw [alookup_aupd_ne _ _ _ _ hks] at hk
      exact hinv.pend_proc_disjoint k r hk v hv
  · intro k r hk v hv
    by_cases hks : sender = k
    · subst hks
      rw [alookup_aupd_self] at hk
      rcases hly : alookup X.resources sender with _ | r0
      · rw [hly] at hk
        cases hk
      · rw [hly] at hk
        injection hk with hk
        rw [← hk] at hv
        exact hinv.pending_assigned sender r0 hly v hv
    · rw [alookup_aupd_ne _ _ _ _ hks] at hk
      exact hinv.pending_assigned k r hk v hv
  · intro k r hk v hv
    by_cases hks : sender = k
    · subst hks
      rw [alookup_aupd_self] at hk
      rcases hly : alookup X.resources sender with _ | r0
      · rw [hly] at hk
        cases hk
      · rw [hly] at hk
        injection hk with hk
        rw [← hk] at hv
        exact absurd hv (List.not_mem_nil v)
    · rw [alookup_aupd_ne _ _ _ _ hks] at hk
      exact hinv.processes_assigned k r hk v hv
  · intro k n hk
    obtain ⟨hnd, hmeta⟩ := hinv.node_resources k n hk
    refine ⟨hnd, ?_⟩
    intro ee hee
    obtain ⟨hsome, hid⟩ := hmeta ee hee
    refine ⟨?_, hid⟩
    rw [alookup_aupd_isSome]
    exact hsome

/-- Appending an acknowledged upid (known, assigned to the sender, new
to the round, not pending) to the virtual running list preserves the
invariant. -/
theorem PDCInv_virt_append (X : PDC) (sender u : String) (Rl : List String) (p : ProcessRecord)
    (hinv : PDCInv (virt sender Rl X))
    (hp : alookup X.processes u = some p) (hass : p.assigned = some sender)
    (hnotR : u ∉ Rl)
    (hnp : ∀ r, alookup X.resources sender = some r → u ∉ r.pending) :
    PDCInv (virt sender (Rl ++ [u]) X) := by
  unfold virt at hinv ⊢
  have hkA : ∀ k, ¬ sender = k →
      alookup (aupd X.resources sender (fun r => { r with processes := Rl })) k =
        alookup X.resources k := fun k hks => alookup_aupd_ne _ _ _ _ hks
  refine ⟨?_, hinv.nodup_nodes, ?_, ?_, ?_, ?_, ?_, ?_, hinv.queue_assigned, ?_⟩
  · show ((aupd X.resources sender _).map Prod.fst).Nodup
    rw [aupd_keys]
    have h2 := hinv.nodup_resources
    rw [aupd_keys] at h2
    exact h2
  · intro k r hk
    by_cases hks : sender = k
    · subst hks
      rw [alookup_aupd_self] at hk
      rcases hly : alookup X.resources sender with _ | r0
      · rw [hly] at hk
        cases hk
      · rw [hly] at hk
        injection hk with hk
        rw [← hk]
        have hkA2 : alookup (aupd X.resources sender (fun r => { r with processes := Rl })) sender = some { r0 with processes := Rl } := by
          rw [alookup_aupd_self, hly]
          rfl
        exact hinv.keys_resources sender { r0 with processes := Rl } hkA2
    · rw [alookup_aupd_ne _ _ _ _ hks] at hk
      exact hinv.keys_resources k r (by rw [hkA k hks]; exact hk)
  · intro k r hk
    by_cases hks : sender = k
    · subst hks
      rw [alookup_aupd_self] at hk
      rcases hly : alookup X.resources sender with _ | r0
      · rw [hly] at hk
        cases hk
      · rw [hly] at hk
        injection hk with hk
        rw [← hk]
        have hkA2 : alookup (aupd X.resources sender (fun r => { r with processes := Rl })) sender = some { r0 with processes := Rl } := by
          rw [alookup_aupd_self, hly]
          rfl
        exact hinv.pending_nodup sender { r0 with processes := Rl } hkA2
    · rw [alookup_aupd_ne _ _ _ _ hks] at hk
      exact hinv.pending_nodup k r (by rw [hkA k hks]; exact hk)
  · intro k r hk
    by_cases hks : sender = k
    · subst hks
      rw [alookup_aupd_self] at hk
      rcases hly : alookup X.resources sender with _ | r0
      · rw [hly] at hk
        cases hk
      · rw [hly] at hk
        injection hk with hk
        rw [← hk]
        have hkA2 : alookup (aupd X.resources sender (fun r => { r with processes := Rl })) sender = some { r0 with processes := Rl } := by
          rw [alookup_aupd_self, hly]
          rfl
        have hRl : Rl.Nodup := hinv.processes_nodup sender { r0 with processes := Rl } hkA2
        show (Rl ++ [u]).Nodup
        rw [List.nodup_append]
        refine ⟨hRl, by simp, ?_⟩
        intro a ha hb
        have hau : a = u := by simpa using hb
        exact hnotR (hau ▸ ha)
    · rw [alookup_aupd_ne _ _ _ _ hks] at hk
      exact hinv.processes_nodup k r (by rw [hkA k hks]; exact hk)
  · intro k r hk v hv
    by_cases hks : sender = k
    · subst hks
      rw [alookup_aupd_self] at hk
      rcases hly : alookup X.resources sender with _ | r0
      · rw [hly] at hk
        cases hk
      · rw [hly] at hk
        injection hk with hk
        rw [← hk] at hv ⊢
        have hkA2 : alookup (aupd X.resources sender (fun r => { r with processes := Rl })) sender = some { r0 with processes := Rl } := by
          rw [alookup_aupd_self, hly]
          rfl
        show v ∉ Rl ++ [u]
        intro hm
        rcases List.mem_append.mp hm with hm2 | hm2
        · exact hinv.pend_proc_disjoint sender { r0 with processes := Rl } hkA2 v hv hm2
        · have hvu : v = u := by simpa using hm2
          exact hnp r0 hly (hvu ▸ hv)
    · rw [alookup_aupd_ne _ _ _ _ hks] at hk
      exact hinv.pend_proc_disjoint k r (by rw [hkA k hks]; exact hk) v hv
  · intro k r hk v hv
    by_cases hks : sender = k
    · subst hks
      rw [alookup_aupd_self] at hk
      rcases hly : alookup X.resources sender with _ | r0
      · rw [hly] at hk
        cases hk
      · rw [hly] at hk
        injection hk with hk
        rw [← hk] at hv
        have hkA2 : alookup (aupd X.resources sender (fun r => { r with processes := Rl })) sender = some { r0 with processes := Rl } := by
          rw [alookup_aupd_self, hly]
          rfl
        exact hinv.pending_assigned sender { r0 with processes := Rl } hkA2 v hv
    · rw [alookup_aupd_ne _ _ _ _ hks] at hk
      exact hinv.pending_assigned k r (by rw [hkA k hks]; exact hk) v hv
  · intro k r hk v hv
    by_cases hks : sender = k
    · subst hks
      rw [alookup_aupd_self] at hk
      rcases hly : alookup X.resources sender with _ | r0
      · rw [hly] at hk
        cases hk
      · rw [hly] at hk
        injection hk with hk
        rw [← hk] at hv
        have hkA2 : alookup (aupd X.resources sender (fun r => { r with processes := Rl })) sender = some { r0 with processes := Rl } := by
          rw [alookup_aupd_self, hly]
          rfl
        have hvm : v ∈ Rl ++ [u] := hv
        rcases List.mem_append.mp hvm with hm2 | hm2
        · exact hinv.processes_assigned sender { r0 with processes := Rl } hkA2 v hm2
        · have hvu : v = u := by simpa using hm2
          rw [hvu]
          exact ⟨p, hp, hass⟩
    · rw [alookup_aupd_ne _ _ _ _ hks] at hk
      exact hinv.processes_assigned k r (by rw [hkA k hks]; exact hk) v hv
  · intro k n hk
    obtain ⟨hnd, hmeta⟩ := hinv.node_resources k n hk
    refine ⟨hnd, ?_⟩
    intro ee hee
    obtain ⟨hsome, hid⟩ := hmeta ee hee
    refine ⟨?_, hid⟩
    rw [alookup_aupd_isSome]
    rw [alookup_aupd_isSome] at hsome
    exact hsome

/-- Registering a fresh EE resource on the first heartbeat preserves
the invariant. -/
theorem registration_PDCInv (S : PDC) (sender : String) (node : DeployedNode) (es : EngineSpec)
    (hinv : PDCInv S)
    (hnores : alookup S.resources sender = none)
    (hnode : alookup S.nodes (node_id_from_eeagent_name sender) = some node) :
    PDCInv { S with resources := aset S.resources sender { node_id := node_id_from_eeagent_name sender, ee_id := sender, slot_count := es.slots, properties := some (aset (node.properties.getD []) "engine_type" es.engine_id), processes := [], pending := [], enabled := true }, nodes := aupd S.nodes (node_id_from_eeagent_name sender) (fun n => { n with resources := n.resources ++ [sender] }) } := by
  have hsetne : ∀ k, ¬ sender = k → ∀ (v : ExecutionEngineResource),
      alookup (aset S.resources sender v) k = alookup S.resources k :=
    fun k hks v => alookup_aset_ne _ _ _ _ hks
  refine ⟨?_, ?_, ?_, ?_, ?_, ?_, ?_, ?_, hinv.queue_assigned, ?_⟩
  · show ((aset S.resources sender _).map Prod.fst).Nodup
    rw [aset_absent _ _ _ hnores, List.map_append]
    rw [List.nodup_append]
    refine ⟨hinv.nodup_resources, by simp, ?_⟩
    intro a ha hb
    have has : a = sender := by simpa using hb
    rw [has] at ha
    exact ((alookup_eq_none_iff S.resources sender).mp hnores) ha
  · show ((aupd S.nodes _ _).map Prod.fst).Nodup
    rw [aupd_keys]
    exact hinv.nodup_nodes
  · intro k r hk
    by_cases hks : sender = k
    · subst hks
      rw [alookup_aset_self] at hk
      injection hk with hk
      rw [← hk]
    · rw [hsetne k hks] at hk
      exact hinv.keys_resources k r hk
  · intro k r hk
    by_cases hks : sender = k
    · subst hks
      rw [alookup_aset_self] at hk
      injection hk with hk
      rw [← hk]
      exact List.nodup_nil
    · rw [hsetne k hks] at hk
      exact hinv.pending_nodup k r hk
  · intro k r hk
    by_cases hks : sender = k
    · subst hks
      rw [alookup_aset_self] at hk
      injection hk with hk
      rw [← hk]
      exact List.nodup_nil
    · rw [hsetne k hks] at hk
      exact hinv.processes_nodup k r hk
  · intro k r hk v hv
    by_cases hks : sender = k
    · subst hks
      rw [alookup_aset_self] at hk
      injection hk with hk
      rw [← hk] at hv
      exact absurd hv (List.not_mem_nil v)
    · rw [hsetne k hks] at hk
      exact hinv.pend_proc_disjoint k r hk v hv
  · intro k r hk v hv
    by_cases hks : sender = k
    · subst hks
      rw [alookup_aset_self] at hk
      injection hk with hk
      rw [← hk] at hv
      exact absurd hv (List.not_mem_nil v)
    · rw [hsetne k hks] at hk
      exact hinv.pending_assigned k r hk v hv
  · intro k r hk v hv
    by_cases hks : sender = k
    · subst hks
      rw [alookup_aset_self] at hk
      injection hk with hk
      rw [← hk] at hv
      exact absurd hv (List.not_mem_nil v)
    · rw [hsetne k hks] at hk
      exact hinv.processes_assigned k r hk v hv
  · intro k n hk
    by_cases hkn : node_id_from_eeagent_name sender = k
    · subst hkn
      rw [alookup_aupd_self, hnode] at hk
      injection hk with hk
      rw [← hk]
      obtain ⟨hnd, hmeta⟩ := hinv.node_resources (node_id_from_eeagent_name sender) node hnode
      constructor
      · show (node.resources ++ [sender]).Nodup
        rw [List.nodup_append]
        refine ⟨hnd, by simp, ?_⟩
        intro a ha hb
        have has : a = sender := by simpa using hb
        have hsome := (hmeta a ha).1
        rw [has, hnores] at hsome
        simp at hsome
      · intro ee hee
        rcases List.mem_append.mp hee with h2 | h2
        · obtain ⟨hsome, hid⟩ := hmeta ee h2
          refine ⟨?_, hid⟩
          have hes2 : ¬ sender = ee := by
            intro he
            rw [← he, hnores] at hsome
            simp at hsome
          rw [hsetne ee hes2]
          exact hsome
        · have hes : ee = sender := by simpa using h2
          rw [hes]
          constructor
          · rw [alookup_aset_self]
            rfl
          · rfl
    · rw [alookup_aupd_ne _ _ _ _ hkn] at hk
      obtain ⟨hnd, hmeta⟩ := hinv.node_resources k n hk
      refine ⟨hnd, ?_⟩
      intro ee hee
      obtain ⟨hsome, hid⟩ := hmeta ee hee
      refine ⟨?_, hid⟩
      have hes2 : ¬ sender = ee := by
        intro he
        rw [← he, hnores] at hsome
        simp at hsome
      rw [hsetne ee hes2]
      exact hsome

/-- Matchmaking a present unassigned unqueued record preserves the
invariant of the virtual heartbeat state (matchmaking consults the real
resource table but only touches the record, one pending set and the
queue, all of which commute with the running-list override). -/
theorem matchmake_virt_PDCInv (X : PDC) (sender u : String) (Rl : List String)
    (p : ProcessRecord)
    (hp : alookup X.processes u = some p) (hass : p.assigned = none)
    (hq : u ∉ X.queue)
    (hinv : PDCInv (virt sender Rl X)) :
    PDCInv (virt sender Rl (matchmakeProcess X u).1) := by
  have hpv : alookup (virt sender Rl X).processes u = some p := hp
  rcases matchmakeProcess_cases X u p hp with ⟨_, _, h⟩ | ⟨_, _, h⟩ | ⟨r, hmin, h⟩
  · rw [h]
    exact PDCInv_aset_keep (virt sender Rl X) u p { p with state := ProcessState.REJECTED }
      hinv hpv rfl
  · rw [h]
    have h1 := PDCInv_aset_keep (virt sender Rl X) u p { p with state := ProcessState.WAITING }
      hinv hpv rfl
    exact PDCInv_enqueue { virt sender Rl X with processes := aset (virt sender Rl X).processes u { p with state := ProcessState.WAITING } } u h1
      ⟨{ p with state := ProcessState.WAITING }, alookup_aset_self _ _ _, hass⟩
  · rw [h]
    have hnp := unassigned_not_placed (virt sender Rl X) u p hinv hpv hass
    have hres := PDCInv_dispatch_shape (virt sender Rl X) u
      { p with assigned := some r.ee_id, state := ProcessState.PENDING } r.ee_id hinv rfl hnp
    have hfq : (virt sender Rl X).queue.filter (fun v => !(v == u)) = (virt sender Rl X).queue := by
      apply List.filter_eq_self.mpr
      intro v hv
      have hvu : v ≠ u := fun he => hq (he ▸ hv)
      simp [hvu]
    rw [hfq] at hres
    have hre : aupd (aupd X.resources r.ee_id (fun res => { res with pending := listInsert res.pending u })) sender (fun res => { res with processes := Rl }) = aupd (aupd X.resources sender (fun res => { res with processes := Rl })) r.ee_id (fun res => { res with pending := listInsert res.pending u }) := by
      by_cases hes : r.ee_id = sender
      · subst hes
        rw [aupd_aupd_self, aupd_aupd_self]
      · exact aupd_comm_ne _ _ _ _ _ hes
    show PDCInv { X with processes := aset X.processes u { p with assigned := some r.ee_id, state := ProcessState.PENDING }, resources := aupd (aupd X.resources r.ee_id (fun res => { res with pending := listInsert res.pending u })) sender (fun res => { res with processes := Rl }), queue := X.queue }
    rw [hre]
    exact hres

/-- One heartbeat-loop iteration never touches another upid's record. -/
theorem hbStep_other (sender : String) (acc : HBAcc) (e : BeatProc) (v : String)
    (hne : v ≠ e.upid) :
    alookup (hbStep sender acc e).S.processes v = alookup acc.S.processes v := by
  unfold hbStep
  dsimp only
  rcases hP : alookup acc.S.processes e.upid with _ | p
  · rfl
  · by_cases hstale : e.round < p.round
    · simp only [if_pos hstale]
    · simp only [if_neg hstale]
      by_cases hsame : e.state = p.state
      · simp only [if_pos hsame]
      · simp only [if_neg hsame]
        by_cases hpr : p.state = ProcessState.PENDING ∧ e.state = ProcessState.RUNNING
        · simp only [if_pos hpr]
          exact alookup_aset_ne _ _ _ _ (fun h2 => hne h2.symm)
        · simp only [if_neg hpr]
          by_cases hTF : e.state = ProcessState.TERMINATED ∨ e.state = ProcessState.FAILED
          · simp only [if_pos hTF]
            by_cases hT : p.state = ProcessState.TERMINATING
            · simp only [if_pos hT]
              exact alookup_aset_ne _ _ _ _ (fun h2 => hne h2.symm)
            · simp only [if_neg hT]
              by_cases hPR : p.state = ProcessState.PENDING ∨ p.state = ProcessState.RUNNING
              · simp only [if_pos hPR]
                exact (matchmake_lookup_other _ e.upid v hne).trans
                  (alookup_aset_ne _ _ _ _ (fun h2 => hne h2.symm))
              · simp only [if_neg hPR]
          · simp only [if_neg hTF]

/-- One heartbeat-loop iteration either keeps the running list or
appends its own upid. -/
theorem hbStep_running (sender : String) (acc : HBAcc) (e : BeatProc) :
    (hbStep sender acc e).running = acc.running ∨
      (hbStep sender acc e).running = acc.running ++ [e.upid] := by
  unfold hbStep
  dsimp only
  by_cases hle : e.state ≤ ProcessState.RUNNING
  · simp only [if_pos hle]
    right
    rcases hP : alookup acc.S.processes e.upid with _ | p
    · rfl
    · by_cases hstale : e.round < p.round
      · simp only [if_pos hstale]
      · simp only [if_neg hstale]
        by_cases hsame : e.state = p.state
        · simp only [if_pos hsame]
        · simp only [if_neg hsame]
          by_cases hpr : p.state = ProcessState.PENDING ∧ e.state = ProcessState.RUNNING
          · simp only [if_pos hpr]
          · simp only [if_neg hpr]
            by_cases hTF : e.state = ProcessState.TERMINATED ∨ e.state = ProcessState.FAILED
            · simp only [if_pos hTF]
              by_cases hT : p.state = ProcessState.TERMINATING
              · simp only [if_pos hT]
              · simp only [if_neg hT]
                by_cases hPR : p.state = ProcessState.PENDING ∨ p.state = ProcessState.RUNNING
                · simp only [if_pos hPR]
                · simp only [if_neg hPR]
            · simp only [if_neg hTF]
  · simp only [if_neg hle]
    left
    rcases hP : alookup acc.S.processes e.upid with _ | p
    · rfl
    · by_cases hstale : e.round < p.round
      · simp only [if_pos hstale]
      · simp only [if_neg hstale]
        by_cases hsame : e.state = p.state
        · simp only [if_pos hsame]
        · simp only [if_neg hsame]
          by_cases hpr : p.state = ProcessState.PENDING ∧ e.state = ProcessState.RUNNING
          · simp only [if_pos hpr]
          · simp only [if_neg hpr]
            by_cases hTF : e.state = ProcessState.TERMINATED ∨ e.state = ProcessState.FAILED
            · simp only [if_pos hTF]
              by_cases hT : p.state = ProcessState.TERMINATING
              · simp only [if_pos hT]
              · simp only [if_neg hT]
                by_cases hPR : p.state = ProcessState.PENDING ∨ p.state = ProcessState.RUNNING
                · simp only [if_pos hPR]
                · simp only [if_neg hPR]
            · simp only [if_neg hTF]

/-- One honest heartbeat-loop iteration preserves the invariant of the
virtual state. -/
theorem hbStep_PDCInv (Spre : PDC) (sender : String) (acc : HBAcc) (e : BeatProc)
    (hrec : alookup acc.S.processes e.upid = alookup Spre.processes e.upid)
    (hhon1 : e.state ≤ ProcessState.RUNNING →
      ∃ p, alookup Spre.processes e.upid = some p ∧ e.round = p.round ∧
        p.assigned = some sender)
    (hhon2 : (e.state = ProcessState.TERMINATED ∨ e.state = ProcessState.FAILED) →
      ∀ p, alookup Spre.processes e.upid = some p → p.round ≤ e.round →
        p.assigned = some sender)
    (hdisj : ∀ v ∈ acc.running, v ≠ e.upid)
    (hinv : PDCInv (virt sender acc.running acc.S)) :
    PDCInv (virt sender (hbStep sender acc e).running (hbStep sender acc e).S) := by
  unfold hbStep
  dsimp only
  rcases hP : alookup acc.S.processes e.upid with _ | p
  · by_cases hle : e.state ≤ ProcessState.RUNNING
    · exfalso
      obtain ⟨p2, hp2, _, _⟩ := hhon1 hle
      rw [hrec, hp2] at hP
      cases hP
    · simp only [if_neg hle]
      exact hinv
  · have hpre : alookup Spre.processes e.upid = some p := by
      rw [← hrec]
      exact hP
    by_cases hstale : e.round < p.round
    · simp only [if_pos hstale]
      by_cases hle : e.state ≤ ProcessState.RUNNING
      · exfalso
        obtain ⟨p2, hp2, hrnd, _⟩ := hhon1 hle
        rw [hpre] at hp2
        injection hp2 with e2
        rw [← e2] at hrnd
        omega
      · simp only [if_neg hle]
        exact hinv
    · simp only [if_neg hstale]
      set S0 : PDC := { acc.S with resources := aupd acc.S.resources sender (fun r => { r with pending := r.pending.erase e.upid }) } with hS0def
      have hers : aupd (aupd acc.S.resources sender (fun r => { r with pending := r.pending.erase e.upid })) sender (fun r => { r with processes := acc.running }) = aupd (aupd acc.S.resources sender (fun r => { r with processes := acc.running })) sender (fun r => { r with pending := r.pending.erase e.upid }) := by
        rw [aupd_aupd_self, aupd_aupd_self]
      have hinv0 : PDCInv (virt sender acc.running S0) := by
        have h2 := PDCInv_erase_pending (virt sender acc.running acc.S) sender e.upid hinv
        show PDCInv { acc.S with resources := aupd (aupd acc.S.resources sender (fun r => { r with pending := r.pending.erase e.upid })) sender (fun r => { r with processes := acc.running }) }
        rw [hers]
        exact h2
      have hP0 : alookup S0.processes e.upid = some p := hP
      have hnotR : e.upid ∉ acc.running := fun hin => hdisj e.upid hin rfl
      have hnp0 : ∀ r, alookup S0.resources sender = some r → e.upid ∉ r.pending := by
        intro r hr
        have hr2 : alookup (aupd acc.S.resources sender (fun r2 => { r2 with pending := r2.pending.erase e.upid })) sender = some r := hr
        rw [alookup_aupd_self] at hr2
        rcases hly : alookup acc.S.resources sender with _ | r0
        · rw [hly] at hr2
          cases hr2
        · rw [hly] at hr2
          injection hr2 with hr2
          rw [← hr2]
          have hlv : alookup (virt sender acc.running acc.S).resources sender = some { r0 with processes := acc.running } := by
            show alookup (aupd acc.S.resources sender _) sender = _
            rw [alookup_aupd_self, hly]
            rfl
          have hnd0 : r0.pending.Nodup :=
            hinv.pending_nodup sender { r0 with processes := acc.running } hlv
          intro hmem
          exact ((hnd0.mem_erase_iff).mp hmem).1 rfl
      by_cases hsame : e.state = p.state
      · simp only [if_pos hsame]
        by_cases hle : e.state ≤ ProcessState.RUNNING
        · simp only [if_pos hle]
          obtain ⟨p2, hp2, hrnd, hassn⟩ := hhon1 hle
          rw [hpre] at hp2
          injection hp2 with e2
          rw [← e2] at hassn
          exact PDCInv_virt_append S0 sender e.upid acc.running p hinv0 hP0 hassn hnotR hnp0
        · simp only [if_neg hle]
          exact hinv0
      · simp only [if_neg hsame]
        by_cases hpr : p.state = ProcessState.PENDING ∧ e.state = ProcessState.RUNNING
        · simp only [if_pos hpr]
          have hle : e.state ≤ ProcessState.RUNNING := by
            rw [hpr.2]
            decide
          simp only [if_pos hle]
          obtain ⟨p2, hp2, hrnd, hassn⟩ := hhon1 hle
          rw [hpre] at hp2
          injection hp2 with e2
          rw [← e2] at hassn
          have hinv1 := PDCInv_aset_keep (virt sender acc.running S0) e.upid p
            { p with state := ProcessState.RUNNING } hinv0 hP0 rfl
          exact PDCInv_virt_append
            { S0 with processes := aset S0.processes e.upid { p with state := ProcessState.RUNNING } }
            sender e.upid acc.running { p with state := ProcessState.RUNNING } hinv1
            (alookup_aset_self _ _ _) hassn hnotR hnp0
        · simp only [if_neg hpr]
          by_cases hTF : e.state = ProcessState.TERMINATED ∨ e.state = ProcessState.FAILED
          · simp only [if_pos hTF]
            have hle : ¬ e.state ≤ ProcessState.RUNNING := by
              rcases hTF with h2 | h2 <;> rw [h2] <;> decide
            simp only [if_neg hle]
            have hassn : p.assigned = some sender := hhon2 hTF p hpre (Nat.le_of_not_lt hstale)
            have hnocol : ∀ k r, alookup (virt sender acc.running S0).resources k = some r →
                ¬(e.upid ∈ r.pending ∨ e.upid ∈ r.processes) := by
              intro k r hk hmem
              by_cases hks : sender = k
              · subst hks
                have hk2 : alookup (aupd (aupd acc.S.resources sender (fun r2 => { r2 with pending := r2.pending.erase e.upid })) sender (fun r2 => { r2 with processes := acc.running })) sender = some r := hk
                rw [aupd_aupd_self, alookup_aupd_self] at hk2
                rcases hly : alookup acc.S.resources sender with _ | r0
                · rw [hly] at hk2
                  cases hk2
                · rw [hly] at hk2
                  injection hk2 with hk2
                  have hlv : alookup (virt sender acc.running acc.S).resources sender = some { r0 with processes := acc.running } := by
                    show alookup (aupd acc.S.resources sender _) sender = _
                    rw [alookup_aupd_self, hly]
                    rfl
                  have hnd0 : r0.pending.Nodup :=
                    hinv.pending_nodup sender { r0 with processes := acc.running } hlv
                  rcases hmem with hm | hm
                  · rw [← hk2] at hm
                    exact ((hnd0.mem_erase_iff).mp hm).1 rfl
                  · rw [← hk2] at hm
                    exact hdisj e.upid hm rfl
              · have hk2 : alookup acc.S.resources k = some r := by
                  have hk3 : alookup (aupd (aupd acc.S.resources sender (fun r2 => { r2 with pending := r2.pending.erase e.upid })) sender (fun r2 => { r2 with processes := acc.running })) k = some r := hk
                  rw [alookup_aupd_ne _ _ _ _ hks, alookup_aupd_ne _ _ _ _ hks] at hk3
                  exact hk3
                have hkv : alookup (virt sender acc.running acc.S).resources k = some r := by
                  show alookup (aupd acc.S.resources sender _) k = some r
                  rw [alookup_aupd_ne _ _ _ _ hks]
                  exact hk2
                have hpv : alookup (virt sender acc.running acc.S).processes e.upid = some p := hP
                obtain ⟨hnp1, hnp2⟩ := assigned_some_only (virt sender acc.running acc.S) e.upid p
                  sender hinv hpv hassn k r hkv (fun h2 => hks h2.symm)
                rcases hmem with hm | hm
                · exact hnp1 hm
                · exact hnp2 hm
            by_cases hT : p.state = ProcessState.TERMINATING
            · simp only [if_pos hT]
              exact PDCInv_aset_any (virt sender acc.running S0) e.upid
                { p with state := ProcessState.TERMINATED, assigned := none } hinv0
                (fun _ => rfl)
                (fun k r hk hm => absurd hm (hnocol k r hk))
            · simp only [if_neg hT]
              by_cases hPR : p.state = ProcessState.PENDING ∨ p.state = ProcessState.RUNNING
              · simp only [if_pos hPR]
                have hinv1 : PDCInv (virt sender acc.running { S0 with processes := aset S0.processes e.upid { p with state := ProcessState.DIED_REQUESTED, assigned := none, round := p.round + 1 } }) :=
                  PDCInv_aset_any (virt sender acc.running S0) e.upid
                    { p with state := ProcessState.DIED_REQUESTED, assigned := none, round := p.round + 1 } hinv0
                    (fun _ => rfl)
                    (fun k r hk hm => absurd hm (hnocol k r hk))
                have hq1 : e.upid ∉ ({ S0 with processes := aset S0.processes e.upid { p with state := ProcessState.DIED_REQUESTED, assigned := none, round := p.round + 1 } } : PDC).queue := by
                  have hpv : alookup (virt sender acc.running acc.S).processes e.upid = some p := hP
                  exact assigned_some_not_queue (virt sender acc.running acc.S) e.upid p sender
                    hinv hpv hassn
                exact matchmake_virt_PDCInv
                  { S0 with processes := aset S0.processes e.upid { p with state := ProcessState.DIED_REQUESTED, assigned := none, round := p.round + 1 } }
                  sender e.upid acc.running
                  { p with state := ProcessState.DIED_REQUESTED, assigned := none, round := p.round + 1 }
                  (alookup_aset_self _ _ _) rfl hq1 hinv1
              · simp only [if_neg hPR]
                exact hinv0
          · simp only [if_neg hTF]
            by_cases hle : e.state ≤ ProcessState.RUNNING
            · simp only [if_pos hle]
              obtain ⟨p2, hp2, hrnd, hassn⟩ := hhon1 hle
              rw [hpre] at hp2
              injection hp2 with e2
              rw [← e2] at hassn
              exact PDCInv_virt_append S0 sender e.upid acc.running p hinv0 hP0 hassn hnotR hnp0
            · simp only [if_neg hle]
              exact hinv0

theorem mem_listInsert_of_mem (l : List String) (x v : String) (h : v ∈ l) :
    v ∈ listInsert l x := by
  unfold listInsert
  by_cases hx : x ∈ l
  · rw [if_pos hx]
    exact h
  · rw [if_neg hx]
    exact List.mem_append_left _ h

/-- The `_consider_resource` dispatch loop preserves the invariant of
the queue-virtual state: already-dispatched upids are PENDING on the
target resource, re-dispatching one is a no-op, and a fresh dispatch is
the dispatched-match shape plus the virtual dequeue. -/
theorem considerLoop_PDCInv (ee : String) :
    ∀ (rest : List String) (X : PDC) (effs : List Effect) (matched : List String),
      (∀ v ∈ rest, v ∈ X.queue) →
      (∀ v ∈ matched, ∃ p, alookup X.processes v = some p ∧ p.assigned = some ee ∧
        p.state = ProcessState.PENDING ∧
        ∀ r, alookup X.resources ee = some r → v ∈ r.pending) →
      PDCInv (qvirt X matched) →
      PDCInv (qvirt (considerLoop ee X effs matched rest).1
          (considerLoop ee X effs matched rest).2.2) ∧
        (considerLoop ee X effs matched rest).1.queue = X.queue := by
  intro rest
  induction rest with
  | nil =>
    intro X effs matched _ _ hinv
    exact ⟨hinv, rfl⟩
  | cons u t ih =>
    intro X effs matched hq hm hinv
    unfold considerLoop
    rcases hp : alookup X.processes u with _ | p
    · simp only [hp]
      exact ih X effs matched (fun v hv => hq v (List.mem_cons_of_mem u hv)) hm hinv
    · simp only [hp]
      rcases hre : alookup X.resources ee with _ | r
      · simp only [hre]
        exact ih X effs matched (fun v hv => hq v (List.mem_cons_of_mem u hv)) hm hinv
      · simp only [hre]
        by_cases hmc : match_constraints p.constraints r.properties = true
        · rw [if_pos hmc]
          by_cases hslots : r.available_slots = 0
          · rw [if_pos hslots]
            exact ⟨hinv, rfl⟩
          · rw [if_neg hslots]
            have hd : dispatchMatchedProcess X u ee = ({ X with processes := aset X.processes u { p with assigned := some ee, state := ProcessState.PENDING }, resources := aupd X.resources ee (fun r2 => { r2 with pending := listInsert r2.pending u }) }, [Effect.launch_process ee u p.round p.spec.run_type p.spec.parameters]) := by
              unfold dispatchMatchedProcess
              simp only [hp]
            by_cases humatched : u ∈ matched
            · -- re-dispatch of an already matched upid is a no-op
              obtain ⟨p0, hp0, hass0, hst0, hpend0⟩ := hm u humatched
              have he0 : p = p0 := by
                rw [hp] at hp0
                injection hp0 with he0
              have h1 : p.assigned = some ee := by
                rw [he0]
                exact hass0
              have h2 : p.state = ProcessState.PENDING := by
                rw [he0]
                exact hst0
              have hpp : { p with assigned := some ee, state := ProcessState.PENDING } = p := by
                rw [← h1, ← h2]
              have hsetid : aset X.processes u { p with assigned := some ee, state := ProcessState.PENDING } = X.processes := by
                rw [hpp]
                exact aset_lookup_eq _ _ _ hp
              have haupdid : aupd X.resources ee (fun r2 => { r2 with pending := listInsert r2.pending u }) = X.resources := by
                apply aupd_lookup_id _ _ _ r hre
                have hu0 : u ∈ r.pending := hpend0 r hre
                show ({ r with pending := listInsert r.pending u } : ExecutionEngineResource) = r
                unfold listInsert
                rw [if_pos hu0]
              have hXeq : (dispatchMatchedProcess X u ee).1 = X := by
                rw [hd]
                show ({ X with processes := aset X.processes u { p with assigned := some ee, state := ProcessState.PENDING }, resources := aupd X.resources ee (fun r2 => { r2 with pending := listInsert r2.pending u }) } : PDC) = X
                rw [hsetid, haupdid]
              have hm' : ∀ v ∈ matched ++ [u], ∃ p2, alookup X.processes v = some p2 ∧
                  p2.assigned = some ee ∧ p2.state = ProcessState.PENDING ∧
                  ∀ r2, alookup X.resources ee = some r2 → v ∈ r2.pending := by
                intro v hv
                rcases List.mem_append.mp hv with h3 | h3
                · exact hm v h3
                · have hvu : v = u := by simpa using h3
                  rw [hvu]
                  exact hm u humatched
              have hqv : qvirt X (matched ++ [u]) = qvirt X matched := by
                unfold qvirt
                have hfe : X.queue.filter (fun v => !((matched ++ [u]).contains v)) = X.queue.filter (fun v => !(matched.contains v)) := by
                  apply List.filter_congr
                  intro v _
                  by_cases hvm : v ∈ matched
                  · simp [hvm]
                  · by_cases hvu : v = u
                    · subst hvu
                      exact absurd humatched hvm
                    · simp [hvm, hvu]
                rw [hfe]
              have hres := ih X (effs ++ (dispatchMatchedProcess X u ee).2) (matched ++ [u])
                (fun v hv => hq v (List.mem_cons_of_mem u hv)) hm' (by rw [hqv]; exact hinv)
              rw [hXeq]
              exact hres
            · -- fresh dispatch
              have huq : u ∈ (qvirt X matched).queue := by
                apply List.mem_filter.mpr
                refine ⟨hq u (List.mem_cons_self u t), ?_⟩
                simpa using humatched
              obtain ⟨p1, hp1, hass1⟩ := hinv.queue_assigned u huq
              have hp1X : alookup X.processes u = some p1 := hp1
              have he1 : p1 = p := by
                rw [hp] at hp1X
                injection hp1X with he1
                exact he1.symm
              have hassp : p.assigned = none := by
                rw [← he1]
                exact hass1
              have hpq : alookup (qvirt X matched).processes u = some p := hp
              have hnp := unassigned_not_placed (qvirt X matched) u p hinv hpq hassp
              have hres := PDCInv_dispatch_shape (qvirt X matched) u
                { p with assigned := some ee, state := ProcessState.PENDING } ee hinv rfl hnp
              have hqeq : X.queue.filter (fun v => !((matched ++ [u]).contains v)) = (X.queue.filter (fun v => !(matched.contains v))).filter (fun v => !(v == u)) := by
                rw [List.filter_filter]
                apply List.filter_congr
                intro v _
                show (!((matched ++ [u]).contains v)) = (!(v == u) && !(matched.contains v))
                by_cases hvm : v ∈ matched
                · simp [hvm]
                · by_cases hvu : v = u
                  · subst hvu
                    simp [hvm]
                  · simp [hvm, hvu]
              have hinv' : PDCInv (qvirt (dispatchMatchedProcess X u ee).1 (matched ++ [u])) := by
                rw [hd]
                show PDCInv { X with processes := aset X.processes u { p with assigned := some ee, state := ProcessState.PENDING }, resources := aupd X.resources ee (fun r2 => { r2 with pending := listInsert r2.pending u }), queue := X.queue.filter (fun v => !((matched ++ [u]).contains v)) }
                rw [hqeq]
                exact hres
              have hm' : ∀ v ∈ matched ++ [u], ∃ p2,
                  alookup (dispatchMatchedProcess X u ee).1.processes v = some p2 ∧
                  p2.assigned = some ee ∧ p2.state = ProcessState.PENDING ∧
                  ∀ r2, alookup (dispatchMatchedProcess X u ee).1.resources ee = some r2 →
                    v ∈ r2.pending := by
                intro v hv
                rcases List.mem_append.mp hv with h3 | h3
                · obtain ⟨p2, hp2, hass2, hst2, hpend2⟩ := hm v h3
                  have hvu : v ≠ u := fun he => humatched (he ▸ h3)
                  refine ⟨p2, ?_, hass2, hst2, ?_⟩
                  · rw [hd]
                    show alookup (aset X.processes u _) v = some p2
                    rw [alookup_aset_ne _ _ _ _ (fun h4 => hvu h4.symm)]
                    exact hp2
                  · intro r2 hr2
                    rw [hd] at hr2
                    have hr3 : alookup (aupd X.resources ee (fun r3 => { r3 with pending := listInsert r3.pending u })) ee = some r2 := hr2
                    rw [alookup_aupd_self, hre] at hr3
                    injection hr3 with hr3
                    rw [← hr3]
                    exact mem_listInsert_of_mem _ _ _ (hpend2 r hre)
                · have hvu : v = u := by simpa using h3
                  rw [hvu]
                  refine ⟨{ p with assigned := some ee, state := ProcessState.PENDING }, ?_, rfl, rfl, ?_⟩
                  · rw [hd]
                    exact alookup_aset_self _ _ _
                  · intro r2 hr2
                    rw [hd] at hr2
                    have hr3 : alookup (aupd X.resources ee (fun r3 => { r3 with pending := listInsert r3.pending u })) ee = some r2 := hr2
                    rw [alookup_aupd_self, hre] at hr3
                    injection hr3 with hr3
                    rw [← hr3]
                    exact self_mem_listInsert _ _
              have hq' : ∀ v ∈ t, v ∈ (dispatchMatchedProcess X u ee).1.queue := by
                intro v hv
                rw [hd]
                exact hq v (List.mem_cons_of_mem u hv)
              have hres2 := ih (dispatchMatchedProcess X u ee).1
                (effs ++ (dispatchMatchedProcess X u ee).2) (matched ++ [u]) hq' hm' hinv'
              refine ⟨hres2.1, ?_⟩
              rw [hres2.2, hd]
        · rw [if_neg hmc]
          exact ih X effs matched (fun v hv => hq v (List.mem_cons_of_mem u hv)) hm hinv

/-- `_consider_resource` preserves the invariant. -/
theorem considerResource_PDCInv (X : PDC) (ee : String) (hinv : PDCInv X) :
    PDCInv (considerResource X ee).1 := by
  unfold considerResource
  have hq0 : qvirt X [] = X := by
    unfold qvirt
    have hfe : X.queue.filter (fun v => !(([] : List String).contains v)) = X.queue := by
      apply List.filter_eq_self.mpr
      intro v _
      rfl
    rw [hfe]
  have hloop := considerLoop_PDCInv ee X.queue X [] [] (fun v hv => hv)
    (fun v hv => absurd hv (List.not_mem_nil v)) (by rw [hq0]; exact hinv)
  by_cases hne : (considerLoop ee X [] [] X.queue).2.2 ≠ []
  · rw [if_pos hne]
    have h2 := hloop.1
    unfold qvirt at h2
    rw [hloop.2] at h2
    show PDCInv { (considerLoop ee X [] [] X.queue).1 with queue := (considerLoop ee X [] [] X.queue).1.queue.filter (fun v => !((considerLoop ee X [] [] X.queue).2.2.contains v)) }
    rw [hloop.2]
    exact h2
  · rw [if_neg hne]
    have hnil : (considerLoop ee X [] [] X.queue).2.2 = [] := by
      by_contra h3
      exact hne h3
    have h2 := hloop.1
    rw [hnil] at h2
    have hq1 : qvirt (considerLoop ee X [] [] X.queue).1 [] = (considerLoop ee X [] [] X.queue).1 := by
      unfold qvirt
      have hfe : (considerLoop ee X [] [] X.queue).1.queue.filter (fun v => !(([] : List String).contains v)) = (considerLoop ee X [] [] X.queue).1.queue := by
        apply List.filter_eq_self.mpr
        intro v _
        rfl
      rw [hfe]
    rw [hq1] at h2
    exact h2

/-- The whole honest reconciliation loop preserves the invariant of the
virtual state. -/
theorem hbLoop_PDCInv (Spre : PDC) (sender : String) :
    ∀ (rest : List BeatProc) (acc : HBAcc),
      (rest.map (fun e2 => e2.upid)).Nodup →
      (∀ e2 ∈ rest, ∀ v ∈ acc.running, v ≠ e2.upid) →
      (∀ e2 ∈ rest, alookup acc.S.processes e2.upid = alookup Spre.processes e2.upid) →
      (∀ e2 ∈ rest, e2.state ≤ ProcessState.RUNNING →
        ∃ p, alookup Spre.processes e2.upid = some p ∧ e2.round = p.round ∧
          p.assigned = some sender) →
      (∀ e2 ∈ rest, (e2.state = ProcessState.TERMINATED ∨ e2.state = ProcessState.FAILED) →
        ∀ p, alookup Spre.processes e2.upid = some p → p.round ≤ e2.round →
          p.assigned = some sender) →
      PDCInv (virt sender acc.running acc.S) →
      PDCInv (virt sender (rest.foldl (hbStep sender) acc).running
        (rest.foldl (hbStep sender) acc).S) := by
  intro rest
  induction rest with
  | nil =>
    intro acc _ _ _ _ _ hinv
    exact hinv
  | cons e t ih =>
    intro acc hnd hdisj hrec hhon1 hhon2 hinv
    rw [List.map_cons, List.nodup_cons] at hnd
    have hstep := hbStep_PDCInv Spre sender acc e (hrec e (List.mem_cons_self e t))
      (hhon1 e (List.mem_cons_self e t)) (hhon2 e (List.mem_cons_self e t))
      (fun v hv => hdisj e (List.mem_cons_self e t) v hv) hinv
    refine ih (hbStep sender acc e) hnd.2 ?_ ?_ ?_ ?_ hstep
    · intro e2 he2 v hv
      rcases hbStep_running sender acc e with hr | hr
      · rw [hr] at hv
        exact hdisj e2 (List.mem_cons_of_mem e he2) v hv
      · rw [hr] at hv
        rcases List.mem_append.mp hv with h2 | h2
        · exact hdisj e2 (List.mem_cons_of_mem e he2) v h2
        · have hve : v = e.upid := by simpa using h2
          rw [hve]
          intro heq
          apply hnd.1
          rw [heq]
          exact List.mem_map.mpr ⟨e2, he2, rfl⟩
    · intro e2 he2
      have hne : e2.upid ≠ e.upid := by
        intro heq
        apply hnd.1
        rw [← heq]
        exact List.mem_map.mpr ⟨e2, he2, rfl⟩
      rw [hbStep_other sender acc e e2.upid hne]
      exact hrec e2 (List.mem_cons_of_mem e he2)
    · intro e2 he2
      exact hhon1 e2 (List.mem_cons_of_mem e he2)
    · intro e2 he2
      exact hhon2 e2 (List.mem_cons_of_mem e he2)

/-- An honest `ee_heartbeart` preserves the invariant. -/
theorem heartbeat_PDCInv (S : PDC) (sender : String) (beat : List BeatProc)
    (hinv : PDCInv S) (hb : honestBeat S sender beat) :
    PDCInv (ee_heartbeart S sender beat).1 := by
  obtain ⟨hbnd, hbon1, hbon2⟩ := hb
  unfold ee_heartbeart
  dsimp only
  rcases hres : alookup S.resources sender with _ | r0
  · simp only [hres]
    rcases hnode : alookup S.nodes (node_id_from_eeagent_name sender) with _ | node
    · simp only [hnode]
      exact hinv
    · simp only [hnode]
      rcases hes : getEngineByDt S.ee_registry node.dt with _ | es
      · simp only [hes]
        exact hinv
      · simp only [hes]
        have hinv1 := registration_PDCInv S sender node es hinv hres hnode
        have hS2 := hbLoop_PDCInv S sender beat
          { S := { S with resources := aset S.resources sender { node_id := node_id_from_eeagent_name sender, ee_id := sender, slot_count := es.slots, properties := some (aset (node.properties.getD []) "engine_type" es.engine_id), processes := [], pending := [], enabled := true }, nodes := aupd S.nodes (node_id_from_eeagent_name sender) (fun n => { n with resources := n.resources ++ [sender] }) }, effs := [], running := [] }
          hbnd
          (fun e2 _ v hv => absurd hv (List.not_mem_nil v))
          (fun e2 _ => rfl) hbon1 hbon2
          (PDCInv_virt_nil _ sender hinv1)
        split
        · exact considerResource_PDCInv _ sender hS2
        · exact hS2
  · simp only [hres]
    have hS2 := hbLoop_PDCInv S sender beat { S := S, effs := [], running := [] }
      hbnd
      (fun e2 _ v hv => absurd hv (List.not_mem_nil v))
      (fun e2 _ => rfl) hbon1 hbon2
      (PDCInv_virt_nil S sender hinv)
    split
    · exact considerResource_PDCInv _ sender hS2
    · exact hS2

/-- Every state reached from a fresh core through honest public
operations satisfies the invariant. -/
theorem ReachedHonest_PDCInv (S : PDC) (h : ReachedHonest S) : PDCInv S := by
  induction h with
  | init reg => exact PDCInv_init reg
  | step S o hS hop ih =>
    cases o with
    | dispatch u sp subs c i => exact dispatch_PDCInv S u sp subs c i ih
    | terminate u => exact terminate_PDCInv S u ih
    | dtState n d st pr => exact dtState_PDCInv S n d st pr ih
    | heartbeat s b => exact heartbeat_PDCInv S s b ih hop

/-- **C4** (corrected, amended): in any core state reached from a fresh
core through public operations whose heartbeats are honest (each process
reported at most once; a process reported at or below RUNNING is known,
current-round and assigned to the sender; a process reported dead at a
non-stale round is assigned to the sender), every upid occupies at most
one of the waiting queue, a pending set, a processes collection. The
unamended claim fails: a dishonest heartbeat (`exCrossBeat`) plants one
upid in two places. -/
theorem queue_pending_exclusive_honest (S : PDC) (h : ReachedHonest S) :
    ∀ u, atMostOnePlace S u = true :=
  PDCInv_exclusive S (ReachedHonest_PDCInv S h)

/-- Witness for C4: the honest trace registering two nodes, their first
heartbeats and the dispatch of `p` reaches `exDispatched`, where `p`
occupies exactly one place (n1's pending set). -/
theorem queue_pending_exclusive_honest_witness :
    atMostOnePlace exDispatched "p" = true := by
  have hempty : ∀ (X : PDC) (s : String), honestBeat X s [] := by
    intro X s
    refine ⟨List.nodup_nil, ?_, ?_⟩
    · intro e2 he2
      exact absurd he2 (List.not_mem_nil e2)
    · intro e2 he2
      exact absurd he2 (List.not_mem_nil e2)
  have h0 : ReachedHonest (PDC.init exReg) := ReachedHonest.init exReg
  have h1 : ReachedHonest exS1 :=
    ReachedHonest.step (PDC.init exReg) (PDOp.dtState "n1" "dt1" InstanceState.RUNNING none)
      h0 trivial
  have h2 : ReachedHonest exS2 :=
    ReachedHonest.step exS1 (PDOp.dtState "n2" "dt2" InstanceState.RUNNING none) h1 trivial
  have h3 : ReachedHonest exS3 :=
    ReachedHonest.step exS2 (PDOp.heartbeat "n1" []) h2 (hempty exS2 "n1")
  have h4 : ReachedHonest exS4 :=
    ReachedHonest.step exS3 (PDOp.heartbeat "n2" []) h3 (hempty exS3 "n2")
  have h5 : ReachedHonest exDispatched :=
    ReachedHonest.step exS4 (PDOp.dispatch "p" ⟨"rt", "pm"⟩ [] none false) h4 trivial
  exact queue_pending_exclusive_honest exDispatched h5 "p"

end Epu
